import Mathlib

/-!
Job scheduler (`Question1 Job Scheduler/job.cpp`): a shallow embedding.

The program keeps a store of jobs, two string interners, a waiting queue
(`std::priority_queue` of job ids under `job_comparator`), a min-queue of
busy-until timestamps, a timestamp-ordered log (`job_timestamp`) and a sparse
vector of queue snapshots (`job_queue_history`).  Each input line is one
command (`job`, `assign`, `query`); the embedding is a step function on an
explicit state, returning the records the command prints.

Conventions of the embedding.

* `uint64_t` values are natural numbers below `2^64`; the unsigned operations
  whose wrap-around can matter (`ts + duration`, `num_cpus - cpu_queue.size ()`,
  `ts - job_queue_history.back ().first`, `m - 1`) wrap around at `2^64`.
* `std::priority_queue` is modelled by its contract: the container is a list
  of elements in insertion order, `top ()` is a greatest element under the
  comparator (the one pushed first among equivalent ones), `pop ()` removes it.
* Operations with undefined behaviour in C++ (`pop ()` / `top ()` on an empty
  queue, `back ()` on an empty vector, an out-of-range `v[m]` in
  `binary_search`, an exception escaping `std::stoi`) make the embedded
  function return `none`.
* `jobs[i]` is read with a default job when `i` is out of range; every id that
  the program stores in a queue or in the log is a valid index.
-/

namespace JobScheduler

/-! ## Constants and data -/

/-- The `TIME_INTERVAL` define: minimum gap between two stored snapshots. -/
def TIME_INTERVAL : Nat := 50

/-- The `ASSIGN_ID` define: tag of a log entry written by an `assign`. -/
def ASSIGN_ID : Nat := 1

/-- The `JOB_ID` define: tag of a log entry written by a `job`. -/
def JOB_ID : Nat := 2

/-- Two to the power 64, the modulus of `uint64_t` arithmetic. -/
def U64 : Nat := 18446744073709551616

/-- Unsigned 64-bit addition. -/
def uadd64 (a b : Nat) : Nat := (a + b) % U64

/-- Unsigned 64-bit subtraction of two `uint64_t` values (both below `2^64`):
the difference, wrapped around when it would be negative. -/
def usub64 (a b : Nat) : Nat := if b ≤ a then a - b else U64 - (b - a)

/-- The `job` struct. -/
structure job where
  unique_id : Nat
  pid : Nat
  timestamp : Nat
  orig : Int
  instructions : Int
  importance : Int
  duration : Nat
  deriving DecidableEq, Repr, Inhabited

/-- One printed line: `job <timestamp> <pid> <orig> <instruction> <importance> <duration>`. -/
structure Record where
  timestamp : Nat
  pid : Nat
  orig : String
  instruction : String
  importance : Int
  duration : Nat
  deriving DecidableEq, Repr

/-! ## The `bimap` class (instantiated at `std::string`, `int`) -/

/-- Look a key up in an association list, the model of `std::unordered_map`. -/
def assocFind {κ ν : Type} [DecidableEq κ] (k : κ) : List (κ × ν) → Option ν
  | [] => none
  | (k', v) :: rest => if k' = k then some v else assocFind k rest

/-- The assignment `map[k] = v`: overwrite the value of `k`, or add the pair. -/
def assocSet {κ ν : Type} [DecidableEq κ] (k : κ) (v : ν) : List (κ × ν) → List (κ × ν)
  | [] => [(k, v)]
  | (k', v') :: rest => if k' = k then (k', v) :: rest else (k', v') :: assocSet k v rest

/-- The read `map[k]`: the stored value; a missing key is first inserted with
the value-initialised `dflt`, as `std::unordered_map::operator[]` does. -/
def assocIndex {κ ν : Type} [DecidableEq κ] (dflt : ν) (k : κ) (m : List (κ × ν)) :
    ν × List (κ × ν) :=
  match assocFind k m with
  | some v => (v, m)
  | none => (dflt, m ++ [(k, dflt)])

/-- The `bimap< std::string, int >` class: forward and backward maps. -/
structure bimap where
  map_f : List (String × Int)
  map_b : List (Int × String)
  deriving DecidableEq, Repr

namespace bimap

/-- The overload `bool exists (n x)`: is the string a key of the forward map? -/
def existsF (b : bimap) (x : String) : Bool := (assocFind x b.map_f).isSome

/-- The overload `bool exists (m x)`: is the code a key of the backward map? -/
def existsB (b : bimap) (x : Int) : Bool := (assocFind x b.map_b).isSome

/-- The method `add`: add the pair only if neither side exists already. -/
def add (b : bimap) (x1 : String) (x2 : Int) : bimap :=
  if !b.existsF x1 && !b.existsB x2 then
    { map_f := assocSet x1 x2 b.map_f, map_b := assocSet x2 x1 b.map_b }
  else b

/-- The overload `m operator[] (n x)`, that is `map_f[x]`. -/
def indexF (b : bimap) (x : String) : Int × bimap :=
  let r := assocIndex (0 : Int) x b.map_f
  (r.1, { b with map_f := r.2 })

/-- The overload `n operator[] (m x)`, that is `map_b[x]`. -/
def indexB (b : bimap) (x : Int) : String × bimap :=
  let r := assocIndex "" x b.map_b
  (r.1, { b with map_b := r.2 })

/-- The string a code stands for (what `map_b[x]` returns). -/
def stringOf (b : bimap) (x : Int) : String := (b.indexB x).1

end bimap

/-! ## Priority queues -/

/-- The call `top ()` of a `std::priority_queue` with comparator `lt`
(`lt a b` true: `b` comes out before `a`); `none` on an empty queue. -/
def pq_top {α : Type} (lt : α → α → Bool) : List α → Option α
  | [] => none
  | x :: xs =>
    match pq_top lt xs with
    | none => some x
    | some y => if lt x y then some y else some x

/-- The call `pop ()`: remove the top element; `none` on an empty queue. -/
def pq_pop {α : Type} [DecidableEq α] (lt : α → α → Bool) (q : List α) : Option (List α) :=
  match pq_top lt q with
  | none => none
  | some t => some (q.erase t)

/-- The call `push (x)`. -/
def pq_push {α : Type} (q : List α) (x : α) : List α := q ++ [x]

/-- The `job_comparator` functor, reading the two jobs from the store. -/
def job_comparator (jobs : List job) (l r : Nat) : Bool :=
  let lhs := jobs.getD l default
  let rhs := jobs.getD r default
  if lhs.importance ≠ rhs.importance then
    decide (lhs.importance < rhs.importance)
  else if lhs.timestamp ≠ rhs.timestamp then
    decide (lhs.timestamp > rhs.timestamp)
  else
    decide (lhs.duration > rhs.duration)

/-- The comparator `std::greater< time_stamp >` of `cpu_queue`. -/
def time_greater (a b : Nat) : Bool := decide (a > b)

/-! ## Program state -/

/-- The global variables of the program. -/
structure State where
  jobs : List job
  instruction_set : bimap
  orig_set : bimap
  inst_counter : Int
  orig_counter : Int
  counter : Nat
  job_timestamp : List (Nat × (Nat × Nat))
  job_queue : List Nat
  job_queue_history : List (Nat × List Nat)
  num_cpus : Nat
  cpu_queue : List Nat
  deriving DecidableEq, Repr

/-- The state on entry to the command loop: the three sentinel `push_back`s
of `main` and the number of CPUs read from the `cpus` line. -/
def init (num_cpus : Nat) : State :=
  { jobs := [default]
    instruction_set := ⟨[], []⟩
    orig_set := ⟨[], []⟩
    inst_counter := 0
    orig_counter := 0
    counter := 1
    job_timestamp := [(0, (0, 1))]
    job_queue := []
    job_queue_history := [(0, [])]
    num_cpus := num_cpus
    cpu_queue := [] }

/-- The generic `binary_search` loop: `fuel` bounds the number of iterations,
an out-of-range `v[m]` gives `none`. -/
def binary_search_loop {β : Type} (v : List (Nat × β)) (ts : Nat) :
    Nat → Nat → Nat → Nat → Option Nat
  | 0, _, _, _ => none
  | fuel + 1, l, u, idx =>
    if l ≤ u then
      let m := l + ((u - l) / 2)
      match v[m]? with
      | none => none
      | some e =>
        if e.1 = ts then binary_search_loop v ts fuel (m + 1) u m
        else if e.1 < ts then binary_search_loop v ts fuel (m + 1) u m
        else binary_search_loop v ts fuel l (usub64 m 1) idx
    else some idx

/-- The function `binary_search (v, ts)`. -/
def binary_search {β : Type} (v : List (Nat × β)) (ts : Nat) : Option Nat :=
  binary_search_loop v ts (v.length + 1) 0 (usub64 v.length 1) 0

/-! ## Printing -/

/-- The `std::cout << "job" << ...` statement for `temp_job`; the two
`operator[]` reads may insert a default entry in the backward maps. -/
def print_job (s : State) (temp_job : job) : State × Record :=
  let o := s.orig_set.indexB temp_job.orig
  let i := s.instruction_set.indexB temp_job.instructions
  ({ s with orig_set := o.2, instruction_set := i.2 },
   { timestamp := temp_job.timestamp, pid := temp_job.pid, orig := o.1, instruction := i.1,
     importance := temp_job.importance, duration := temp_job.duration })

/-- The record printed for the job with id `id` in state `s`. -/
def record_of (s : State) (id : Nat) : Record :=
  (print_job s (s.jobs.getD id default)).2

/-! ## The `job` command -/

/-- The branch `temp == "job"` of `main`. -/
def do_job (s : State) (timestamp pid : Nat) (orig instruction : String)
    (importance : Int) (duration : Nat) : State :=
  let s1 : State × Int :=
    if s.instruction_set.existsF instruction then
      let r := s.instruction_set.indexF instruction
      ({ s with instruction_set := r.2 }, r.1)
    else
      ({ s with instruction_set := s.instruction_set.add instruction s.inst_counter,
                inst_counter := s.inst_counter + 1 }, s.inst_counter)
  let s2 : State × Int :=
    if s1.1.orig_set.existsF orig then
      let r := s1.1.orig_set.indexF orig
      ({ s1.1 with orig_set := r.2 }, r.1)
    else
      ({ s1.1 with orig_set := s1.1.orig_set.add orig s1.1.orig_counter,
                   orig_counter := s1.1.orig_counter + 1 }, s1.1.orig_counter)
  let temp_job : job :=
    { unique_id := s2.1.counter, pid := pid, timestamp := timestamp, orig := s2.2,
      instructions := s1.2, importance := importance, duration := duration }
  { s2.1 with
    counter := uadd64 s2.1.counter 1
    jobs := s2.1.jobs ++ [temp_job]
    job_timestamp := s2.1.job_timestamp ++ [(timestamp, (temp_job.unique_id, JOB_ID))]
    job_queue := pq_push s2.1.job_queue temp_job.unique_id }

/-! ## The `assign` command -/

/-- The purge loop `while (!cpu_queue.empty () && cpu_queue.top () <= ts) cpu_queue.pop ();`
with `fuel` bounding the iterations. -/
def purge_loop (ts : Nat) : Nat → List Nat → List Nat
  | 0, q => q
  | fuel + 1, q =>
    match pq_top time_greater q with
    | none => q
    | some t => if t ≤ ts then purge_loop ts fuel (q.erase t) else q

/-- The purge loop run on a queue: one unit of fuel per element. -/
def purge (ts : Nat) (q : List Nat) : List Nat := purge_loop ts q.length q

/-- The loop `for (i = 0; i < num_processed; i++)` of `assign`: pop the top
job, print it, and push `ts + duration` on the CPU queue. -/
def assign_loop (ts : Nat) : Nat → State → Option (State × List Record)
  | 0, s => some (s, [])
  | n + 1, s =>
    match pq_top (job_comparator s.jobs) s.job_queue with
    | none => none
    | some t_uid =>
      let temp_job := s.jobs.getD t_uid default
      let s1 := { s with job_queue := s.job_queue.erase t_uid }
      let p := print_job s1 temp_job
      let s2 := { p.1 with cpu_queue := pq_push p.1.cpu_queue (uadd64 ts temp_job.duration) }
      match assign_loop ts n s2 with
      | none => none
      | some (s3, out) => some (s3, p.2 :: out)

/-- The number `num_processed` computed by `assign` after the purge. -/
def num_processed (s : State) (ts k : Nat) : Nat :=
  let free_cpus := usub64 s.num_cpus (purge ts s.cpu_queue).length
  let num_waiting := s.job_queue.length
  min k (min free_cpus num_waiting)

/-- The branch `temp == "assign"` of `main`. -/
def do_assign (s : State) (ts k : Nat) : Option (State × List Record) :=
  let s1 := { s with cpu_queue := purge ts s.cpu_queue }
  let n := num_processed s ts k
  match assign_loop ts n s1 with
  | none => none
  | some (s2, out) =>
    match s2.job_queue_history.getLast? with
    | none => none
    | some last =>
      if usub64 ts last.1 ≥ TIME_INTERVAL then
        some ({ s2 with job_queue_history := s2.job_queue_history ++ [(ts, s2.job_queue)] }, out)
      else
        some ({ s2 with job_timestamp := s2.job_timestamp ++ [(ts, (n, ASSIGN_ID))] }, out)

/-! ## The `query` command -/

/-- The test `isnum`: every character of the argument is a digit. -/
def isnum (orig : String) : Bool := orig.data.all Char.isDigit

/-- The call `std::stoi (orig)` on a string of digits: the decimal value, or
`none` when it throws (empty string, or a value above `INT_MAX`). -/
def stoi (orig : String) : Option Nat :=
  let v := orig.data.foldl (fun acc c => 10 * acc + (c.toNat - 48)) 0
  if orig.data = [] then none
  else if v ≤ 2147483647 then some v
  else none

/-- The loop `for (int i = 0; i < n; i++) result.pop ();`. -/
def pop_n (jobs : List job) : Nat → List Nat → Option (List Nat)
  | 0, result => some result
  | n + 1, result =>
    match pq_pop (job_comparator jobs) result with
    | none => none
    | some result' => pop_n jobs n result'

/-- The replay loop `while (job_idx < job_timestamp.size () && job_timestamp[job_idx].first <= ts)`,
run over the log entries from position `job_idx` on. -/
def replay_loop (jobs : List job) (ts : Nat) :
    List (Nat × (Nat × Nat)) → List Nat → Option (List Nat)
  | [], result => some result
  | e :: rest, result =>
    if e.1 ≤ ts then
      if e.2.2 = JOB_ID then
        replay_loop jobs ts rest (pq_push result e.2.1)
      else
        match pop_n jobs e.2.1 result with
        | none => none
        | some result' => replay_loop jobs ts rest result'
    else some result

/-- The reconstruction part of `query`: pick the snapshot by binary search,
find the log position by a second binary search, step past it and replay. -/
def reconstruct (s : State) (ts : Nat) : Option (List Nat) :=
  match binary_search s.job_queue_history ts with
  | none => none
  | some just_before_idx =>
    match s.job_queue_history[just_before_idx]? with
    | none => none
    | some snap =>
      match binary_search s.job_timestamp snap.1 with
      | none => none
      | some job_idx =>
        replay_loop s.jobs ts (s.job_timestamp.drop (job_idx + 1)) snap.2

/-- The loop `while (!result.empty () && k--)` of the top-k query. -/
def query_topk_loop : Nat → State → List Nat → State × List Record
  | 0, s, _ => (s, [])
  | k + 1, s, result =>
    match pq_top (job_comparator s.jobs) result with
    | none => (s, [])
    | some t =>
      let temp_job := s.jobs.getD t default
      let p := print_job s temp_job
      let r := query_topk_loop k p.1 (result.erase t)
      (r.1, p.2 :: r.2)

/-- The loop `while (!result.empty ())` of the origin query, with `fuel`
bounding the iterations. -/
def query_orig_loop (orig : String) : Nat → State → List Nat → State × List Record
  | 0, s, _ => (s, [])
  | fuel + 1, s, result =>
    match pq_top (job_comparator s.jobs) result with
    | none => (s, [])
    | some t =>
      let temp_job := s.jobs.getD t default
      let o := s.orig_set.indexB temp_job.orig
      let s1 := { s with orig_set := o.2 }
      if o.1 = orig then
        let p := print_job s1 temp_job
        let r := query_orig_loop orig fuel p.1 (result.erase t)
        (r.1, p.2 :: r.2)
      else
        query_orig_loop orig fuel s1 (result.erase t)

/-- The branch `temp == "query"` of `main`. -/
def do_query (s : State) (ts : Nat) (orig : String) : Option (State × List Record) :=
  match reconstruct s ts with
  | none => none
  | some result =>
    if isnum orig then
      match stoi orig with
      | none => none
      | some k => some (query_topk_loop k s result)
    else
      some (query_orig_loop orig result.length s result)

/-! ## Commands and runs -/

/-- One input line. -/
inductive Command where
  | job (timestamp pid : Nat) (orig instruction : String) (importance : Int) (duration : Nat)
  | assign (ts k : Nat)
  | query (ts : Nat) (arg : String)
  deriving DecidableEq, Repr

/-- The timestamp of a command. -/
def Command.ts : Command → Nat
  | .job t _ _ _ _ _ => t
  | .assign t _ => t
  | .query t _ => t

/-- One iteration of the command loop of `main`. -/
def step (s : State) : Command → Option (State × List Record)
  | .job t p o i imp d => some (do_job s t p o i imp d, [])
  | .assign t k => do_assign s t k
  | .query t a => do_query s t a

/-- The command loop: run the commands in order, collecting the output of
each one. -/
def run : State → List Command → Option (State × List (List Record))
  | s, [] => some (s, [])
  | s, c :: cs =>
    match step s c with
    | none => none
    | some (s1, out) =>
      match run s1 cs with
      | none => none
      | some (s2, outs) => some (s2, out :: outs)

/-! ## Specification-side definitions -/

/-- The ids that `n` successive `top ()` / `pop ()` calls take out of `q`,
in the order they come out. -/
def pop_list (jobs : List job) : Nat → List Nat → List Nat
  | 0, _ => []
  | n + 1, q =>
    match pq_top (job_comparator jobs) q with
    | none => []
    | some t => t :: pop_list jobs n (q.erase t)

/-- What is left of `q` after `n` successive `pop ()` calls (stopping early
on an empty queue). -/
def pop_rest (jobs : List job) : Nat → List Nat → List Nat
  | 0, q => q
  | n + 1, q =>
    match pq_top (job_comparator jobs) q with
    | none => q
    | some t => pop_rest jobs n (q.erase t)

/-- The queue listed in priority order, most urgent first: the order in
which a full drain pops its elements. -/
def priority_order (jobs : List job) (q : List Nat) : List Nat :=
  pop_list jobs q.length q

/-- The states the program can be in: those the command loop reaches from
the initial state for some number of CPUs that fits `uint64_t`. -/
inductive Reachable (n : Nat) : State → Prop
  | start : n < U64 → Reachable n (init n)
  | next {s s1 : State} {c : Command} {out : List Record} :
      Reachable n s → step s c = some (s1, out) → Reachable n s1

/-- The reference state of the waiting queue at time `T`: the live queue
after processing, from scratch, every command with timestamp at most `T`. -/
def reference_queue (n : Nat) (cmds : List Command) (T : Nat) : Option (List Nat) :=
  (run (init n) (cmds.filter (fun c => decide (c.ts ≤ T)))).map (fun r => r.1.job_queue)

/-- Two states print alike: they hold the same jobs and their interners give
every code the same string. -/
def SameView (s s1 : State) : Prop :=
  s1.jobs = s.jobs ∧ (∀ x, s1.orig_set.stringOf x = s.orig_set.stringOf x) ∧
    (∀ x, s1.instruction_set.stringOf x = s.instruction_set.stringOf x)

/-- Two states differ at most in the backward maps of the interners (the only
thing a printing statement can touch). -/
def SameButMaps (s s1 : State) : Prop :=
  s1.jobs = s.jobs ∧ s1.inst_counter = s.inst_counter ∧ s1.orig_counter = s.orig_counter ∧
    s1.counter = s.counter ∧ s1.job_timestamp = s.job_timestamp ∧
    s1.job_queue = s.job_queue ∧ s1.job_queue_history = s.job_queue_history ∧
    s1.num_cpus = s.num_cpus ∧ s1.cpu_queue = s.cpu_queue

/-- The invariant behind the unsigned arithmetic of `assign`. -/
def CapacityInv (s : State) : Prop :=
  s.num_cpus < U64 ∧ s.cpu_queue.length ≤ s.num_cpus ∧ s.job_queue_history ≠ []

/-- The ids of the jobs an `assign <ts> <k>` takes out of the waiting queue,
in the order it prints them. -/
def assigned_ids (s : State) (ts k : Nat) : List Nat :=
  pop_list s.jobs (num_processed s ts k) s.job_queue

/-- The importance of the job with id `id`. -/
def importance_of (s : State) (id : Nat) : Int := (s.jobs.getD id default).importance

/-- The origin string of the job with id `id`, as the program prints it. -/
def origin_of (s : State) (id : Nat) : String :=
  s.orig_set.stringOf (s.jobs.getD id default).orig

/-- The state after the two `job` commands of the documented scenario
(`cpus 2`, `job 0 1 org1 instrA 5 10`, `job 1 2 org2 instrB 3 10`). -/
def two_jobs_state : State :=
  do_job (do_job (init 2) 0 1 "org1" "instrA" 5 10) 1 2 "org2" "instrB" 3 10

/-- The documented scenario with the two jobs arriving at times 1 and 2
(`cpus 2`, `job 1 1 org1 instrA 5 10`, `job 2 2 org2 instrB 3 10`). -/
def late_jobs_state : State :=
  do_job (do_job (init 2) 1 1 "org1" "instrA" 5 10) 2 2 "org2" "instrB" 3 10

/-- The commands of the documented scenario up to its first `assign`. -/
def scenario_commands : List Command :=
  [Command.job 0 1 "org1" "instrA" 5 10, Command.job 1 2 "org2" "instrB" 3 10,
   Command.assign 2 5]

/-- The two records the scenario's `assign 2 5` prints. -/
def scenario_records : List Record :=
  [{ timestamp := 0, pid := 1, orig := "org1", instruction := "instrA", importance := 5,
     duration := 10 },
   { timestamp := 1, pid := 2, orig := "org2", instruction := "instrB", importance := 3,
     duration := 10 }]

/-- The state the scenario is in after its `assign 2 5`. -/
def scenario_final_state : State :=
  { two_jobs_state with
    job_queue := []
    cpu_queue := [12, 12]
    job_timestamp := [(0, (0, 1)), (0, (1, 2)), (1, (2, 2)), (2, (2, 1))] }

/-- Commands in which a job arrives at the timestamp of a snapshot, after the
`assign` that recorded it (`cpus 1`). -/
def arrival_at_snapshot_commands : List Command :=
  [Command.job 10 1 "a" "b" 5 10, Command.assign 60 1, Command.job 60 2 "c" "d" 7 10]

/-- Commands in which a job arrives at time 0 and is assigned at time 1
(`cpus 1`). -/
def early_job_commands : List Command :=
  [Command.job 0 1 "a" "b" 5 10, Command.assign 1 1]

/-- Commands in which two jobs arrive at time 0 and are assigned at time 3
(`cpus 2`). -/
def two_early_jobs_commands : List Command :=
  [Command.job 0 1 "org1" "instrA" 5 10, Command.job 0 2 "org2" "instrB" 3 10,
   Command.assign 3 2]

/-- The state after the single command `assign 50 1` (`cpus 1`). -/
def snapshot_only_state : State :=
  { init 1 with job_queue_history := [(0, []), (50, [])] }

/-- The property "the log holds an assign entry at the timestamp of every
snapshot recorded by an assign" (every snapshot but the initial sentinel). -/
def LogEntryAtEverySnapshot (s : State) : Prop :=
  ∀ snap ∈ s.job_queue_history.tail,
    ∃ e ∈ s.job_timestamp, e.1 = snap.1 ∧ e.2.2 = ASSIGN_ID

/-- The urgency order of the specification: `a` is strictly more urgent than
`b` when it has greater importance; on equal importance, the earlier arrival
timestamp; on equal importance and timestamp, the shorter duration. -/
def more_urgent (a b : job) : Prop :=
  a.importance > b.importance ∨
    (a.importance = b.importance ∧
      (a.timestamp < b.timestamp ∨ (a.timestamp = b.timestamp ∧ a.duration < b.duration)))

/-- Timestamps do not decrease along the vector (index form of "sorted"). -/
def MonoTs {β : Type} (v : List (Nat × β)) : Prop :=
  ∀ (i j : Nat) (a b : Nat × β), i ≤ j → v[i]? = some a → v[j]? = some b → a.1 ≤ b.1

/-- Index `i` is the greatest index of `v` whose timestamp is at most `ts`. -/
def IsRightmostLe {β : Type} (v : List (Nat × β)) (ts i : Nat) : Prop :=
  i < v.length ∧ (∀ a : Nat × β, v[i]? = some a → a.1 ≤ ts) ∧
    ∀ (j : Nat) (a : Nat × β), v[j]? = some a → a.1 ≤ ts → j ≤ i

/-- Is the command a `job` or an `assign` (a command that updates the state)? -/
def Command.is_update : Command → Bool
  | .query _ _ => false
  | _ => true

/-- A sequence of `job` / `assign` commands. -/
@[reducible]
def UpdatesOnly (cmds : List Command) : Prop := ∀ c ∈ cmds, c.is_update = true

/-- The timestamps of the commands do not decrease. -/
@[reducible]
def NonDecreasing (cmds : List Command) : Prop :=
  (cmds.map Command.ts).Pairwise (fun a b => a ≤ b)

/-- The timestamp-order invariant of the log and the snapshot vector after the
commands `cmds`: the log starts with its sentinel, is sorted, and its other
entries carry timestamps of commands; the snapshot vector starts with the
sentinel `(0, empty)`, consecutive (indeed any two) snapshots are at least
`TIME_INTERVAL` apart, and every other snapshot carries the timestamp of an
`assign` command. -/
def TimeInv (cmds : List Command) (s : State) : Prop :=
  s.job_timestamp.Pairwise (fun a b => a.1 ≤ b.1) ∧
    s.job_queue_history.Pairwise (fun a b => a.1 + TIME_INTERVAL ≤ b.1) ∧
    (∃ rest, s.job_timestamp = (0, (0, 1)) :: rest ∧
      ∀ e ∈ rest, ∃ c ∈ cmds, c.ts = e.1) ∧
    (∃ rest, s.job_queue_history = (0, []) :: rest ∧
      ∀ h ∈ rest, ∃ k, Command.assign h.1 k ∈ cmds)

/-- The interner holds the codes of the job with id `id`, so printing the job
reads the maps without inserting anything. -/
def CodesPresent (s : State) (id : Nat) : Prop :=
  s.orig_set.existsB (s.jobs.getD id default).orig = true ∧
    s.instruction_set.existsB (s.jobs.getD id default).instructions = true

/-- The id of a submitted job: between 1 and the size of the job store. -/
def ValidId (s : State) (id : Nat) : Prop := 1 ≤ id ∧ id < s.jobs.length

/-- Every code the forward map hands out is a key of the backward map. -/
def InternerOK (b : bimap) : Prop :=
  ∀ x c, assocFind x b.map_f = some c → b.existsB c = true

/-- The well-formedness of a program state: the id counter is the size of the
job store, every id held by the waiting queue, a snapshot or an arrival entry
of the log is the id of a submitted job, and the interners hold the codes of
every submitted job. -/
def WellFormed (s : State) : Prop :=
  s.counter = s.jobs.length ∧ 1 ≤ s.jobs.length ∧
    (∀ id ∈ s.job_queue, ValidId s id) ∧
    (∀ snap ∈ s.job_queue_history, ∀ id ∈ snap.2, ValidId s id) ∧
    (∀ e ∈ s.job_timestamp, e.2.2 = JOB_ID → ValidId s e.2.1) ∧
    (∀ id, ValidId s id → CodesPresent s id) ∧
    InternerOK s.orig_set ∧ InternerOK s.instruction_set

/-- Is the command a `job`? -/
def Command.is_job : Command → Bool
  | .job _ _ _ _ _ _ => true
  | _ => false

/-- The ids a command pops from the waiting queue when run in state `s`:
those an `assign` assigns, none for the other commands. -/
def popped_by (s : State) : Command → List Nat
  | .assign ts k => assigned_ids s ts k
  | _ => []

/-- All the ids popped by the `assign` commands of a run, in the order they
are popped. -/
def popped_ids : State → List Command → List Nat
  | _, [] => []
  | s, c :: cs =>
    match step s c with
    | none => []
    | some (s1, _) => popped_by s c ++ popped_ids s1 cs

/-- The origin string of a `job` command (empty for other commands). -/
def Command.orig : Command → String
  | .job _ _ o _ _ _ => o
  | _ => ""

/-- The instruction string of a `job` command (empty for other commands). -/
def Command.instruction : Command → String
  | .job _ _ _ i _ _ => i
  | _ => ""

/-- A sequence of `job` commands. -/
@[reducible]
def JobsOnly (cmds : List Command) : Prop := ∀ c ∈ cmds, c.is_job = true

/-- The distinct strings of a list in first-seen order. -/
def first_seen (l : List String) : List String :=
  l.foldl (fun seen x => if x ∈ seen then seen else seen ++ [x]) []

/-- The code of a string under first-seen numbering `0, 1, 2, ...`: its
position among the distinct strings seen. -/
def first_seen_code (l : List String) (x : String) : Int :=
  ((first_seen l).indexOf x : Nat)

/-- The interner that maps the strings of `seen` to `0, 1, 2, ...` in order,
in both directions. -/
def interner_of (seen : List String) : bimap :=
  { map_f := seen.enum.map (fun p => (p.2, (p.1 : Int)))
    map_b := seen.enum.map (fun p => ((p.1 : Int), p.2)) }

/-- Three `job` commands with a repeated origin and a repeated instruction. -/
def repeated_strings_commands : List Command :=
  [Command.job 1 1 "a" "x" 5 10, Command.job 2 2 "b" "x" 3 10, Command.job 3 3 "a" "y" 4 10]

/-- The interning invariant after the `job` commands `cmds`: the job store is
the sentinel followed by one job per command, each job carries the first-seen
codes of its two strings, and each interner is that of the distinct strings
seen, its counter their number. -/
def InternRun (cmds : List Command) (s : State) : Prop :=
  ∃ rest, s.jobs = (default : job) :: rest ∧
    rest.map job.orig =
      (cmds.map Command.orig).map (first_seen_code (cmds.map Command.orig)) ∧
    rest.map job.instructions =
      (cmds.map Command.instruction).map (first_seen_code (cmds.map Command.instruction)) ∧
    s.orig_set = interner_of (first_seen (cmds.map Command.orig)) ∧
    s.orig_counter = ((first_seen (cmds.map Command.orig)).length : Int) ∧
    s.instruction_set = interner_of (first_seen (cmds.map Command.instruction)) ∧
    s.inst_counter = ((first_seen (cmds.map Command.instruction)).length : Int)

/-- The timestamps of the commands strictly increase and are all at least 1. -/
@[reducible]
def StrictlyIncreasing (cmds : List Command) : Prop :=
  (cmds.map Command.ts).Pairwise (fun a b => a < b) ∧ ∀ c ∈ cmds, 1 ≤ c.ts

/-- Every id held by the waiting queue, a snapshot or an arrival entry of the
log is an index of the job store. -/
def IdsBelow (s : State) : Prop :=
  s.counter ≤ s.jobs.length ∧
    (∀ id ∈ s.job_queue, id < s.jobs.length) ∧
    (∀ snap ∈ s.job_queue_history, ∀ id ∈ snap.2, id < s.jobs.length) ∧
    (∀ e ∈ s.job_timestamp, e.2.2 = JOB_ID → e.2.1 < s.jobs.length)

/-- The reconstruction of `query`, as a function of the three global
variables it reads. -/
def reconstruct_from (jobs : List job) (log : List (Nat × (Nat × Nat)))
    (history : List (Nat × List Nat)) (ts : Nat) : Option (List Nat) :=
  match binary_search history ts with
  | none => none
  | some just_before_idx =>
    match history[just_before_idx]? with
    | none => none
    | some snap =>
      match binary_search log snap.1 with
      | none => none
      | some job_idx => replay_loop jobs ts (log.drop (job_idx + 1)) snap.2

/-- Commands with strictly increasing timestamps, two arrivals after a
snapshot and an `assign` that is only logged (`cpus 2`). -/
def distinct_ts_commands : List Command :=
  [Command.job 10 1 "a" "b" 5 10, Command.assign 60 1, Command.job 61 2 "c" "d" 7 10,
   Command.job 70 3 "a" "d" 6 10, Command.assign 80 1]

/-! ## Priority-queue lemmas -/

theorem pq_top_eq_none {α : Type} (lt : α → α → Bool) (q : List α) :
    pq_top lt q = none ↔ q = [] := by
  cases q with
  | nil => simp [pq_top]
  | cons x xs =>
    simp only [pq_top]
    cases pq_top lt xs with
    | none => simp
    | some y => by_cases h : lt x y = true <;> simp [h]

theorem pq_top_mem {α : Type} (lt : α → α → Bool) :
    ∀ (q : List α) (t : α), pq_top lt q = some t → t ∈ q := by
  intro q
  induction q with
  | nil => intro t h; simp [pq_top] at h
  | cons x xs ih =>
    intro t h
    simp only [pq_top] at h
    cases hxs : pq_top lt xs with
    | none =>
      rw [hxs] at h
      simp only [Option.some.injEq] at h
      simp [h]
    | some y =>
      rw [hxs] at h
      by_cases hlt : lt x y = true
      · simp only [hlt, if_true, Option.some.injEq] at h
        subst h
        exact List.mem_cons_of_mem _ (ih _ hxs)
      · simp only [hlt, Option.some.injEq] at h
        simp at h
        simp [h]

/-- With a comparator whose negation is transitive (a strict weak order),
no element of the queue comes before `top ()`. -/
theorem pq_top_max {α : Type} (lt : α → α → Bool)
    (hrefl : ∀ a, lt a a = false)
    (htrans : ∀ a b c, lt a b = false → lt b c = false → lt a c = false)
    (hasym : ∀ a b, lt a b = true → lt b a = false) :
    ∀ (q : List α) (t : α), pq_top lt q = some t → ∀ y ∈ q, lt t y = false := by
  intro q
  induction q with
  | nil => intro t h; simp [pq_top] at h
  | cons x xs ih =>
    intro t h y hy
    simp only [pq_top] at h
    cases hxs : pq_top lt xs with
    | none =>
      rw [hxs] at h
      simp only [Option.some.injEq] at h
      have hnil : xs = [] := (pq_top_eq_none lt xs).1 hxs
      subst hnil
      simp only [List.mem_singleton] at hy
      subst hy; subst h
      exact hrefl _
    | some z =>
      rw [hxs] at h
      have hz := ih z hxs
      by_cases hlt : lt x z = true
      · simp only [hlt, if_true, Option.some.injEq] at h
        subst h
        rcases List.mem_cons.1 hy with rfl | hmem
        · exact hasym _ _ hlt
        · exact hz _ hmem
      · simp only [hlt, Option.some.injEq] at h
        simp at h
        subst h
        have hxz : lt x z = false := by simpa using hlt
        rcases List.mem_cons.1 hy with rfl | hmem
        · exact hrefl _
        · exact htrans _ _ _ hxz (hz _ hmem)

theorem job_comparator_irrefl (jobs : List job) (a : Nat) : job_comparator jobs a a = false := by
  simp [job_comparator]

theorem job_comparator_negtrans (jobs : List job) (a b c : Nat)
    (hab : job_comparator jobs a b = false) (hbc : job_comparator jobs b c = false) :
    job_comparator jobs a c = false := by
  simp only [job_comparator] at *
  generalize jobs.getD a default = ja at *
  generalize jobs.getD b default = jb at *
  generalize jobs.getD c default = jc at *
  by_cases h1 : ja.importance = jb.importance <;> by_cases h2 : jb.importance = jc.importance <;>
    by_cases h3 : ja.importance = jc.importance <;>
    by_cases h4 : ja.timestamp = jb.timestamp <;> by_cases h5 : jb.timestamp = jc.timestamp <;>
    by_cases h6 : ja.timestamp = jc.timestamp <;>
    simp_all <;> omega

theorem job_comparator_asymm (jobs : List job) (a b : Nat)
    (hab : job_comparator jobs a b = true) : job_comparator jobs b a = false := by
  simp only [job_comparator] at *
  generalize jobs.getD a default = ja at *
  generalize jobs.getD b default = jb at *
  by_cases h1 : ja.importance = jb.importance <;>
    by_cases h4 : ja.timestamp = jb.timestamp <;>
    simp_all [eq_comm] <;> omega

/-- The top of a job queue is at least as urgent as every queued job. -/
theorem job_top_max (jobs : List job) (q : List Nat) (t : Nat)
    (h : pq_top (job_comparator jobs) q = some t) :
    ∀ y ∈ q, job_comparator jobs t y = false :=
  pq_top_max _ (job_comparator_irrefl jobs) (job_comparator_negtrans jobs)
    (job_comparator_asymm jobs) q t h

/-- The top of the CPU queue is its least timestamp. -/
theorem cpu_top_min (q : List Nat) (t : Nat) (h : pq_top time_greater q = some t) :
    ∀ y ∈ q, t ≤ y := by
  intro y hy
  have := pq_top_max time_greater (by simp [time_greater])
    (by intro a b c; simp only [time_greater, decide_eq_false_iff_not]; omega)
    (by intro a b; simp only [time_greater, decide_eq_true_eq, decide_eq_false_iff_not]; omega)
    q t h y hy
  simpa [time_greater] using this

/-! ## Interner lemmas -/

theorem assocFind_append {κ ν : Type} [DecidableEq κ] (k : κ) (m m1 : List (κ × ν)) :
    assocFind k (m ++ m1) = match assocFind k m with
      | some v => some v
      | none => assocFind k m1 := by
  induction m with
  | nil => simp [assocFind]
  | cons p rest ih =>
    obtain ⟨k1, v1⟩ := p
    by_cases h : k1 = k
    · simp [assocFind, h]
    · simp [assocFind, h, ih]

/-- Reading `map[k]` does not change what any later read returns. -/
theorem assocIndex_stable {κ ν : Type} [DecidableEq κ] (dflt : ν) (k x : κ) (m : List (κ × ν)) :
    (assocIndex dflt x (assocIndex dflt k m).2).1 = (assocIndex dflt x m).1 := by
  unfold assocIndex
  cases hk : assocFind k m with
  | some v => simp
  | none =>
    simp only [assocFind_append]
    cases hx : assocFind x m with
    | some w => simp
    | none =>
      by_cases hkx : k = x
      · simp [assocFind, hkx]
      · simp [assocFind, hkx]

theorem stringOf_indexB (b : bimap) (k x : Int) :
    (b.indexB k).2.stringOf x = b.stringOf x := by
  simp only [bimap.stringOf, bimap.indexB]
  exact assocIndex_stable "" k x b.map_b

theorem sameView_refl (s : State) : SameView s s := ⟨rfl, fun _ => rfl, fun _ => rfl⟩

theorem sameView_trans {s s1 s2 : State} (h1 : SameView s s1) (h2 : SameView s1 s2) :
    SameView s s2 :=
  ⟨h2.1.trans h1.1, fun x => (h2.2.1 x).trans (h1.2.1 x), fun x => (h2.2.2 x).trans (h1.2.2 x)⟩

theorem sameButMaps_refl (s : State) : SameButMaps s s :=
  ⟨rfl, rfl, rfl, rfl, rfl, rfl, rfl, rfl, rfl⟩

theorem sameButMaps_trans {s s1 s2 : State} (h1 : SameButMaps s s1) (h2 : SameButMaps s1 s2) :
    SameButMaps s s2 := by
  obtain ⟨a1, a2, a3, a4, a5, a6, a7, a8, a9⟩ := h1
  obtain ⟨b1, b2, b3, b4, b5, b6, b7, b8, b9⟩ := h2
  exact ⟨b1.trans a1, b2.trans a2, b3.trans a3, b4.trans a4, b5.trans a5, b6.trans a6,
    b7.trans a7, b8.trans a8, b9.trans a9⟩

theorem print_job_record (s : State) (j : job) :
    (print_job s j).2 =
      { timestamp := j.timestamp, pid := j.pid, orig := s.orig_set.stringOf j.orig,
        instruction := s.instruction_set.stringOf j.instructions,
        importance := j.importance, duration := j.duration } := rfl

theorem print_job_sameView (s : State) (j : job) : SameView s (print_job s j).1 :=
  ⟨rfl, fun x => stringOf_indexB s.orig_set j.orig x,
    fun x => stringOf_indexB s.instruction_set j.instructions x⟩

theorem print_job_sameButMaps (s : State) (j : job) : SameButMaps s (print_job s j).1 :=
  ⟨rfl, rfl, rfl, rfl, rfl, rfl, rfl, rfl, rfl⟩

theorem record_of_congr {s s1 : State} (h : SameView s s1) (id : Nat) :
    record_of s1 id = record_of s id := by
  obtain ⟨hj, ho, hi⟩ := h
  simp only [record_of, print_job_record, hj, ho, hi]

theorem print_job_congr {s s1 : State} (h : SameView s s1) (j : job) :
    (print_job s1 j).2 = (print_job s j).2 := by
  obtain ⟨_, ho, hi⟩ := h
  simp only [print_job_record, ho, hi]

/-! ## The purge loop -/

theorem filter_erase_of_not {p : Nat → Bool} (t : Nat) (hp : p t = false) :
    ∀ q : List Nat, (q.erase t).filter p = q.filter p := by
  intro q
  induction q with
  | nil => rfl
  | cons x xs ih =>
    by_cases hx : x = t
    · subst hx
      simp [List.filter_cons, hp]
    · have hne : (x == t) = false := by simpa using hx
      rw [List.erase_cons]
      simp only [hne, Bool.false_eq_true, if_false, List.filter_cons, ih]

theorem purge_loop_eq_filter (ts : Nat) :
    ∀ (fuel : Nat) (q : List Nat), q.length ≤ fuel →
      purge_loop ts fuel q = q.filter (fun t => decide (ts < t)) := by
  intro fuel
  induction fuel with
  | zero =>
    intro q hq
    have : q = [] := List.length_eq_zero.1 (Nat.le_zero.1 hq)
    subst this
    rfl
  | succ n ih =>
    intro q hq
    simp only [purge_loop]
    cases htop : pq_top time_greater q with
    | none =>
      have : q = [] := (pq_top_eq_none _ q).1 htop
      subst this
      rfl
    | some t =>
      have hmem := pq_top_mem _ q t htop
      by_cases hle : t ≤ ts
      · simp only [hle, if_true]
        have hlen : (q.erase t).length ≤ n := by
          rw [List.length_erase_of_mem hmem]
          omega
        rw [ih _ hlen]
        exact filter_erase_of_not t (by simpa using hle) q
      · simp only [hle, if_false]
        symm
        rw [List.filter_eq_self]
        intro y hy
        have := cpu_top_min q t htop y hy
        simp only [decide_eq_true_eq]
        omega

/-- The purge keeps exactly the timestamps strictly greater than `ts`. -/
theorem purge_eq_filter (ts : Nat) (q : List Nat) :
    purge ts q = q.filter (fun t => decide (ts < t)) :=
  purge_loop_eq_filter ts q.length q (Nat.le_refl _)

/-! ## Successive pops -/

theorem pop_list_perm (jobs : List job) :
    ∀ (n : Nat) (q : List Nat), (pop_list jobs n q ++ pop_rest jobs n q).Perm q := by
  intro n
  induction n with
  | zero => intro q; simp [pop_list, pop_rest]
  | succ n ih =>
    intro q
    simp only [pop_list, pop_rest]
    cases htop : pq_top (job_comparator jobs) q with
    | none => simp
    | some t =>
      have hmem := pq_top_mem _ q t htop
      simp only [List.cons_append]
      exact ((ih (q.erase t)).cons t).trans (List.perm_cons_erase hmem).symm

theorem pop_list_subset (jobs : List job) (n : Nat) (q : List Nat) :
    ∀ a ∈ pop_list jobs n q, a ∈ q := by
  intro a ha
  exact (pop_list_perm jobs n q).subset (List.mem_append_left _ ha)

theorem pop_rest_subset (jobs : List job) (n : Nat) (q : List Nat) :
    ∀ a ∈ pop_rest jobs n q, a ∈ q := by
  intro a ha
  exact (pop_list_perm jobs n q).subset (List.mem_append_right _ ha)

theorem pop_list_length (jobs : List job) :
    ∀ (n : Nat) (q : List Nat), (pop_list jobs n q).length = min n q.length := by
  intro n
  induction n with
  | zero => intro q; simp [pop_list]
  | succ n ih =>
    intro q
    simp only [pop_list]
    cases htop : pq_top (job_comparator jobs) q with
    | none =>
      have : q = [] := (pq_top_eq_none _ q).1 htop
      subst this
      simp
    | some t =>
      have hmem := pq_top_mem _ q t htop
      have hpos : 0 < q.length := List.length_pos_of_mem hmem
      simp only [List.length_cons, ih, List.length_erase_of_mem hmem]
      omega

theorem pop_rest_length (jobs : List job) (n : Nat) (q : List Nat) :
    (pop_rest jobs n q).length = q.length - n := by
  have h1 := (pop_list_perm jobs n q).length_eq
  have h2 := pop_list_length jobs n q
  simp only [List.length_append] at h1
  omega

/-- Successive pops come out most urgent first. -/
theorem pop_list_sorted (jobs : List job) :
    ∀ (n : Nat) (q : List Nat),
      (pop_list jobs n q).Pairwise (fun a b => job_comparator jobs a b = false) := by
  intro n
  induction n with
  | zero => intro q; simp [pop_list]
  | succ n ih =>
    intro q
    simp only [pop_list]
    cases htop : pq_top (job_comparator jobs) q with
    | none => simp
    | some t =>
      refine List.pairwise_cons.2 ⟨?_, ih _⟩
      intro b hb
      exact job_top_max jobs q t htop b
        (List.mem_of_mem_erase (pop_list_subset jobs n (q.erase t) b hb))

/-- Every popped job is at least as urgent as every job left behind. -/
theorem pop_list_ge_rest (jobs : List job) :
    ∀ (n : Nat) (q : List Nat), ∀ a ∈ pop_list jobs n q, ∀ b ∈ pop_rest jobs n q,
      job_comparator jobs a b = false := by
  intro n
  induction n with
  | zero => intro q a ha; simp [pop_list] at ha
  | succ n ih =>
    intro q a ha b hb
    simp only [pop_list, pop_rest] at ha hb
    cases htop : pq_top (job_comparator jobs) q with
    | none => rw [htop] at ha; simp at ha
    | some t =>
      rw [htop] at ha hb
      rcases List.mem_cons.1 ha with rfl | ha1
      · exact job_top_max jobs q a htop b
          (List.mem_of_mem_erase (pop_rest_subset jobs n (q.erase a) b hb))
      · exact ih _ a ha1 b hb

/-- Popping `n` elements gives the first `n` elements of a longer run of pops. -/
theorem pop_list_take (jobs : List job) :
    ∀ (n m : Nat) (q : List Nat), n ≤ m → pop_list jobs n q = (pop_list jobs m q).take n := by
  intro n
  induction n with
  | zero => intro m q _; simp [pop_list]
  | succ n ih =>
    intro m q hnm
    obtain ⟨m1, rfl⟩ : ∃ m1, m = m1 + 1 := ⟨m - 1, by omega⟩
    simp only [pop_list]
    cases htop : pq_top (job_comparator jobs) q with
    | none => simp
    | some t =>
      simp only [List.take_succ_cons]
      rw [ih m1 (q.erase t) (by omega)]

theorem priority_order_perm (jobs : List job) (q : List Nat) :
    (priority_order jobs q).Perm q := by
  have h := pop_list_perm jobs q.length q
  have hlen := pop_rest_length jobs q.length q
  have hnil : pop_rest jobs q.length q = [] := List.length_eq_zero.1 (by omega)
  rw [hnil, List.append_nil] at h
  exact h

theorem priority_order_sorted (jobs : List job) (q : List Nat) :
    (priority_order jobs q).Pairwise (fun a b => job_comparator jobs a b = false) :=
  pop_list_sorted jobs q.length q

/-! ## The assign loop -/

/-- The assign loop, run for at most as many rounds as jobs are waiting,
returns: it pops the `n` most urgent jobs, prints them in that order, and
pushes one busy-until timestamp per job. -/
theorem assign_loop_spec (ts : Nat) :
    ∀ (n : Nat) (s : State), n ≤ s.job_queue.length →
      ∃ s1, assign_loop ts n s =
          some (s1, (pop_list s.jobs n s.job_queue).map (record_of s)) ∧
        SameView s s1 ∧
        s1.job_queue = pop_rest s.jobs n s.job_queue ∧
        s1.cpu_queue = s.cpu_queue ++
          (pop_list s.jobs n s.job_queue).map
            (fun id => uadd64 ts (s.jobs.getD id default).duration) ∧
        s1.job_timestamp = s.job_timestamp ∧
        s1.job_queue_history = s.job_queue_history ∧
        s1.num_cpus = s.num_cpus ∧
        s1.counter = s.counter ∧ s1.inst_counter = s.inst_counter ∧
        s1.orig_counter = s.orig_counter := by
  intro n
  induction n with
  | zero =>
    intro s _
    exact ⟨s, by simp [assign_loop, pop_list], sameView_refl s, by simp [pop_rest],
      by simp [pop_list], rfl, rfl, rfl, rfl, rfl, rfl⟩
  | succ n ih =>
    intro s hn
    cases htop : pq_top (job_comparator s.jobs) s.job_queue with
    | none =>
      have : s.job_queue = [] := (pq_top_eq_none _ _).1 htop
      rw [this] at hn
      simp at hn
    | some t =>
      have hmem := pq_top_mem _ _ t htop
      let s1 : State := { s with job_queue := s.job_queue.erase t }
      let p := print_job s1 (s.jobs.getD t default)
      let s2 : State :=
        { p.1 with cpu_queue := pq_push p.1.cpu_queue (uadd64 ts (s.jobs.getD t default).duration) }
      have hview : SameView s s2 :=
        ⟨rfl, fun x => stringOf_indexB s.orig_set _ x,
          fun x => stringOf_indexB s.instruction_set _ x⟩
      have hlen : n ≤ s2.job_queue.length := by
        show n ≤ (s.job_queue.erase t).length
        rw [List.length_erase_of_mem hmem]
        omega
      obtain ⟨s3, h3, hv3, hq3, hc3, hl3, hh3, hn3, hk3, hi3, ho3⟩ := ih s2 hlen
      refine ⟨s3, ?_, sameView_trans hview hv3, ?_, ?_, hl3, hh3, hn3, hk3, hi3, ho3⟩
      · simp only [assign_loop, htop]
        show (match assign_loop ts n s2 with
          | none => none
          | some (s3, out) => some (s3, p.2 :: out)) = _
        rw [h3]
        have hrec : ∀ id, record_of s2 id = record_of s id := fun id => record_of_congr hview id
        simp only [pop_list, htop, List.map_cons]
        have hjobs : s2.jobs = s.jobs := rfl
        have hq : s2.job_queue = s.job_queue.erase t := rfl
        rw [hjobs, hq]
        have hp : p.2 = record_of s t := rfl
        rw [hp]
        congr 3
        exact List.map_congr_left (fun id _ => hrec id)
      · rw [hq3]
        simp only [pop_rest, htop]
        rfl
      · rw [hc3]
        simp only [pop_list, htop, List.map_cons]
        show (s.cpu_queue ++ [uadd64 ts (s.jobs.getD t default).duration]) ++ _ = _
        simp only [List.append_assoc, List.singleton_append]
        rfl

/-! ## The assign command -/

theorem num_processed_le (s : State) (ts k : Nat) :
    num_processed s ts k ≤ s.job_queue.length := by
  simp only [num_processed]
  omega

/-- The shape of every `assign`: the loop returns a state `s2`, and the
command then appends either a snapshot or a log entry. -/
theorem do_assign_shape (s : State) (ts k : Nat) :
    ∃ s2, SameView s s2 ∧
      s2.job_queue = pop_rest s.jobs (num_processed s ts k) s.job_queue ∧
      s2.cpu_queue = purge ts s.cpu_queue ++
        (assigned_ids s ts k).map (fun id => uadd64 ts (s.jobs.getD id default).duration) ∧
      s2.job_timestamp = s.job_timestamp ∧
      s2.job_queue_history = s.job_queue_history ∧
      s2.num_cpus = s.num_cpus ∧
      do_assign s ts k =
        (match s2.job_queue_history.getLast? with
         | none => none
         | some last =>
           if usub64 ts last.1 ≥ TIME_INTERVAL then
             some ({ s2 with job_queue_history := s2.job_queue_history ++ [(ts, s2.job_queue)] },
               (assigned_ids s ts k).map (record_of s))
           else
             some ({ s2 with
                     job_timestamp :=
                       s2.job_timestamp ++ [(ts, (num_processed s ts k, ASSIGN_ID))] },
               (assigned_ids s ts k).map (record_of s))) := by
  let s1 : State := { s with cpu_queue := purge ts s.cpu_queue }
  have hle : num_processed s ts k ≤ s1.job_queue.length := num_processed_le s ts k
  obtain ⟨s2, h2, hv, hq, hc, hl, hh, hn, _, _, _⟩ := assign_loop_spec ts _ s1 hle
  have hv1 : SameView s s1 := ⟨rfl, fun _ => rfl, fun _ => rfl⟩
  refine ⟨s2, sameView_trans hv1 hv, hq, hc, hl, hh, hn, ?_⟩
  have hrec : (pop_list s1.jobs (num_processed s ts k) s1.job_queue).map (record_of s1) =
      (assigned_ids s ts k).map (record_of s) := rfl
  rw [hrec] at h2
  simp only [do_assign]
  rw [h2]

/-- An `assign` returns whenever the snapshot vector is non-empty. -/
theorem do_assign_returns (s : State) (ts k : Nat) (hh : s.job_queue_history ≠ []) :
    ∃ s1, do_assign s ts k = some (s1, (assigned_ids s ts k).map (record_of s)) := by
  obtain ⟨s2, _, _, _, _, hh2, _, heq⟩ := do_assign_shape s ts k
  rw [heq]
  cases hlast : s2.job_queue_history.getLast? with
  | none =>
    rw [hh2] at hlast
    exact absurd (List.getLast?_eq_none_iff.1 hlast) hh
  | some last =>
    by_cases hgap : usub64 ts last.1 ≥ TIME_INTERVAL
    · simp only [hgap, if_true]
      exact ⟨_, rfl⟩
    · simp only [hgap, if_false]
      exact ⟨_, rfl⟩

/-- What an `assign` that returns has done to the queues. -/
theorem do_assign_effect (s : State) (ts k : Nat) (s1 : State) (out : List Record)
    (h : do_assign s ts k = some (s1, out)) :
    out = (assigned_ids s ts k).map (record_of s) ∧
      SameView s s1 ∧
      s1.job_queue = pop_rest s.jobs (num_processed s ts k) s.job_queue ∧
      s1.cpu_queue = purge ts s.cpu_queue ++
        (assigned_ids s ts k).map (fun id => uadd64 ts (s.jobs.getD id default).duration) ∧
      s1.num_cpus = s.num_cpus ∧
      ((s1.job_queue_history = s.job_queue_history ++ [(ts, s1.job_queue)] ∧
          s1.job_timestamp = s.job_timestamp) ∨
        (s1.job_queue_history = s.job_queue_history ∧
          s1.job_timestamp =
            s.job_timestamp ++ [(ts, (num_processed s ts k, ASSIGN_ID))])) := by
  obtain ⟨s2, hv, hq, hc, hl, hh2, hn, heq⟩ := do_assign_shape s ts k
  rw [heq] at h
  cases hlast : s2.job_queue_history.getLast? with
  | none => rw [hlast] at h; simp at h
  | some last =>
    rw [hlast] at h
    by_cases hgap : usub64 ts last.1 ≥ TIME_INTERVAL
    · simp only [hgap, if_true, Option.some.injEq, Prod.mk.injEq] at h
      obtain ⟨h1, h2⟩ := h
      subst h1
      exact ⟨h2.symm, hv, hq, hc, hn, Or.inl ⟨by simp only [hh2], hl⟩⟩
    · simp only [hgap, if_false, Option.some.injEq, Prod.mk.injEq] at h
      obtain ⟨h1, h2⟩ := h
      subst h1
      exact ⟨h2.symm, hv, hq, hc, hn, Or.inr ⟨hh2, by simp only [hl]⟩⟩

/-! ## The query loops -/

theorem query_topk_loop_spec :
    ∀ (k : Nat) (s : State) (result : List Nat),
      (query_topk_loop k s result).2 = (pop_list s.jobs k result).map (record_of s) ∧
        SameView s (query_topk_loop k s result).1 ∧
        SameButMaps s (query_topk_loop k s result).1 := by
  intro k
  induction k with
  | zero =>
    intro s result
    exact ⟨by simp [query_topk_loop, pop_list], sameView_refl s, sameButMaps_refl s⟩
  | succ k ih =>
    intro s result
    cases htop : pq_top (job_comparator s.jobs) result with
    | none =>
      simp only [query_topk_loop, htop, pop_list]
      exact ⟨rfl, sameView_refl s, sameButMaps_refl s⟩
    | some t =>
      have hv := print_job_sameView s (s.jobs.getD t default)
      have hb := print_job_sameButMaps s (s.jobs.getD t default)
      obtain ⟨h1, h2, h3⟩ := ih (print_job s (s.jobs.getD t default)).1 (result.erase t)
      simp only [query_topk_loop, htop, pop_list, List.map_cons]
      refine ⟨?_, sameView_trans hv h2, sameButMaps_trans hb h3⟩
      rw [h1]
      have hjobs : (print_job s (s.jobs.getD t default)).1.jobs = s.jobs := rfl
      rw [hjobs]
      congr 1
      exact List.map_congr_left (fun id _ => record_of_congr hv id)

theorem query_orig_loop_spec (orig : String) :
    ∀ (fuel : Nat) (s : State) (result : List Nat),
      (query_orig_loop orig fuel s result).2 =
          ((pop_list s.jobs fuel result).filter
            (fun id => decide (origin_of s id = orig))).map (record_of s) ∧
        SameView s (query_orig_loop orig fuel s result).1 ∧
        SameButMaps s (query_orig_loop orig fuel s result).1 := by
  intro fuel
  induction fuel with
  | zero =>
    intro s result
    exact ⟨by simp [query_orig_loop, pop_list], sameView_refl s, sameButMaps_refl s⟩
  | succ fuel ih =>
    intro s result
    cases htop : pq_top (job_comparator s.jobs) result with
    | none =>
      simp only [query_orig_loop, htop, pop_list]
      exact ⟨rfl, sameView_refl s, sameButMaps_refl s⟩
    | some t =>
      let s1 : State := { s with orig_set := (s.orig_set.indexB (s.jobs.getD t default).orig).2 }
      have hv1 : SameView s s1 :=
        ⟨rfl, fun x => stringOf_indexB s.orig_set _ x, fun _ => rfl⟩
      have hb1 : SameButMaps s s1 := ⟨rfl, rfl, rfl, rfl, rfl, rfl, rfl, rfl, rfl⟩
      have hfilt : ∀ (st : State), SameView s st →
          ((pop_list st.jobs fuel (result.erase t)).filter
            (fun id => decide (origin_of st id = orig))).map (record_of st) =
          ((pop_list s.jobs fuel (result.erase t)).filter
            (fun id => decide (origin_of s id = orig))).map (record_of s) := by
        intro st hst
        have hor : ∀ id, origin_of st id = origin_of s id := by
          intro id
          simp only [origin_of, hst.1, hst.2.1]
        rw [hst.1]
        simp only [hor]
        exact List.map_congr_left (fun id _ => record_of_congr hst id)
      by_cases ho : origin_of s t = orig
      · have ho1 : (s.orig_set.indexB (s.jobs.getD t default).orig).1 = orig := ho
        have hvp := print_job_sameView s1 (s.jobs.getD t default)
        have hbp := print_job_sameButMaps s1 (s.jobs.getD t default)
        obtain ⟨h1, h2, h3⟩ := ih (print_job s1 (s.jobs.getD t default)).1 (result.erase t)
        simp only [query_orig_loop, htop, pop_list, ho1, if_true]
        refine ⟨?_, sameView_trans hv1 (sameView_trans hvp h2), sameButMaps_trans hb1 (sameButMaps_trans hbp h3)⟩
        rw [h1, hfilt _ (sameView_trans hv1 hvp)]
        simp only [List.filter_cons, ho, decide_True, if_true, List.map_cons]
        congr 1
        exact print_job_congr hv1 _
      · have ho1 : ¬ (s.orig_set.indexB (s.jobs.getD t default).orig).1 = orig := ho
        obtain ⟨h1, h2, h3⟩ := ih s1 (result.erase t)
        simp only [query_orig_loop, htop, pop_list, ho1, if_false]
        refine ⟨?_, sameView_trans hv1 h2, sameButMaps_trans hb1 h3⟩
        rw [h1, hfilt _ hv1]
        simp only [List.filter_cons, ho, decide_False, Bool.false_eq_true, if_false]

/-- A query that returns changes nothing but the backward maps of the
interners, and those only in a way no later read can see. -/
theorem do_query_frame (s : State) (ts : Nat) (arg : String) (s1 : State) (out : List Record)
    (h : do_query s ts arg = some (s1, out)) : SameView s s1 ∧ SameButMaps s s1 := by
  unfold do_query at h
  cases hrec : reconstruct s ts with
  | none => rw [hrec] at h; cases h
  | some result =>
    rw [hrec] at h
    dsimp only at h
    cases hnum : isnum arg with
    | true =>
      rw [hnum] at h
      cases hk : stoi arg with
      | none => rw [hk] at h; cases h
      | some k =>
        rw [hk] at h
        simp only [if_true, Option.some.injEq] at h
        have := query_topk_loop_spec k s result
        rw [h] at this
        exact ⟨this.2.1, this.2.2⟩
    | false =>
      rw [hnum] at h
      simp only [Bool.false_eq_true, if_false, Option.some.injEq] at h
      have := query_orig_loop_spec arg result.length s result
      rw [h] at this
      exact ⟨this.2.1, this.2.2⟩

/-! ## Reachable states -/

theorem do_job_frame (s : State) (t p : Nat) (o i : String) (imp : Int) (d : Nat) :
    (do_job s t p o i imp d).num_cpus = s.num_cpus ∧
      (do_job s t p o i imp d).cpu_queue = s.cpu_queue ∧
      (do_job s t p o i imp d).job_queue_history = s.job_queue_history := by
  simp only [do_job]
  split <;> split <;> exact ⟨rfl, rfl, rfl⟩

theorem capacityInv_init (n : Nat) (hn : n < U64) : CapacityInv (init n) :=
  ⟨hn, Nat.zero_le _, by simp [init]⟩

theorem capacityInv_step (s : State) (c : Command) (s1 : State) (out : List Record)
    (hinv : CapacityInv s) (h : step s c = some (s1, out)) : CapacityInv s1 := by
  obtain ⟨hn, hc, hh⟩ := hinv
  cases c with
  | job t p o i imp d =>
    simp only [step, Option.some.injEq, Prod.mk.injEq] at h
    obtain ⟨h1, _⟩ := h
    subst h1
    obtain ⟨f1, f2, f3⟩ := do_job_frame s t p o i imp d
    exact ⟨by rw [f1]; exact hn, by rw [f1, f2]; exact hc, by rw [f3]; exact hh⟩
  | assign ts k =>
    obtain ⟨_, _, _, hcpu, hnum, hhist⟩ := do_assign_effect s ts k s1 out h
    refine ⟨by rw [hnum]; exact hn, ?_, ?_⟩
    · rw [hcpu, hnum, List.length_append, List.length_map, assigned_ids, pop_list_length]
      have hp : (purge ts s.cpu_queue).length ≤ s.cpu_queue.length := by
        rw [purge_eq_filter]
        exact List.length_filter_le _ _
      have hfree : usub64 s.num_cpus (purge ts s.cpu_queue).length =
          s.num_cpus - (purge ts s.cpu_queue).length := by
        simp only [usub64]
        rw [if_pos (by omega)]
      simp only [num_processed, hfree]
      omega
    · rcases hhist with ⟨h1, _⟩ | ⟨h1, _⟩
      · rw [h1]; simp
      · rw [h1]; exact hh
  | query ts arg =>
    obtain ⟨_, hb⟩ := do_query_frame s ts arg s1 out h
    obtain ⟨_, _, _, _, _, _, b7, b8, b9⟩ := hb
    exact ⟨by rw [b8]; exact hn, by rw [b8, b9]; exact hc, by rw [b7]; exact hh⟩

/-- Every reachable state satisfies the capacity invariant. -/
theorem capacityInv_of_reachable (n : Nat) (s : State) (h : Reachable n s) : CapacityInv s := by
  induction h with
  | start hn => exact capacityInv_init n hn
  | next _ hstep ih => exact capacityInv_step _ _ _ _ ih hstep

/-! ## Helper facts for the ordering claims -/

theorem record_of_importance (s : State) (id : Nat) :
    (record_of s id).importance = importance_of s id := rfl

theorem record_of_orig (s : State) (id : Nat) : (record_of s id).orig = origin_of s id := rfl

/-- Between jobs of different importance, "not less urgent" means strictly
greater importance. -/
theorem importance_lt_of_comparator (s : State) (a b : Nat)
    (hc : job_comparator s.jobs a b = false) (hne : importance_of s a ≠ importance_of s b) :
    importance_of s b < importance_of s a := by
  simp only [importance_of] at *
  simp only [job_comparator, ne_eq, hne, not_false_eq_true, if_true,
    decide_eq_false_iff_not] at hc
  omega

theorem importance_le_of_comparator (s : State) (a b : Nat)
    (hc : job_comparator s.jobs a b = false) :
    importance_of s b ≤ importance_of s a := by
  simp only [importance_of] at *
  by_cases hne : (s.jobs.getD a default).importance = (s.jobs.getD b default).importance
  · omega
  · simp only [job_comparator, ne_eq, hne, not_false_eq_true, if_true,
      decide_eq_false_iff_not] at hc
    omega

/-- A run of pops that is at least as long as the queue is the full drain. -/
theorem pop_list_eq_take_priority_order (jobs : List job) (k : Nat) (q : List Nat) :
    pop_list jobs k q = (priority_order jobs q).take (min k q.length) := by
  by_cases hk : k ≤ q.length
  · rw [Nat.min_eq_left hk]
    exact pop_list_take jobs k q.length q hk
  · have hk1 : q.length ≤ k := by omega
    rw [Nat.min_eq_right hk1]
    have h1 := pop_list_take jobs q.length k q hk1
    have h2 := pop_list_length jobs k q
    rw [Nat.min_eq_right hk1] at h2
    have h3 : (pop_list jobs k q).take q.length = pop_list jobs k q := by
      rw [← h2]
      exact List.take_length _
    rw [h3] at h1
    simp only [priority_order]
    rw [h1, ← h2, List.take_length]

/-- The shape of a query whose reconstruction returned `result`. -/
theorem do_query_of_reconstruct (s : State) (T : Nat) (arg : String) (result : List Nat)
    (hrec : reconstruct s T = some result) :
    do_query s T arg =
      if isnum arg then
        match stoi arg with
        | none => none
        | some k => some (query_topk_loop k s result)
      else some (query_orig_loop arg result.length s result) := by
  unfold do_query
  rw [hrec]

/-! ## The claims -/

/-- C2 — Assign capacity law.  In every state the program can reach, the
command `assign <ts> <k>` returns, and the number of jobs it pops from the
waiting queue and prints is `min (k, free, waiting)`, where `waiting` is the
size of the waiting queue before the assign and `free` is `num_cpus` minus
the number of CPU-queue entries strictly greater than `ts`. -/
theorem assign_capacity_law (n : Nat) (s : State) (ts k : Nat) (hs : Reachable n s) :
    ∃ s1 out, do_assign s ts k = some (s1, out) ∧
      out.length =
        min k (min (s.num_cpus - (s.cpu_queue.filter (fun t => decide (ts < t))).length)
          s.job_queue.length) ∧
      s1.job_queue.length + out.length = s.job_queue.length := by
  obtain ⟨hn, hc, hh⟩ := capacityInv_of_reachable n s hs
  obtain ⟨s1, h1⟩ := do_assign_returns s ts k hh
  obtain ⟨_, _, hq, _, _, _⟩ := do_assign_effect s ts k s1 _ h1
  refine ⟨s1, _, h1, ?_, ?_⟩
  · have hp : (s.cpu_queue.filter (fun t => decide (ts < t))).length ≤ s.cpu_queue.length :=
      List.length_filter_le _ _
    have hfree : usub64 s.num_cpus (s.cpu_queue.filter (fun t => decide (ts < t))).length =
        s.num_cpus - (s.cpu_queue.filter (fun t => decide (ts < t))).length := by
      simp only [usub64]
      rw [if_pos (by omega)]
    rw [List.length_map, assigned_ids, pop_list_length]
    simp only [num_processed, purge_eq_filter, hfree]
    omega
  · rw [hq, pop_rest_length, List.length_map, assigned_ids, pop_list_length]
    have := num_processed_le s ts k
    omega

/-- C2, at a concrete input: the state after the two jobs of the documented
scenario is reachable, and the law holds for `assign 2 5` there. -/
theorem assign_capacity_law_witness :
    Reachable 2 two_jobs_state ∧
      ∃ s1 out, do_assign two_jobs_state 2 5 = some (s1, out) ∧
        out.length =
          min 5 (min (two_jobs_state.num_cpus -
              (two_jobs_state.cpu_queue.filter (fun t => decide (2 < t))).length)
            two_jobs_state.job_queue.length) ∧
        s1.job_queue.length + out.length = two_jobs_state.job_queue.length :=
  have hr : Reachable 2 two_jobs_state :=
    @Reachable.next 2 _ _ (Command.job 1 2 "org2" "instrB" 3 10) []
      (@Reachable.next 2 _ _ (Command.job 0 1 "org1" "instrA" 5 10) []
        (Reachable.start (by decide)) rfl) rfl
  ⟨hr, assign_capacity_law 2 two_jobs_state 2 5 hr⟩

/-- C3 — Priority correctness.  When the waiting jobs have pairwise distinct
importance, an `assign` prints waiting jobs (the printed ids together with
the ids left in the queue are the queue before), in strictly decreasing
importance; every printed job has strictly greater importance than every job
left waiting; and the first printed job has the greatest importance of all
jobs that were waiting. -/
theorem assign_priority_order (s : State) (ts k : Nat) (s1 : State) (out : List Record)
    (hdist : s.job_queue.Pairwise (fun a b => importance_of s a ≠ importance_of s b))
    (h : do_assign s ts k = some (s1, out)) :
    out = (assigned_ids s ts k).map (record_of s) ∧
      (assigned_ids s ts k ++ s1.job_queue).Perm s.job_queue ∧
      (out.map Record.importance).Pairwise (fun a b => a > b) ∧
      (∀ r ∈ out, ∀ id ∈ s1.job_queue, importance_of s id < r.importance) ∧
      (∀ r, out.head? = some r → ∀ id ∈ s.job_queue, importance_of s id ≤ r.importance) := by
  obtain ⟨hout, _, hq, _, _, _⟩ := do_assign_effect s ts k s1 out h
  have hperm : (assigned_ids s ts k ++ s1.job_queue).Perm s.job_queue := by
    rw [hq]
    exact pop_list_perm s.jobs _ _
  have hdist2 : (assigned_ids s ts k ++ s1.job_queue).Pairwise
      (fun a b => importance_of s a ≠ importance_of s b) :=
    hperm.symm.pairwise hdist (fun hab hba => hab hba.symm)
  obtain ⟨hd1, _, hd3⟩ := List.pairwise_append.1 hdist2
  have hsorted : (assigned_ids s ts k).Pairwise (fun a b => job_comparator s.jobs a b = false) :=
    pop_list_sorted s.jobs _ _
  refine ⟨hout, hperm, ?_, ?_, ?_⟩
  · rw [hout, List.map_map, List.pairwise_map]
    refine (hsorted.and hd1).imp ?_
    intro a b hab
    exact importance_lt_of_comparator s a b hab.1 hab.2
  · intro r hr id hid
    rw [hout] at hr
    obtain ⟨a, ha, rfl⟩ := List.mem_map.1 hr
    rw [record_of_importance]
    refine importance_lt_of_comparator s a id ?_ (hd3 a ha id hid)
    rw [hq] at hid
    exact pop_list_ge_rest s.jobs _ _ a ha id hid
  · intro r hr id hid
    rw [hout] at hr
    cases hids : assigned_ids s ts k with
    | nil => rw [hids] at hr; simp at hr
    | cons a rest =>
      rw [hids] at hr
      simp only [List.map_cons, List.head?_cons, Option.some.injEq] at hr
      subst hr
      rw [record_of_importance]
      have hmem : id ∈ assigned_ids s ts k ++ s1.job_queue := hperm.symm.subset hid
      rw [hids] at hmem hsorted
      rcases List.mem_append.1 hmem with hm | hm
      · rcases List.mem_cons.1 hm with rfl | hm1
        · exact le_refl _
        · exact importance_le_of_comparator s a id ((List.pairwise_cons.1 hsorted).1 id hm1)
      · rw [hq] at hm
        refine importance_le_of_comparator s a id
          (pop_list_ge_rest s.jobs _ _ a ?_ id hm)
        show a ∈ assigned_ids s ts k
        rw [hids]
        exact List.mem_cons_self _ _

/-- C3, at a concrete input: the two waiting jobs of the documented scenario
have importance 5 and 3, and `assign 2 5` prints them in that order. -/
theorem assign_priority_order_witness :
    two_jobs_state.job_queue.Pairwise
        (fun a b => importance_of two_jobs_state a ≠ importance_of two_jobs_state b) ∧
      do_assign two_jobs_state 2 5 = some (scenario_final_state, scenario_records) ∧
      (scenario_records = (assigned_ids two_jobs_state 2 5).map (record_of two_jobs_state) ∧
        (assigned_ids two_jobs_state 2 5 ++ scenario_final_state.job_queue).Perm
          two_jobs_state.job_queue ∧
        (scenario_records.map Record.importance).Pairwise (fun a b => a > b) ∧
        (∀ r ∈ scenario_records, ∀ id ∈ scenario_final_state.job_queue,
          importance_of two_jobs_state id < r.importance) ∧
        (∀ r, scenario_records.head? = some r →
          ∀ id ∈ two_jobs_state.job_queue, importance_of two_jobs_state id ≤ r.importance)) :=
  ⟨by decide, by decide,
    assign_priority_order two_jobs_state 2 5 scenario_final_state scenario_records
      (by decide) (by decide)⟩

/-- Top-k query within the range of `std::stoi`.  When the argument of
`query <T> <arg>` is a string of digits that `std::stoi` reads as `k`
(so `k ≤ 2147483647`), and the reconstruction for `T` yields
the queue `result`, the query returns and prints exactly
`min (k, size of result)` records: those of the first `min (k, size)` jobs of
`result` listed in priority order.  That listing is a rearrangement of
`result` in which no job is followed by a more urgent one. -/
theorem query_topk (s : State) (T : Nat) (arg : String) (k : Nat) (result : List Nat)
    (hnum : isnum arg = true) (hk : stoi arg = some k)
    (hrec : reconstruct s T = some result) :
    ∃ s1 out, do_query s T arg = some (s1, out) ∧
      out = ((priority_order s.jobs result).take (min k result.length)).map (record_of s) ∧
      out.length = min k result.length ∧
      (priority_order s.jobs result).Perm result ∧
      (priority_order s.jobs result).Pairwise (fun a b => job_comparator s.jobs a b = false) := by
  have hq := do_query_of_reconstruct s T arg result hrec
  rw [hnum, hk] at hq
  simp only [if_true] at hq
  obtain ⟨h1, _, _⟩ := query_topk_loop_spec k s result
  have hperm := priority_order_perm s.jobs result
  refine ⟨(query_topk_loop k s result).1, (query_topk_loop k s result).2, hq, ?_, ?_, hperm,
    priority_order_sorted s.jobs result⟩
  · rw [h1, pop_list_eq_take_priority_order]
  · rw [h1, List.length_map, pop_list_length]

/-- The top-k lemma at a concrete input: with the two jobs arriving at times
1 and 2, `query 2 1` reconstructs the queue `[1, 2]` and prints one record. -/
theorem query_topk_witness :
    isnum "1" = true ∧ stoi "1" = some 1 ∧ reconstruct late_jobs_state 2 = some [1, 2] ∧
      ∃ s1 out, do_query late_jobs_state 2 "1" = some (s1, out) ∧
        out = ((priority_order late_jobs_state.jobs [1, 2]).take
          (min 1 [1, 2].length)).map (record_of late_jobs_state) ∧
        out.length = min 1 [1, 2].length ∧
        (priority_order late_jobs_state.jobs [1, 2]).Perm [1, 2] ∧
        (priority_order late_jobs_state.jobs [1, 2]).Pairwise
          (fun a b => job_comparator late_jobs_state.jobs a b = false) :=
  ⟨by decide, by decide, by decide,
    query_topk late_jobs_state 2 "1" 1 [1, 2] (by decide) (by decide) (by decide)⟩

/-- C10 — Origin-filtered query.  When the argument `o` of `query <T> <o>` is
not a string of digits and the reconstruction for `T` yields the queue
`result`, the query returns and prints exactly the records of the jobs of
`result` whose origin string is `o`, in priority order: the sublist of the
full priority-order listing selected by origin equality.  Every printed
record carries the origin `o`, and the selected jobs together with the jobs of
other origins are a rearrangement of `result`. -/
theorem query_origin (s : State) (T : Nat) (o : String) (result : List Nat)
    (hnon : isnum o = false) (hrec : reconstruct s T = some result) :
    ∃ s1 out, do_query s T o = some (s1, out) ∧
      out = ((priority_order s.jobs result).filter
        (fun id => decide (origin_of s id = o))).map (record_of s) ∧
      (∀ r ∈ out, r.orig = o) ∧
      ((priority_order s.jobs result).filter (fun id => decide (origin_of s id = o))).Sublist
        (priority_order s.jobs result) ∧
      (priority_order s.jobs result).Pairwise (fun a b => job_comparator s.jobs a b = false) ∧
      ((priority_order s.jobs result).filter (fun id => decide (origin_of s id = o)) ++
        (priority_order s.jobs result).filter (fun id => !decide (origin_of s id = o))).Perm
        result := by
  have hq := do_query_of_reconstruct s T o result hrec
  rw [hnon] at hq
  simp only [Bool.false_eq_true, if_false] at hq
  obtain ⟨h1, _, _⟩ := query_orig_loop_spec o result.length s result
  refine ⟨(query_orig_loop o result.length s result).1,
    (query_orig_loop o result.length s result).2, hq, h1, ?_, List.filter_sublist _,
    priority_order_sorted s.jobs result, ?_⟩
  · intro r hr
    rw [h1] at hr
    obtain ⟨id, hid, rfl⟩ := List.mem_map.1 hr
    rw [record_of_orig]
    simpa using (List.mem_filter.1 hid).2
  · exact (List.filter_append_perm _ _).trans (priority_order_perm s.jobs result)

/-- C10, at a concrete input: with the two jobs arriving at times 1 and 2,
`query 2 org2` reconstructs the queue `[1, 2]` and prints the `org2` job. -/
theorem query_origin_witness :
    isnum "org2" = false ∧ reconstruct late_jobs_state 2 = some [1, 2] ∧
      ∃ s1 out, do_query late_jobs_state 2 "org2" = some (s1, out) ∧
        out = ((priority_order late_jobs_state.jobs [1, 2]).filter
          (fun id => decide (origin_of late_jobs_state id = "org2"))).map
            (record_of late_jobs_state) ∧
        (∀ r ∈ out, r.orig = "org2") ∧
        ((priority_order late_jobs_state.jobs [1, 2]).filter
          (fun id => decide (origin_of late_jobs_state id = "org2"))).Sublist
          (priority_order late_jobs_state.jobs [1, 2]) ∧
        (priority_order late_jobs_state.jobs [1, 2]).Pairwise
          (fun a b => job_comparator late_jobs_state.jobs a b = false) ∧
        ((priority_order late_jobs_state.jobs [1, 2]).filter
            (fun id => decide (origin_of late_jobs_state id = "org2")) ++
          (priority_order late_jobs_state.jobs [1, 2]).filter
            (fun id => !decide (origin_of late_jobs_state id = "org2"))).Perm [1, 2] :=
  ⟨by decide, by decide, query_origin late_jobs_state 2 "org2" [1, 2] (by decide) (by decide)⟩

/-! ## Reconstruction at shared timestamps -/

/-- C1, at the input `cpus 1; job 10 1 a b 5 10; assign 60 1; job 60 2 c d 7 10`
and `T = 60` (the timestamp of the assign): the reference queue, after every
command with timestamp at most 60, holds job 2, while the queue the query
reconstructs for 60 is empty.  The snapshot taken at 60 is empty, and the
binary search for 60 in the log lands on the arrival of job 2, so the replay
starts after it. -/
theorem reconstruction_misses_arrival_at_snapshot :
    reference_queue 1 arrival_at_snapshot_commands 60 = some [2] ∧
      (run (init 1) arrival_at_snapshot_commands).map (fun r => r.1.job_queue) = some [2] ∧
      (run (init 1) arrival_at_snapshot_commands).map (fun r => r.1.job_queue_history) =
        some [(0, []), (60, [])] ∧
      (run (init 1) arrival_at_snapshot_commands).map (fun r => r.1.job_timestamp) =
        some [(0, (0, 1)), (10, (1, 2)), (60, (2, 2))] ∧
      (run (init 1) arrival_at_snapshot_commands).bind (fun r => reconstruct r.1 60) =
        some [] := by
  decide

/-- C4, at the scenario itself: after `cpus 2; job 0 1 org1 instrA 5 10;
job 1 2 org2 instrB 3 10` both jobs are waiting, the reconstruction for time 0
is the empty queue, and `query 0 1` prints no record. -/
theorem scenario_query_prints_nothing :
    (run (init 2) [Command.job 0 1 "org1" "instrA" 5 10, Command.job 1 2 "org2" "instrB" 3 10]) =
        some (two_jobs_state, [[], []]) ∧
      two_jobs_state.job_queue = [1, 2] ∧
      binary_search two_jobs_state.job_queue_history 0 = some 0 ∧
      binary_search two_jobs_state.job_timestamp 0 = some 1 ∧
      reconstruct two_jobs_state 0 = some [] ∧
      do_query two_jobs_state 0 "1" = some (two_jobs_state, []) := by
  decide

/-- C5, as stated: after the scenario's `assign 2 5` the CPU queue does not
hold the timestamps 10 and 11. -/
theorem scenario_cpu_queue_not_10_11 :
    ¬ ∃ r, run (init 2) scenario_commands = some r ∧ r.1.cpu_queue.Perm [10, 11] := by
  have hrun : run (init 2) scenario_commands =
      some (scenario_final_state, [[], [], scenario_records]) := by decide
  rintro ⟨r, hr, hp⟩
  rw [hrun] at hr
  simp only [Option.some.injEq] at hr
  subst hr
  have h12 : (12 : Nat) ∈ [10, 11] := hp.subset (by decide)
  exact absurd h12 (by decide)

/-- C5, amended: the scenario `cpus 2; job 0 1 org1 instrA 5 10;
job 1 2 org2 instrB 3 10; assign 2 5` returns; the assign prints both jobs,
`org1` first, empties the waiting queue, and leaves the CPU queue holding the
two timestamps 12 and 12 (the assign time 2 plus each duration 10). -/
theorem scenario_assign_result :
    run (init 2) scenario_commands = some (scenario_final_state, [[], [], scenario_records]) ∧
      scenario_final_state.cpu_queue = [12, 12] ∧
      scenario_final_state.job_queue = [] ∧
      scenario_records.map Record.orig = ["org1", "org2"] ∧
      scenario_records.map Record.importance = [5, 3] := by
  decide

/-- C6, at the input `cpus 1; job 0 1 a b 5 10; assign 1 1` and `T = 1`: the
timestamps are non-decreasing, the sentinel snapshot (empty queue) is
selected, the binary search for 0 in the log lands on the arrival of job 1,
and the replay starts at the entry `Assigned(1)` with an empty `result`: it
pops from an empty queue. -/
theorem replay_overpops_after_early_job :
    (run (init 1) early_job_commands).map (fun r => r.1.job_queue_history) = some [(0, [])] ∧
      (run (init 1) early_job_commands).map (fun r => r.1.job_timestamp) =
        some [(0, (0, 1)), (0, (1, 2)), (1, (1, 1))] ∧
      (run (init 1) early_job_commands).bind (fun r => binary_search r.1.job_timestamp 0) =
        some 1 ∧
      (run (init 1) early_job_commands).bind
          (fun r => replay_loop r.1.jobs 1 (r.1.job_timestamp.drop 2) []) = none ∧
      (run (init 1) early_job_commands).bind (fun r => reconstruct r.1 1) = none := by
  decide

/-- C7, at the input `cpus 2; job 0 1 org1 instrA 5 10; job 0 2 org2 instrB 3 10;
assign 3 2; query 3 1`: the replay meets `Assigned(2)` with an empty `result`;
the pop loop has no emptiness test, so it pops from the empty queue and the
query does not complete. -/
theorem unguarded_replay_pop :
    pop_n [] 2 [] = none ∧
      replay_loop [] 3 [(3, (2, ASSIGN_ID))] [] = none ∧
      (run (init 2) two_early_jobs_commands).bind (fun r => reconstruct r.1 3) = none ∧
      run (init 2) (two_early_jobs_commands ++ [Command.query 3 "1"]) = none := by
  decide

/-- C8, as stated: after the single command `assign 50 1` the snapshot vector
holds a snapshot recorded at 50 and the log holds no entry with timestamp 50. -/
theorem snapshot_without_log_entry :
    do_assign (init 1) 50 1 = some (snapshot_only_state, []) ∧
      snapshot_only_state.job_queue_history = [(0, []), (50, [])] ∧
      snapshot_only_state.job_timestamp = [(0, (0, 1))] ∧
      ¬ LogEntryAtEverySnapshot snapshot_only_state := by
  refine ⟨by decide, by decide, by decide, ?_⟩
  intro h
  obtain ⟨e, he, h50, _⟩ := h (50, []) (by decide)
  have : e = (0, (0, 1)) := by simpa [snapshot_only_state, init] using he
  subst this
  exact absurd h50 (by decide)

/-- C8, amended: an `assign` that records a snapshot appends exactly the pair
`(ts, waiting queue after the pops)` to the snapshot vector and leaves the log
as it was: no log entry is written for that assign. -/
theorem snapshot_assign_leaves_log (s : State) (ts k : Nat) (s1 : State) (out : List Record)
    (h : do_assign s ts k = some (s1, out))
    (hsnap : s1.job_queue_history ≠ s.job_queue_history) :
    s1.job_queue_history = s.job_queue_history ++ [(ts, s1.job_queue)] ∧
      s1.job_timestamp = s.job_timestamp := by
  obtain ⟨_, _, _, _, _, hcase⟩ := do_assign_effect s ts k s1 out h
  rcases hcase with hc | hc
  · exact hc
  · exact absurd hc.1 hsnap

/-- C8 amended, at a concrete input: `assign 50 1` in the initial state. -/
theorem snapshot_assign_leaves_log_witness :
    do_assign (init 1) 50 1 = some (snapshot_only_state, []) ∧
      snapshot_only_state.job_queue_history ≠ (init 1).job_queue_history ∧
      (snapshot_only_state.job_queue_history =
          (init 1).job_queue_history ++ [(50, snapshot_only_state.job_queue)] ∧
        snapshot_only_state.job_timestamp = (init 1).job_timestamp) :=
  ⟨by decide, by decide,
    snapshot_assign_leaves_log (init 1) 50 1 snapshot_only_state [] (by decide) (by decide)⟩

/-! ## Comparator, capacity and snapshot gating -/

/-- C14 — Comparator definition.  For all job ids `l` and `r`,
`job_comparator (l, r)` is true exactly when job `r` is strictly more urgent
than job `l` under the lexicographic rule (greater importance, then earlier
arrival, then shorter duration); in particular it is false when the three
fields are equal. -/
theorem job_comparator_iff_more_urgent (jobs : List job) (l r : Nat) :
    (job_comparator jobs l r = true ↔
        more_urgent (jobs.getD r default) (jobs.getD l default)) ∧
      ((jobs.getD l default).importance = (jobs.getD r default).importance →
        (jobs.getD l default).timestamp = (jobs.getD r default).timestamp →
        (jobs.getD l default).duration = (jobs.getD r default).duration →
        job_comparator jobs l r = false) := by
  simp only [job_comparator, more_urgent]
  generalize jobs.getD l default = a
  generalize jobs.getD r default = b
  constructor
  · by_cases h1 : a.importance = b.importance
    · by_cases h2 : a.timestamp = b.timestamp
      · simp [h1, h2]
      · simp only [ne_eq, h1, not_true_eq_false, if_false, h2, not_false_eq_true, if_true,
          decide_eq_true_eq]
        constructor
        · intro h; exact Or.inr ⟨trivial, Or.inl h⟩
        · rintro (h | ⟨_, h | ⟨h, _⟩⟩)
          · omega
          · exact h
          · exact absurd h.symm h2
    · simp only [ne_eq, h1, not_false_eq_true, if_true, decide_eq_true_eq]
      constructor
      · intro h; exact Or.inl h
      · rintro (h | ⟨h, _⟩)
        · exact h
        · exact absurd h.symm h1
  · intro h1 h2 h3
    simp [h1, h2, h3]

/-- C19 — Busy count never exceeds capacity.  In every state reachable from
the initial state (whose CPU queue is empty) the CPU queue holds at most
`num_cpus` timestamps; so after the purge of any `assign` the subtraction
`num_cpus - cpu_queue.size ()` does not wrap around: it is the plain
difference, and it is at most `num_cpus`. -/
theorem busy_count_le_capacity (n : Nat) (s : State) (hs : Reachable n s) :
    (init n).cpu_queue = [] ∧
      s.cpu_queue.length ≤ s.num_cpus ∧
      ∀ ts, (purge ts s.cpu_queue).length ≤ s.num_cpus ∧
        usub64 s.num_cpus (purge ts s.cpu_queue).length =
          s.num_cpus - (purge ts s.cpu_queue).length ∧
        usub64 s.num_cpus (purge ts s.cpu_queue).length ≤ s.num_cpus := by
  obtain ⟨_, hc, _⟩ := capacityInv_of_reachable n s hs
  refine ⟨rfl, hc, fun ts => ?_⟩
  have hp : (purge ts s.cpu_queue).length ≤ s.cpu_queue.length := by
    rw [purge_eq_filter]
    exact List.length_filter_le _ _
  have hle : (purge ts s.cpu_queue).length ≤ s.num_cpus := le_trans hp hc
  have hsub : usub64 s.num_cpus (purge ts s.cpu_queue).length =
      s.num_cpus - (purge ts s.cpu_queue).length := by
    simp only [usub64]
    rw [if_pos hle]
  exact ⟨hle, hsub, by rw [hsub]; exact Nat.sub_le _ _⟩

/-- C19, at a concrete input: the state after the documented scenario's
`assign 2 5` is reachable; both CPUs are busy there. -/
theorem busy_count_le_capacity_witness :
    Reachable 2 scenario_final_state ∧
      ((init 2).cpu_queue = [] ∧
        scenario_final_state.cpu_queue.length ≤ scenario_final_state.num_cpus ∧
        ∀ ts, (purge ts scenario_final_state.cpu_queue).length ≤ scenario_final_state.num_cpus ∧
          usub64 scenario_final_state.num_cpus (purge ts scenario_final_state.cpu_queue).length =
            scenario_final_state.num_cpus - (purge ts scenario_final_state.cpu_queue).length ∧
          usub64 scenario_final_state.num_cpus (purge ts scenario_final_state.cpu_queue).length ≤
            scenario_final_state.num_cpus) :=
  have hr : Reachable 2 scenario_final_state :=
    @Reachable.next 2 two_jobs_state scenario_final_state (Command.assign 2 5) scenario_records
      (@Reachable.next 2 _ _ (Command.job 1 2 "org2" "instrB" 3 10) []
        (@Reachable.next 2 _ _ (Command.job 0 1 "org1" "instrA" 5 10) []
          (Reachable.start (by decide)) rfl) rfl) (by decide)
  ⟨hr, busy_count_le_capacity 2 scenario_final_state hr⟩

/-- C16 — Snapshot gating.  For an `assign` at a timestamp `ts` not smaller
than the last snapshot's timestamp, with `n` the number of jobs it assigns:
the command returns and appends exactly one thing.  If
`ts - last_snapshot_ts >= TIME_INTERVAL` (50) it appends the pair
`(ts, waiting queue after the pops)` to the snapshot vector and leaves the log
unchanged; otherwise it appends `Assigned(n)` at `ts` to the log and leaves the
snapshot vector unchanged. -/
theorem snapshot_gating (s : State) (ts k : Nat) (last : Nat × List Nat)
    (hlast : s.job_queue_history.getLast? = some last) (hge : last.1 ≤ ts) :
    TIME_INTERVAL = 50 ∧
    ∃ s1 out, do_assign s ts k = some (s1, out) ∧
      out.length = num_processed s ts k ∧
      s1.job_queue = pop_rest s.jobs (num_processed s ts k) s.job_queue ∧
      (ts - last.1 ≥ TIME_INTERVAL →
        s1.job_queue_history = s.job_queue_history ++ [(ts, s1.job_queue)] ∧
          s1.job_timestamp = s.job_timestamp) ∧
      (ts - last.1 < TIME_INTERVAL →
        s1.job_timestamp = s.job_timestamp ++ [(ts, (out.length, ASSIGN_ID))] ∧
          s1.job_queue_history = s.job_queue_history) := by
  refine ⟨rfl, ?_⟩
  obtain ⟨s2, _, hq, _, hl, hh2, _, heq⟩ := do_assign_shape s ts k
  have hlen : ((assigned_ids s ts k).map (record_of s)).length = num_processed s ts k := by
    rw [List.length_map, assigned_ids, pop_list_length]
    exact Nat.min_eq_left (num_processed_le s ts k)
  have hsub : usub64 ts last.1 = ts - last.1 := by
    simp only [usub64]
    rw [if_pos hge]
  rw [hh2, hlast] at heq
  simp only [hsub] at heq
  by_cases hgap : ts - last.1 ≥ TIME_INTERVAL
  · rw [if_pos hgap] at heq
    refine ⟨_, _, heq, hlen, hq, fun _ => ⟨rfl, hl⟩, fun h => ?_⟩
    omega
  · rw [if_neg hgap] at heq
    refine ⟨_, _, heq, hlen, hq, fun h => absurd h hgap, fun _ => ⟨?_, rfl⟩⟩
    simp only [hl, hlen]

/-- C16, at a concrete input: `assign 2 5` after the two jobs of the
documented scenario (last snapshot: the sentinel at 0). -/
theorem snapshot_gating_witness :
    two_jobs_state.job_queue_history.getLast? = some (0, []) ∧ (0 : Nat) ≤ 2 ∧
      (TIME_INTERVAL = 50 ∧
      ∃ s1 out, do_assign two_jobs_state 2 5 = some (s1, out) ∧
        out.length = num_processed two_jobs_state 2 5 ∧
        s1.job_queue =
          pop_rest two_jobs_state.jobs (num_processed two_jobs_state 2 5)
            two_jobs_state.job_queue ∧
        (2 - 0 ≥ TIME_INTERVAL →
          s1.job_queue_history = two_jobs_state.job_queue_history ++ [(2, s1.job_queue)] ∧
            s1.job_timestamp = two_jobs_state.job_timestamp) ∧
        (2 - 0 < TIME_INTERVAL →
          s1.job_timestamp = two_jobs_state.job_timestamp ++ [(2, (out.length, ASSIGN_ID))] ∧
            s1.job_queue_history = two_jobs_state.job_queue_history)) :=
  ⟨by decide, by decide, snapshot_gating two_jobs_state 2 5 (0, []) (by decide) (by decide)⟩

/-! ## Binary search -/

theorem monoTs_of_pairwise {β : Type} (v : List (Nat × β))
    (h : v.Pairwise (fun a b => a.1 ≤ b.1)) : MonoTs v := by
  intro i j a b hij hi hj
  obtain ⟨hil, rfl⟩ := List.getElem?_eq_some.1 hi
  obtain ⟨hjl, rfl⟩ := List.getElem?_eq_some.1 hj
  rcases Nat.lt_or_eq_of_le hij with hlt | heq
  · exact (List.pairwise_iff_getElem.1 h) i j hil hjl hlt
  · subst heq
    exact le_refl _

/-- The loop invariant of `binary_search`: everything left of `l` is at most
`ts`, everything right of `u` is greater, and `idx` trails `l` by one. -/
theorem binary_search_loop_spec {β : Type} (v : List (Nat × β)) (ts : Nat)
    (hmono : MonoTs v) (hfirst : ∀ a, v[0]? = some a → a.1 ≤ ts) :
    ∀ (fuel l u idx : Nat), l ≤ u + 1 → u < v.length → u + 1 - l < fuel → idx = l - 1 →
      (∀ i a, i < l → v[i]? = some a → a.1 ≤ ts) →
      (∀ i a, u < i → v[i]? = some a → ts < a.1) →
      ∃ r, binary_search_loop v ts fuel l u idx = some r ∧ IsRightmostLe v ts r := by
  intro fuel
  induction fuel with
  | zero => intro l u idx _ _ hf; omega
  | succ fuel ih =>
    intro l u idx hlu hu hf hidx hlo hhi
    simp only [binary_search_loop]
    by_cases hle : l ≤ u
    · rw [if_pos hle]
      have hm : l + (u - l) / 2 < v.length := by
        have : (u - l) / 2 ≤ u - l := Nat.div_le_self _ _
        omega
      have hml : l ≤ l + (u - l) / 2 := Nat.le_add_right _ _
      have hmu : l + (u - l) / 2 ≤ u := by
        have : (u - l) / 2 ≤ u - l := Nat.div_le_self _ _
        omega
      generalize l + (u - l) / 2 = m at hm hml hmu
      have hget : v[m]? = some v[m] := List.getElem?_eq_getElem hm
      rw [hget]
      simp only
      have hbelow : v[m].1 ≤ ts → ∀ i a, i < m + 1 → v[i]? = some a → a.1 ≤ ts := by
        intro hmts i a hi ha
        exact le_trans (hmono i m a v[m] (by omega) ha hget) hmts
      by_cases heq : v[m].1 = ts
      · rw [if_pos heq]
        exact ih (m + 1) u m (by omega) hu (by omega) (by omega) (hbelow (by omega)) hhi
      · rw [if_neg heq]
        by_cases hlt : v[m].1 < ts
        · rw [if_pos hlt]
          exact ih (m + 1) u m (by omega) hu (by omega) (by omega) (hbelow (by omega)) hhi
        · rw [if_neg hlt]
          have hgt : ts < v[m].1 := by omega
          have hm0 : 0 < m := by
            rcases Nat.eq_zero_or_pos m with h0 | h0
            · subst h0
              have := hfirst v[0] hget
              omega
            · exact h0
          have hsub : usub64 m 1 = m - 1 := by
            simp only [usub64]
            rw [if_pos (show 1 ≤ m from hm0)]
          rw [hsub]
          refine ih l (m - 1) idx (by omega) (by omega) (by omega) hidx hlo ?_
          intro i a hi ha
          exact lt_of_lt_of_le hgt (hmono m i v[m] a (by omega) hget ha)
    · rw [if_neg hle]
      have hl : l = u + 1 := by omega
      refine ⟨idx, rfl, ?_, ?_, ?_⟩
      · omega
      · intro a ha
        exact hlo idx a (by omega) ha
      · intro j a ha hats
        by_contra hcon
        have := hhi j a (by omega) ha
        omega

/-- On a non-empty vector with non-decreasing timestamps whose first timestamp
is at most `ts`, `binary_search` returns the greatest index whose timestamp
is at most `ts`. -/
theorem binary_search_spec {β : Type} (v : List (Nat × β)) (ts : Nat)
    (hne : v ≠ []) (hmono : MonoTs v) (hfirst : ∀ a, v[0]? = some a → a.1 ≤ ts) :
    ∃ r, binary_search v ts = some r ∧ IsRightmostLe v ts r := by
  have hpos : 0 < v.length := List.length_pos.2 hne
  have hsub : usub64 v.length 1 = v.length - 1 := by
    simp only [usub64]
    rw [if_pos (show 1 ≤ v.length from hpos)]
  simp only [binary_search, hsub]
  exact binary_search_loop_spec v ts hmono hfirst (v.length + 1) 0 (v.length - 1) 0
    (Nat.zero_le _) (by omega) (by omega) rfl (fun i a hi _ => absurd hi (Nat.not_lt_zero _))
    (fun i a hi ha => by
      have := (List.getElem?_eq_some.1 ha).1
      omega)

/-- The greatest index with timestamp at most `ts` is unique, so it is what
`binary_search` returns. -/
theorem binary_search_eq {β : Type} (v : List (Nat × β)) (ts i : Nat)
    (hmono : MonoTs v) (hfirst : ∀ a, v[0]? = some a → a.1 ≤ ts)
    (hi : IsRightmostLe v ts i) : binary_search v ts = some i := by
  have hne : v ≠ [] := by
    intro h
    rw [h] at hi
    exact absurd hi.1 (Nat.not_lt_zero _)
  obtain ⟨r, hr, hr1, hr2, hr3⟩ := binary_search_spec v ts hne hmono hfirst
  obtain ⟨hi1, hi2, hi3⟩ := hi
  rw [hr]
  have h1 : r ≤ i := hi3 r v[r] (List.getElem?_eq_getElem hr1) (hr2 _ (List.getElem?_eq_getElem hr1))
  have h2 : i ≤ r := hr3 i v[i] (List.getElem?_eq_getElem hi1) (hi2 _ (List.getElem?_eq_getElem hi1))
  exact congrArg some (Nat.le_antisymm h1 h2)

/-- C15 — `binary_search` correctness.  For every non-empty vector of
(timestamp, payload) pairs sorted non-decreasingly by timestamp whose first
timestamp is at most `ts`, `binary_search` terminates (the fuel of the model
suffices and no index is out of range) and returns the greatest index `i`
with `v[i].timestamp <= ts`, the rightmost one among equal timestamps. -/
theorem binary_search_correct {β : Type} (v : List (Nat × β)) (ts : Nat)
    (hne : v ≠ []) (hsorted : v.Pairwise (fun a b => a.1 ≤ b.1))
    (hfirst : ∀ a, v.head? = some a → a.1 ≤ ts) :
    ∃ i, binary_search v ts = some i ∧ i < v.length ∧
      (∀ a, v[i]? = some a → a.1 ≤ ts) ∧
      (∀ j a, v[j]? = some a → a.1 ≤ ts → j ≤ i) ∧
      (∀ j a, v[j]? = some a → i < j → ts < a.1) := by
  have hfirst0 : ∀ a, v[0]? = some a → a.1 ≤ ts := by
    intro a ha
    apply hfirst a
    cases v with
    | nil => exact absurd rfl hne
    | cons x xs => simpa using ha
  obtain ⟨r, hr, hr1, hr2, hr3⟩ :=
    binary_search_spec v ts hne (monoTs_of_pairwise v hsorted) hfirst0
  refine ⟨r, hr, hr1, hr2, hr3, ?_⟩
  intro j a ha hj
  by_contra hcon
  have := hr3 j a ha (by omega)
  omega

/-- C15, at a concrete input: the log `[(0, _), (0, _), (1, _)]` of the
documented scenario, searched for timestamp 0, gives index 1. -/
theorem binary_search_correct_witness :
    two_jobs_state.job_timestamp ≠ [] ∧
      two_jobs_state.job_timestamp.Pairwise (fun a b => a.1 ≤ b.1) ∧
      (∀ a, two_jobs_state.job_timestamp.head? = some a → a.1 ≤ 0) ∧
      ∃ i, binary_search two_jobs_state.job_timestamp 0 = some i ∧
        i < two_jobs_state.job_timestamp.length ∧
        (∀ a, two_jobs_state.job_timestamp[i]? = some a → a.1 ≤ 0) ∧
        (∀ j a, two_jobs_state.job_timestamp[j]? = some a → a.1 ≤ 0 → j ≤ i) ∧
        (∀ j a, two_jobs_state.job_timestamp[j]? = some a → i < j → 0 < a.1) :=
  ⟨by decide, by decide, by decide,
    binary_search_correct two_jobs_state.job_timestamp 0 (by decide) (by decide) (by decide)⟩

/-! ## Runs -/

theorem run_snoc (c : Command) :
    ∀ (cmds : List Command) (s : State),
      run s (cmds ++ [c]) =
        match run s cmds with
        | none => none
        | some (s1, outs) =>
          match step s1 c with
          | none => none
          | some (s2, out) => some (s2, outs ++ [out]) := by
  intro cmds
  induction cmds with
  | nil =>
    intro s
    rw [List.nil_append]
    cases hc : step s c with
    | none => simp only [run, hc]
    | some r =>
      obtain ⟨s2, out⟩ := r
      simp only [run, hc, List.nil_append]
  | cons d ds ih =>
    intro s
    rw [List.cons_append]
    cases hd : step s d with
    | none => simp only [run, hd]
    | some r =>
      obtain ⟨s1, out⟩ := r
      have h1 : run s (d :: (ds ++ [c])) =
          match run s1 (ds ++ [c]) with
          | none => none
          | some (s2, outs) => some (s2, out :: outs) := by
        simp only [run, hd]
      have h2 : run s (d :: ds) =
          match run s1 ds with
          | none => none
          | some (s2, outs) => some (s2, out :: outs) := by
        simp only [run, hd]
      rw [h1, h2, ih s1]
      cases run s1 ds with
      | none => rfl
      | some r2 =>
        obtain ⟨s2, outs⟩ := r2
        simp only
        cases step s2 c with
        | none => rfl
        | some r3 => rfl

/-- Induction along a run: a property that holds of the start state and is
carried by every step holds of every state the run reaches. -/
theorem run_invariant (P : List Command → State → Prop) (s0 : State) (h0 : P [] s0)
    (hstep : ∀ cmds s c s1 out, run s0 cmds = some (s, out) → P cmds s →
      ∀ o, step s c = some (s1, o) → P (cmds ++ [c]) s1) :
    ∀ cmds s outs, run s0 cmds = some (s, outs) → P cmds s := by
  intro cmds
  induction cmds using List.reverseRecOn with
  | nil =>
    intro s outs h
    simp only [run, Option.some.injEq, Prod.mk.injEq] at h
    rw [← h.1]
    exact h0
  | append_singleton l c ih =>
    intro s outs h
    rw [run_snoc] at h
    cases hl : run s0 l with
    | none => rw [hl] at h; cases h
    | some r =>
      obtain ⟨s1, outs1⟩ := r
      rw [hl] at h
      simp only at h
      cases hc : step s1 c with
      | none => rw [hc] at h; cases h
      | some r2 =>
        obtain ⟨s2, o⟩ := r2
        rw [hc] at h
        simp only [Option.some.injEq, Prod.mk.injEq] at h
        rw [← h.1]
        exact hstep l s1 c s2 outs1 hl (ih s1 outs1 hl) o hc

/-- A run of `job` / `assign` commands returns. -/
theorem run_updates_returns :
    ∀ (cmds : List Command) (s : State), UpdatesOnly cmds → s.job_queue_history ≠ [] →
      ∃ s1 outs, run s cmds = some (s1, outs) := by
  intro cmds
  induction cmds with
  | nil => intro s _ _; exact ⟨s, [], rfl⟩
  | cons c cs ih =>
    intro s hupd hh
    have hcs : UpdatesOnly cs := fun d hd => hupd d (List.mem_cons_of_mem _ hd)
    have hc := hupd c (List.mem_cons_self _ _)
    cases c with
    | job t p o i imp d =>
      have hh1 : (do_job s t p o i imp d).job_queue_history ≠ [] := by
        rw [(do_job_frame s t p o i imp d).2.2]
        exact hh
      obtain ⟨s1, outs, h1⟩ := ih _ hcs hh1
      exact ⟨s1, [] :: outs, by simp only [run, step, h1]⟩
    | assign ts k =>
      obtain ⟨s1, h1⟩ := do_assign_returns s ts k hh
      have hh1 : s1.job_queue_history ≠ [] := by
        obtain ⟨_, _, _, _, _, hcase⟩ := do_assign_effect s ts k s1 _ h1
        rcases hcase with ⟨hc1, _⟩ | ⟨hc1, _⟩
        · rw [hc1]; simp
        · rw [hc1]; exact hh
      obtain ⟨s2, outs, h2⟩ := ih s1 hcs hh1
      exact ⟨s2, (assigned_ids s ts k).map (record_of s) :: outs, by simp only [run, step, h1, h2]⟩
    | query ts a => simp [Command.is_update] at hc

theorem updatesOnly_append {l1 l2 : List Command} (h : UpdatesOnly (l1 ++ l2)) :
    UpdatesOnly l1 ∧ UpdatesOnly l2 :=
  ⟨fun c hc => h c (List.mem_append_left _ hc), fun c hc => h c (List.mem_append_right _ hc)⟩

theorem nonDecreasing_snoc {cmds : List Command} {c : Command}
    (h : NonDecreasing (cmds ++ [c])) : NonDecreasing cmds ∧ ∀ d ∈ cmds, d.ts ≤ c.ts := by
  simp only [NonDecreasing, List.map_append, List.map_cons, List.map_nil] at h
  obtain ⟨h1, _, h3⟩ := List.pairwise_append.1 h
  refine ⟨h1, fun d hd => ?_⟩
  exact h3 d.ts (List.mem_map_of_mem _ hd) c.ts (List.mem_singleton.2 rfl)

/-! ## The timestamp-order invariant -/

/-- What the `job` command does to everything but the interners. -/
theorem do_job_effect (s : State) (t p : Nat) (o i : String) (imp : Int) (d : Nat) :
    (∃ j : job, (do_job s t p o i imp d).jobs = s.jobs ++ [j] ∧ j.timestamp = t ∧
        j.pid = p ∧ j.importance = imp ∧ j.duration = d ∧ j.unique_id = s.counter) ∧
      (do_job s t p o i imp d).job_timestamp = s.job_timestamp ++ [(t, (s.counter, JOB_ID))] ∧
      (do_job s t p o i imp d).job_queue = s.job_queue ++ [s.counter] ∧
      (do_job s t p o i imp d).counter = uadd64 s.counter 1 := by
  simp only [do_job]
  split <;> split <;> exact ⟨⟨_, rfl, rfl, rfl, rfl, rfl, rfl⟩, rfl, rfl, rfl⟩

/-- The gate of `assign`, in terms of the last snapshot. -/
theorem do_assign_gate (s : State) (ts k : Nat) (s1 : State) (out : List Record)
    (last : Nat × List Nat) (h : do_assign s ts k = some (s1, out))
    (hlast : s.job_queue_history.getLast? = some last) :
    (usub64 ts last.1 ≥ TIME_INTERVAL ∧
        s1.job_queue_history = s.job_queue_history ++ [(ts, s1.job_queue)] ∧
        s1.job_timestamp = s.job_timestamp) ∨
      (usub64 ts last.1 < TIME_INTERVAL ∧
        s1.job_queue_history = s.job_queue_history ∧
        s1.job_timestamp = s.job_timestamp ++ [(ts, (num_processed s ts k, ASSIGN_ID))]) := by
  obtain ⟨s2, _, _, _, hl, hh2, _, heq⟩ := do_assign_shape s ts k
  rw [heq, hh2, hlast] at h
  by_cases hgap : usub64 ts last.1 ≥ TIME_INTERVAL
  · simp only [hgap, if_true, Option.some.injEq, Prod.mk.injEq] at h
    rw [← h.1]
    exact Or.inl ⟨hgap, rfl, hl⟩
  · simp only [hgap, if_false, Option.some.injEq, Prod.mk.injEq] at h
    rw [← h.1]
    exact Or.inr ⟨by omega, rfl, by simp only [hl]⟩

/-- In a list whose elements are pairwise at least `TIME_INTERVAL` apart, no
timestamp exceeds the last one. -/
theorem le_last_of_gapped (l : List (Nat × List Nat)) (last : Nat × List Nat)
    (hp : l.Pairwise (fun a b => a.1 + TIME_INTERVAL ≤ b.1))
    (hlast : l.getLast? = some last) : ∀ a ∈ l, a.1 ≤ last.1 := by
  obtain ⟨ys, rfl⟩ := List.getLast?_eq_some_iff.1 hlast
  obtain ⟨_, _, h3⟩ := List.pairwise_append.1 hp
  intro a ha
  rcases List.mem_append.1 ha with h | h
  · have := h3 a h last (List.mem_singleton.2 rfl)
    omega
  · rw [List.mem_singleton.1 h]

theorem timeInv_init (n : Nat) : TimeInv [] (init n) := by
  refine ⟨by simp [init], by simp [init], ⟨[], rfl, ?_⟩, ⟨[], rfl, ?_⟩⟩
  · intro e he; simp at he
  · intro h hh; simp at hh

/-- One `job` or `assign` whose timestamp is not smaller than the earlier
ones carries the timestamp-order invariant. -/
theorem timeInv_step (cmds : List Command) (s : State) (c : Command) (s1 : State)
    (o : List Record) (hinv : TimeInv cmds s) (hle : ∀ d ∈ cmds, d.ts ≤ c.ts)
    (hc : c.is_update = true) (hstep : step s c = some (s1, o)) :
    TimeInv (cmds ++ [c]) s1 := by
  obtain ⟨hlog, hhist, ⟨lrest, hl0, hlrest⟩, ⟨hrest, hh0, hhrest⟩⟩ := hinv
  have hlogle : ∀ e ∈ s.job_timestamp, e.1 ≤ c.ts := by
    intro e he
    rw [hl0] at he
    rcases List.mem_cons.1 he with rfl | he1
    · exact Nat.zero_le _
    · obtain ⟨d, hd, hdt⟩ := hlrest e he1
      rw [← hdt]
      exact hle d hd
  have hhistle : ∀ h ∈ s.job_queue_history, h.1 ≤ c.ts := by
    intro h hh
    rw [hh0] at hh
    rcases List.mem_cons.1 hh with rfl | hh1
    · exact Nat.zero_le _
    · obtain ⟨k, hk⟩ := hhrest h hh1
      exact hle _ hk
  have hlrest1 : ∀ e ∈ lrest, ∃ d ∈ cmds ++ [c], d.ts = e.1 := by
    intro e he
    obtain ⟨d, hd, hdt⟩ := hlrest e he
    exact ⟨d, List.mem_append_left _ hd, hdt⟩
  have hhrest1 : ∀ h ∈ hrest, ∃ k, Command.assign h.1 k ∈ cmds ++ [c] := by
    intro h hh
    obtain ⟨k, hk⟩ := hhrest h hh
    exact ⟨k, List.mem_append_left _ hk⟩
  have hlog1 : ∀ x : Nat × Nat, (s.job_timestamp ++ [(c.ts, x)]).Pairwise (fun a b => a.1 ≤ b.1) := by
    intro x
    refine List.pairwise_append.2 ⟨hlog, List.pairwise_singleton _ _, ?_⟩
    intro a ha b hb
    rw [List.mem_singleton.1 hb]
    exact hlogle a ha
  have hlrest2 : ∀ x : Nat × Nat, ∀ e ∈ lrest ++ [(c.ts, x)], ∃ d ∈ cmds ++ [c], d.ts = e.1 := by
    intro x e he
    rcases List.mem_append.1 he with h | h
    · exact hlrest1 e h
    · rw [List.mem_singleton.1 h]
      exact ⟨c, List.mem_append_right _ (List.mem_singleton.2 rfl), rfl⟩
  cases c with
  | job t p og i imp d =>
    simp only [step, Option.some.injEq, Prod.mk.injEq] at hstep
    rw [← hstep.1]
    obtain ⟨_, hjl, _, _⟩ := do_job_effect s t p og i imp d
    obtain ⟨_, _, hjh⟩ := do_job_frame s t p og i imp d
    refine ⟨?_, by rw [hjh]; exact hhist, ⟨lrest ++ [(t, (s.counter, JOB_ID))], ?_, ?_⟩,
      ⟨hrest, by rw [hjh]; exact hh0, hhrest1⟩⟩
    · rw [hjl]
      exact hlog1 _
    · rw [hjl, hl0]
      rfl
    · exact hlrest2 _
  | assign ts k =>
    have hne : s.job_queue_history ≠ [] := by rw [hh0]; simp
    obtain ⟨last, hlast⟩ : ∃ last, s.job_queue_history.getLast? = some last := by
      cases hgl : s.job_queue_history.getLast? with
      | none => exact absurd (List.getLast?_eq_none_iff.1 hgl) hne
      | some x => exact ⟨x, rfl⟩
    have hlastle : last.1 ≤ ts := hhistle last (List.mem_of_getLast?_eq_some hlast)
    rcases do_assign_gate s ts k s1 o last hstep hlast with ⟨hgap, hh1, hl1⟩ | ⟨_, hh1, hl1⟩
    · have hsub : usub64 ts last.1 = ts - last.1 := by
        simp only [usub64]
        rw [if_pos hlastle]
      rw [hsub] at hgap
      refine ⟨by rw [hl1]; exact hlog, ?_, ⟨lrest, by rw [hl1]; exact hl0, hlrest1⟩,
        ⟨hrest ++ [(ts, s1.job_queue)], ?_, ?_⟩⟩
      · rw [hh1]
        refine List.pairwise_append.2 ⟨hhist, List.pairwise_singleton _ _, ?_⟩
        intro a ha b hb
        rw [List.mem_singleton.1 hb]
        have := le_last_of_gapped _ last hhist hlast a ha
        show a.1 + TIME_INTERVAL ≤ ts
        omega
      · rw [hh1, hh0]
        rfl
      · intro h hh
        rcases List.mem_append.1 hh with h2 | h2
        · exact hhrest1 h h2
        · rw [List.mem_singleton.1 h2]
          exact ⟨k, List.mem_append_right _ (List.mem_singleton.2 rfl)⟩
    · refine ⟨?_, by rw [hh1]; exact hhist,
        ⟨lrest ++ [(ts, (num_processed s ts k, ASSIGN_ID))], ?_, ?_⟩,
        ⟨hrest, by rw [hh1]; exact hh0, hhrest1⟩⟩
      · rw [hl1]
        exact hlog1 _
      · rw [hl1, hl0]
        rfl
      · exact hlrest2 _
  | query ts a => simp [Command.is_update] at hc

/-- After a non-decreasing run of `job` / `assign` commands from the initial
state the timestamp-order invariant holds. -/
theorem timeInv_of_run (n : Nat) :
    ∀ cmds s outs, run (init n) cmds = some (s, outs) →
      UpdatesOnly cmds → NonDecreasing cmds → TimeInv cmds s := by
  refine run_invariant (fun cmds s => UpdatesOnly cmds → NonDecreasing cmds → TimeInv cmds s)
    (init n) (fun _ _ => timeInv_init n) ?_
  intro cmds s c s1 out _ ih o hstep hupd hnd
  obtain ⟨hu1, hu2⟩ := updatesOnly_append hupd
  obtain ⟨hn1, hn2⟩ := nonDecreasing_snoc hnd
  exact timeInv_step cmds s c s1 o (ih hu1 hn1) hn2 (hu2 c (List.mem_singleton.2 rfl)) hstep

/-- C17 — Timestamp-order invariant.  For every sequence of `job` / `assign`
commands with non-decreasing timestamps and after each of its commands (after
every prefix of the sequence), the run returns, the log timestamps are
non-decreasing, the snapshot timestamps are strictly increasing, the snapshot
vector starts with the sentinel `(0, empty)`, consecutive snapshots are at
least `TIME_INTERVAL` apart, and every snapshot but the sentinel carries the
timestamp of an `assign` command processed so far. -/
theorem timestamp_order_invariant (n : Nat) (cmds : List Command) (hupd : UpdatesOnly cmds)
    (hnd : NonDecreasing cmds) (m : Nat) :
    ∃ s outs, run (init n) (cmds.take m) = some (s, outs) ∧
      s.job_timestamp.Pairwise (fun a b => a.1 ≤ b.1) ∧
      s.job_queue_history.Pairwise (fun a b => a.1 < b.1) ∧
      s.job_queue_history.head? = some (0, []) ∧
      s.job_queue_history.Chain' (fun a b => a.1 + TIME_INTERVAL ≤ b.1) ∧
      ∀ h ∈ s.job_queue_history.tail, ∃ k, Command.assign h.1 k ∈ cmds.take m := by
  have hupd1 : UpdatesOnly (cmds.take m) := fun c hc => hupd c (List.mem_of_mem_take hc)
  have hnd1 : NonDecreasing (cmds.take m) := by
    simp only [NonDecreasing, List.map_take]
    exact List.Pairwise.sublist (List.take_sublist _ _) hnd
  obtain ⟨s, outs, hrun⟩ := run_updates_returns (cmds.take m) (init n) hupd1 (by simp [init])
  obtain ⟨hlog, hhist, _, ⟨hrest, hh0, hhrest⟩⟩ := timeInv_of_run n _ s outs hrun hupd1 hnd1
  refine ⟨s, outs, hrun, hlog, ?_, by rw [hh0]; rfl, hhist.chain', ?_⟩
  · refine hhist.imp ?_
    intro a b hab
    simp only [TIME_INTERVAL] at hab
    omega
  · rw [hh0]
    exact hhrest

/-- C17, at a concrete input: the three commands `job 10 ..; assign 60 1;
job 60 ..`, all of them processed. -/
theorem timestamp_order_invariant_witness :
    UpdatesOnly arrival_at_snapshot_commands ∧ NonDecreasing arrival_at_snapshot_commands ∧
      ∃ s outs, run (init 1) (arrival_at_snapshot_commands.take 3) = some (s, outs) ∧
        s.job_timestamp.Pairwise (fun a b => a.1 ≤ b.1) ∧
        s.job_queue_history.Pairwise (fun a b => a.1 < b.1) ∧
        s.job_queue_history.head? = some (0, []) ∧
        s.job_queue_history.Chain' (fun a b => a.1 + TIME_INTERVAL ≤ b.1) ∧
        ∀ h ∈ s.job_queue_history.tail,
          ∃ k, Command.assign h.1 k ∈ arrival_at_snapshot_commands.take 3 :=
  ⟨by decide, by decide,
    timestamp_order_invariant 1 arrival_at_snapshot_commands (by decide) (by decide) 3⟩

/-! ## Queries before the first command -/

theorem query_topk_loop_nil (k : Nat) (s : State) : query_topk_loop k s [] = (s, []) := by
  cases k with
  | zero => rfl
  | succ k => simp only [query_topk_loop, pq_top]

theorem replay_loop_stop (jobs : List job) (T : Nat) (l : List (Nat × (Nat × Nat)))
    (result : List Nat) (h : ∀ e, l.head? = some e → T < e.1) :
    replay_loop jobs T l result = some result := by
  cases l with
  | nil => rfl
  | cons e rest =>
    have := h e rfl
    simp only [replay_loop]
    rw [if_neg (by omega)]

/-- In a vector whose first timestamp is at most `ts` and whose other
timestamps are greater, index 0 is the rightmost one at most `ts`. -/
theorem isRightmostLe_zero {β : Type} (x : Nat × β) (rest : List (Nat × β)) (ts : Nat)
    (hx : x.1 ≤ ts) (hrest : ∀ e ∈ rest, ts < e.1) : IsRightmostLe (x :: rest) ts 0 := by
  refine ⟨by simp, ?_, ?_⟩
  · intro a ha
    simp only [List.getElem?_cons_zero, Option.some.injEq] at ha
    rw [← ha]
    exact hx
  · intro j a ha hts
    cases j with
    | zero => exact Nat.le_refl _
    | succ j =>
      simp only [List.getElem?_cons_succ] at ha
      have hmem : a ∈ rest := List.getElem?_mem ha
      have := hrest a hmem
      omega

/-- C11 — Query before any command.  For every sequence of `job` / `assign`
commands with non-decreasing timestamps and every `T` strictly smaller than
the timestamp of each of them: the run returns; the reconstruction for `T`
selects the sentinel snapshot (index 0, the pair `(0, empty)`), takes log
position 0, finds every later log entry above `T` (so it replays nothing) and
yields the empty queue; and the query, origin-filtered or top-k, prints no
record and leaves the state as it was. -/
theorem query_before_any_command (n : Nat) (cmds : List Command) (hupd : UpdatesOnly cmds)
    (hnd : NonDecreasing cmds) (T : Nat) (hT : ∀ c ∈ cmds, T < c.ts) :
    ∃ s outs, run (init n) cmds = some (s, outs) ∧
      binary_search s.job_queue_history T = some 0 ∧
      s.job_queue_history[0]? = some (0, []) ∧
      binary_search s.job_timestamp 0 = some 0 ∧
      (∀ e ∈ s.job_timestamp.drop 1, T < e.1) ∧
      reconstruct s T = some [] ∧
      (∀ arg, isnum arg = false → do_query s T arg = some (s, [])) ∧
      (∀ arg k, isnum arg = true → stoi arg = some k → do_query s T arg = some (s, [])) := by
  obtain ⟨s, outs, hrun⟩ := run_updates_returns cmds (init n) hupd (by simp [init])
  obtain ⟨hlog, hhist, ⟨lrest, hl0, hlrest⟩, ⟨hrest, hh0, hhrest⟩⟩ :=
    timeInv_of_run n cmds s outs hrun hupd hnd
  have hlgt : ∀ e ∈ lrest, T < e.1 := by
    intro e he
    obtain ⟨d, hd, hdt⟩ := hlrest e he
    rw [← hdt]
    exact hT d hd
  have hhgt : ∀ h ∈ hrest, T < h.1 := by
    intro h hh
    obtain ⟨k, hk⟩ := hhrest h hh
    exact hT _ hk
  have hmonoh : MonoTs s.job_queue_history := by
    apply monoTs_of_pairwise
    refine hhist.imp ?_
    intro a b hab
    omega
  have hmonol : MonoTs s.job_timestamp := monoTs_of_pairwise _ hlog
  have hb1 : binary_search s.job_queue_history T = some 0 := by
    apply binary_search_eq _ _ _ hmonoh
    · intro a ha
      rw [hh0] at ha
      simp only [List.getElem?_cons_zero, Option.some.injEq] at ha
      rw [← ha]
      exact Nat.zero_le _
    · rw [hh0]
      exact isRightmostLe_zero _ _ _ (Nat.zero_le _) hhgt
  have hb2 : binary_search s.job_timestamp 0 = some 0 := by
    apply binary_search_eq _ _ _ hmonol
    · intro a ha
      rw [hl0] at ha
      simp only [List.getElem?_cons_zero, Option.some.injEq] at ha
      rw [← ha]
    · rw [hl0]
      refine isRightmostLe_zero _ _ _ (Nat.le_refl _) ?_
      intro e he
      have := hlgt e he
      omega
  have hsnap : s.job_queue_history[0]? = some (0, []) := by
    rw [hh0, List.getElem?_cons_zero]
  have hdrop : s.job_timestamp.drop 1 = lrest := by rw [hl0]; rfl
  have hrec : reconstruct s T = some [] := by
    simp only [reconstruct, hb1, hsnap, hb2, Nat.zero_add, hdrop]
    exact replay_loop_stop s.jobs T lrest [] (fun e he => hlgt e (List.mem_of_mem_head? he))
  refine ⟨s, outs, hrun, hb1, hsnap, hb2, by rw [hdrop]; exact hlgt, hrec, ?_, ?_⟩
  · intro arg harg
    rw [do_query_of_reconstruct s T arg [] hrec, harg]
    rfl
  · intro arg k harg hk
    rw [do_query_of_reconstruct s T arg [] hrec, harg, hk]
    simp only [if_true, query_topk_loop_nil]

/-- C11, at a concrete input: the commands `job 10 ..; assign 60 1; job 60 ..`
queried at `T = 5`. -/
theorem query_before_any_command_witness :
    UpdatesOnly arrival_at_snapshot_commands ∧ NonDecreasing arrival_at_snapshot_commands ∧
      (∀ c ∈ arrival_at_snapshot_commands, 5 < c.ts) ∧
      ∃ s outs, run (init 1) arrival_at_snapshot_commands = some (s, outs) ∧
        binary_search s.job_queue_history 5 = some 0 ∧
        s.job_queue_history[0]? = some (0, []) ∧
        binary_search s.job_timestamp 0 = some 0 ∧
        (∀ e ∈ s.job_timestamp.drop 1, 5 < e.1) ∧
        reconstruct s 5 = some [] ∧
        (∀ arg, isnum arg = false → do_query s 5 arg = some (s, [])) ∧
        (∀ arg k, isnum arg = true → stoi arg = some k → do_query s 5 arg = some (s, [])) :=
  ⟨by decide, by decide, by decide,
    query_before_any_command 1 arrival_at_snapshot_commands (by decide) (by decide) 5
      (by decide)⟩

/-! ## Printing in well-formed states -/

theorem assocIndex_of_find {κ ν : Type} [DecidableEq κ] (dflt : ν) (k : κ) (m : List (κ × ν))
    (v : ν) (h : assocFind k m = some v) : assocIndex dflt k m = (v, m) := by
  simp only [assocIndex, h]

theorem indexB_of_exists (b : bimap) (x : Int) (h : b.existsB x = true) :
    (b.indexB x).2 = b := by
  simp only [bimap.existsB, Option.isSome_iff_exists] at h
  obtain ⟨v, hv⟩ := h
  simp only [bimap.indexB, assocIndex_of_find "" x b.map_b v hv]

/-- Printing a job whose codes the interners hold leaves the state as it is. -/
theorem print_job_unchanged (s : State) (j : job) (ho : s.orig_set.existsB j.orig = true)
    (hi : s.instruction_set.existsB j.instructions = true) : (print_job s j).1 = s := by
  simp only [print_job, indexB_of_exists _ _ ho, indexB_of_exists _ _ hi]

/-- The assign loop on a queue of printable jobs leaves the interners as they
are. -/
theorem assign_loop_maps (ts : Nat) :
    ∀ (n : Nat) (s s1 : State) (out : List Record),
      (∀ id ∈ s.job_queue, CodesPresent s id) → assign_loop ts n s = some (s1, out) →
      s1.orig_set = s.orig_set ∧ s1.instruction_set = s.instruction_set := by
  intro n
  induction n with
  | zero =>
    intro s s1 out _ h
    simp only [assign_loop, Option.some.injEq, Prod.mk.injEq] at h
    rw [← h.1]
    exact ⟨rfl, rfl⟩
  | succ n ih =>
    intro s s1 out hcodes h
    cases htop : pq_top (job_comparator s.jobs) s.job_queue with
    | none => simp only [assign_loop, htop] at h; cases h
    | some t =>
      have hmem := pq_top_mem _ _ t htop
      obtain ⟨hco, hci⟩ := hcodes t hmem
      let sa : State := { s with job_queue := s.job_queue.erase t }
      have hp : (print_job sa (s.jobs.getD t default)).1 = sa :=
        print_job_unchanged sa _ hco hci
      let sb : State :=
        { sa with cpu_queue := pq_push sa.cpu_queue (uadd64 ts (s.jobs.getD t default).duration) }
      have hloop : assign_loop ts (n + 1) s =
          match assign_loop ts n sb with
          | none => none
          | some (s3, o) => some (s3, (print_job sa (s.jobs.getD t default)).2 :: o) := by
        simp only [assign_loop, htop]
        rw [hp]
      rw [hloop] at h
      cases hrec : assign_loop ts n sb with
      | none => rw [hrec] at h; cases h
      | some r =>
        obtain ⟨s3, o⟩ := r
        rw [hrec] at h
        simp only [Option.some.injEq, Prod.mk.injEq] at h
        rw [← h.1]
        have hcodes2 : ∀ id ∈ sb.job_queue, CodesPresent sb id := by
          intro id hid
          exact hcodes id (List.mem_of_mem_erase hid)
        exact ih sb s3 o hcodes2 hrec

/-- The top-k loop on a queue of printable jobs leaves the state as it is. -/
theorem query_topk_loop_unchanged :
    ∀ (k : Nat) (s : State) (result : List Nat), (∀ id ∈ result, CodesPresent s id) →
      (query_topk_loop k s result).1 = s := by
  intro k
  induction k with
  | zero => intro s result _; rfl
  | succ k ih =>
    intro s result hcodes
    cases htop : pq_top (job_comparator s.jobs) result with
    | none => simp only [query_topk_loop, htop]
    | some t =>
      obtain ⟨hco, hci⟩ := hcodes t (pq_top_mem _ _ t htop)
      simp only [query_topk_loop, htop]
      rw [print_job_unchanged s _ hco hci]
      exact ih s (result.erase t) (fun id hid => hcodes id (List.mem_of_mem_erase hid))

/-- The origin loop on a queue of printable jobs leaves the state as it is. -/
theorem query_orig_loop_unchanged (orig : String) :
    ∀ (fuel : Nat) (s : State) (result : List Nat), (∀ id ∈ result, CodesPresent s id) →
      (query_orig_loop orig fuel s result).1 = s := by
  intro fuel
  induction fuel with
  | zero => intro s result _; rfl
  | succ fuel ih =>
    intro s result hcodes
    cases htop : pq_top (job_comparator s.jobs) result with
    | none => simp only [query_orig_loop, htop]
    | some t =>
      obtain ⟨hco, hci⟩ := hcodes t (pq_top_mem _ _ t htop)
      have hs1 : ({ s with orig_set := (s.orig_set.indexB (s.jobs.getD t default).orig).2 } :
          State) = s := by
        rw [indexB_of_exists _ _ hco]
      have hrest : ∀ id ∈ result.erase t, CodesPresent s id :=
        fun id hid => hcodes id (List.mem_of_mem_erase hid)
      simp only [query_orig_loop, htop]
      rw [hs1]
      split
      · rw [print_job_unchanged s _ hco hci]
        exact ih s _ hrest
      · exact ih s _ hrest

/-! ## Replay -/

/-- The unguarded pop loop returns exactly when the queue holds enough
elements, and then removes the `n` most urgent ones. -/
theorem pop_n_eq (jobs : List job) :
    ∀ (n : Nat) (q : List Nat), n ≤ q.length → pop_n jobs n q = some (pop_rest jobs n q) := by
  intro n
  induction n with
  | zero => intro q _; rfl
  | succ n ih =>
    intro q hn
    cases htop : pq_top (job_comparator jobs) q with
    | none =>
      have : q = [] := (pq_top_eq_none _ q).1 htop
      rw [this] at hn
      simp at hn
    | some t =>
      have hmem := pq_top_mem _ q t htop
      simp only [pop_n, pq_pop, pop_rest, htop]
      apply ih
      rw [List.length_erase_of_mem hmem]
      omega

theorem pop_n_some (jobs : List job) :
    ∀ (n : Nat) (q r : List Nat), pop_n jobs n q = some r →
      n ≤ q.length ∧ r = pop_rest jobs n q := by
  intro n
  induction n with
  | zero =>
    intro q r h
    simp only [pop_n, Option.some.injEq] at h
    exact ⟨Nat.zero_le _, h.symm⟩
  | succ n ih =>
    intro q r h
    cases htop : pq_top (job_comparator jobs) q with
    | none => simp only [pop_n, pq_pop, htop] at h; cases h
    | some t =>
      have hmem := pq_top_mem _ q t htop
      simp only [pop_n, pq_pop, htop] at h
      obtain ⟨h1, h2⟩ := ih _ r h
      rw [List.length_erase_of_mem hmem] at h1
      have hpos : 0 < q.length := List.length_pos_of_mem hmem
      refine ⟨by omega, ?_⟩
      simp only [pop_rest, htop]
      exact h2

/-- Every id the replay leaves in `result` was there at the start or is the
id of an arrival entry it replayed. -/
theorem replay_loop_subset (jobs : List job) (T : Nat) :
    ∀ (l : List (Nat × (Nat × Nat))) (result r : List Nat),
      replay_loop jobs T l result = some r →
      ∀ id ∈ r, id ∈ result ∨ ∃ e ∈ l, e.2.2 = JOB_ID ∧ e.2.1 = id := by
  intro l
  induction l with
  | nil =>
    intro result r h id hid
    simp only [replay_loop, Option.some.injEq] at h
    rw [← h] at hid
    exact Or.inl hid
  | cons e rest ih =>
    intro result r h id hid
    simp only [replay_loop] at h
    by_cases hle : e.1 ≤ T
    · rw [if_pos hle] at h
      by_cases hjob : e.2.2 = JOB_ID
      · rw [if_pos hjob] at h
        rcases ih _ r h id hid with h1 | ⟨e1, he1, h2⟩
        · rcases List.mem_append.1 h1 with h3 | h3
          · exact Or.inl h3
          · exact Or.inr ⟨e, List.mem_cons_self _ _, hjob, (List.mem_singleton.1 h3).symm⟩
        · exact Or.inr ⟨e1, List.mem_cons_of_mem _ he1, h2⟩
      · rw [if_neg hjob] at h
        cases hpop : pop_n jobs e.2.1 result with
        | none => rw [hpop] at h; cases h
        | some q =>
          rw [hpop] at h
          simp only at h
          obtain ⟨_, hq⟩ := pop_n_some jobs _ _ _ hpop
          rcases ih _ r h id hid with h1 | ⟨e1, he1, h2⟩
          · rw [hq] at h1
            exact Or.inl (pop_rest_subset jobs _ _ id h1)
          · exact Or.inr ⟨e1, List.mem_cons_of_mem _ he1, h2⟩
    · rw [if_neg hle] at h
      simp only [Option.some.injEq] at h
      rw [← h] at hid
      exact Or.inl hid

/-- In a well-formed state every id of a reconstructed queue is the id of a
submitted job. -/
theorem reconstruct_valid (s : State) (T : Nat) (result : List Nat) (hwf : WellFormed s)
    (h : reconstruct s T = some result) : ∀ id ∈ result, ValidId s id := by
  obtain ⟨_, _, _, hsnap, hlog, _, _, _⟩ := hwf
  simp only [reconstruct] at h
  cases hb1 : binary_search s.job_queue_history T with
  | none => rw [hb1] at h; cases h
  | some i =>
    rw [hb1] at h
    simp only at h
    cases hget : s.job_queue_history[i]? with
    | none => rw [hget] at h; cases h
    | some snap =>
      rw [hget] at h
      simp only at h
      cases hb2 : binary_search s.job_timestamp snap.1 with
      | none => rw [hb2] at h; cases h
      | some k =>
        rw [hb2] at h
        simp only at h
        intro id hid
        rcases replay_loop_subset s.jobs T _ _ _ h id hid with h1 | ⟨e, he, hjob, hid1⟩
        · exact hsnap snap (List.getElem?_mem hget) id h1
        · rw [← hid1]
          exact hlog e (List.mem_of_mem_drop he) hjob

/-- In a well-formed state a query that returns leaves the whole state as it
was. -/
theorem do_query_unchanged (s : State) (T : Nat) (arg : String) (s1 : State)
    (out : List Record) (hwf : WellFormed s) (h : do_query s T arg = some (s1, out)) :
    s1 = s := by
  cases hrec : reconstruct s T with
  | none => simp only [do_query, hrec] at h; cases h
  | some result =>
    have hvalid := reconstruct_valid s T result hwf hrec
    have hcodes : ∀ id ∈ result, CodesPresent s id :=
      fun id hid => hwf.2.2.2.2.2.1 id (hvalid id hid)
    rw [do_query_of_reconstruct s T arg result hrec] at h
    cases hnum : isnum arg with
    | true =>
      rw [hnum] at h
      cases hk : stoi arg with
      | none => rw [hk] at h; cases h
      | some k =>
        rw [hk] at h
        simp only [if_true, Option.some.injEq] at h
        have := query_topk_loop_unchanged k s result hcodes
        rw [h] at this
        exact this
    | false =>
      rw [hnum] at h
      simp only [Bool.false_eq_true, if_false, Option.some.injEq] at h
      have := query_orig_loop_unchanged arg result.length s result hcodes
      rw [h] at this
      exact this

/-! ## Interning in the `job` command -/

theorem assocFind_assocSet_self {κ ν : Type} [DecidableEq κ] (k : κ) (v : ν) :
    ∀ m : List (κ × ν), assocFind k (assocSet k v m) = some v := by
  intro m
  induction m with
  | nil => simp [assocSet, assocFind]
  | cons p rest ih =>
    obtain ⟨k1, v1⟩ := p
    by_cases h : k1 = k
    · simp [assocSet, assocFind, h]
    · simp [assocSet, assocFind, h, ih]

theorem assocFind_assocSet_ne {κ ν : Type} [DecidableEq κ] (k k2 : κ) (v : ν) (hne : k2 ≠ k) :
    ∀ m : List (κ × ν), assocFind k2 (assocSet k v m) = assocFind k2 m := by
  intro m
  induction m with
  | nil =>
    have : ¬ k = k2 := fun h => hne h.symm
    simp [assocSet, assocFind, this]
  | cons p rest ih =>
    obtain ⟨k1, v1⟩ := p
    by_cases h : k1 = k
    · subst h
      have : ¬ k1 = k2 := fun h => hne h.symm
      simp [assocSet, assocFind, this]
    · by_cases h2 : k1 = k2
      · subst h2
        simp [assocSet, assocFind, h]
      · simp [assocSet, assocFind, h, h2, ih]

theorem assocFind_assocSet_isSome {κ ν : Type} [DecidableEq κ] (k k2 : κ) (v : ν)
    (m : List (κ × ν)) (h : (assocFind k2 m).isSome = true) :
    (assocFind k2 (assocSet k v m)).isSome = true := by
  by_cases hk : k2 = k
  · subst hk
    rw [assocFind_assocSet_self]
    rfl
  · rw [assocFind_assocSet_ne k k2 v hk]
    exact h

theorem indexF_of_find (b : bimap) (x : String) (c : Int) (h : assocFind x b.map_f = some c) :
    b.indexF x = (c, b) := by
  simp only [bimap.indexF, assocIndex_of_find 0 x b.map_f c h]

/-- The interning step of the `job` command (look the string up, or add it
with the next code): it keeps the interner consistent, keeps every code it
held, and the code it returns is held afterwards. -/
theorem intern_step (b : bimap) (x : String) (c : Int) (hok : InternerOK b) :
    InternerOK (if b.existsF x = true then (b.indexF x).2 else b.add x c) ∧
      (if b.existsF x = true then (b.indexF x).2 else b.add x c).existsB
        (if b.existsF x = true then (b.indexF x).1 else c) = true ∧
      ∀ y, b.existsB y = true →
        (if b.existsF x = true then (b.indexF x).2 else b.add x c).existsB y = true := by
  by_cases hex : b.existsF x = true
  · simp only [hex, if_true]
    have hex2 := hex
    simp only [bimap.existsF, Option.isSome_iff_exists] at hex2
    obtain ⟨v, hv⟩ := hex2
    rw [indexF_of_find b x v hv]
    exact ⟨hok, hok x v hv, fun y hy => hy⟩
  · simp only [hex, Bool.false_eq_true, if_false]
    have hexf : b.existsF x = false := by simpa using hex
    by_cases hb : b.existsB c = true
    · have hadd : b.add x c = b := by
        simp only [bimap.add, hexf, hb, Bool.not_false, Bool.not_true, Bool.and_false,
          Bool.false_eq_true, if_false]
      rw [hadd]
      exact ⟨hok, hb, fun y hy => hy⟩
    · have hbf : b.existsB c = false := by simpa using hb
      have hadd : b.add x c =
          { map_f := assocSet x c b.map_f, map_b := assocSet c x b.map_b } := by
        simp only [bimap.add, hexf, hbf, Bool.not_false, Bool.and_self, if_true]
      rw [hadd]
      refine ⟨?_, ?_, ?_⟩
      · intro y d hy
        simp only [bimap.existsB]
        by_cases hyx : y = x
        · subst hyx
          rw [assocFind_assocSet_self] at hy
          simp only [Option.some.injEq] at hy
          rw [← hy, assocFind_assocSet_self]
          rfl
        · rw [assocFind_assocSet_ne x y c hyx] at hy
          exact assocFind_assocSet_isSome c d x b.map_b (hok y d hy)
      · simp only [bimap.existsB, assocFind_assocSet_self]
        rfl
      · intro y hy
        exact assocFind_assocSet_isSome c y x b.map_b hy

/-- What the `job` command does to the interners and which codes the new job
gets. -/
theorem do_job_intern (s : State) (t p : Nat) (o i : String) (imp : Int) (d : Nat) :
    (∃ j : job, (do_job s t p o i imp d).jobs = s.jobs ++ [j] ∧
        j.orig = (if s.orig_set.existsF o = true then (s.orig_set.indexF o).1
          else s.orig_counter) ∧
        j.instructions = (if s.instruction_set.existsF i = true then
          (s.instruction_set.indexF i).1 else s.inst_counter)) ∧
      (do_job s t p o i imp d).orig_set =
        (if s.orig_set.existsF o = true then (s.orig_set.indexF o).2
          else s.orig_set.add o s.orig_counter) ∧
      (do_job s t p o i imp d).instruction_set =
        (if s.instruction_set.existsF i = true then (s.instruction_set.indexF i).2
          else s.instruction_set.add i s.inst_counter) ∧
      (do_job s t p o i imp d).orig_counter =
        (if s.orig_set.existsF o = true then s.orig_counter else s.orig_counter + 1) ∧
      (do_job s t p o i imp d).inst_counter =
        (if s.instruction_set.existsF i = true then s.inst_counter else s.inst_counter + 1) := by
  by_cases h1 : s.instruction_set.existsF i = true <;>
    by_cases h2 : s.orig_set.existsF o = true <;>
    simp only [do_job, h1, h2, if_true, if_false, Bool.false_eq_true] <;>
    refine ⟨⟨_, rfl, ?_, ?_⟩, ?_, ?_, ?_, ?_⟩ <;> first | rfl | trivial

theorem step_jobs_le (s : State) (c : Command) (s1 : State) (o : List Record)
    (h : step s c = some (s1, o)) : s.jobs.length ≤ s1.jobs.length := by
  cases c with
  | job t p og i imp d =>
    simp only [step, Option.some.injEq, Prod.mk.injEq] at h
    obtain ⟨⟨j, hj, _⟩, _⟩ := do_job_effect s t p og i imp d
    rw [← h.1, hj, List.length_append]
    omega
  | assign ts k =>
    obtain ⟨_, hv, _⟩ := do_assign_effect s ts k s1 o h
    rw [hv.1]
  | query ts a =>
    obtain ⟨hv, _⟩ := do_query_frame s ts a s1 o h
    rw [hv.1]

/-! ## Well-formed states -/

theorem wf_init (n : Nat) : WellFormed (init n) := by
  refine ⟨rfl, by simp [init], ?_, ?_, ?_, ?_, ?_, ?_⟩
  · intro id hid; simp [init] at hid
  · intro snap hsnap id hid
    simp only [init, List.mem_singleton] at hsnap
    rw [hsnap] at hid
    simp at hid
  · intro e he hjob
    simp only [init, List.mem_singleton] at he
    rw [he] at hjob
    simp [JOB_ID] at hjob
  · intro id hid
    simp only [ValidId, init, List.length_singleton] at hid
    omega
  · intro x c h; simp [init, assocFind] at h
  · intro x c h; simp [init, assocFind] at h

/-- An `assign` in a state whose queued jobs are printable leaves the job
store, the interners and the id counter as they are. -/
theorem do_assign_maps (s : State) (ts k : Nat) (s1 : State) (out : List Record)
    (hcodes : ∀ id ∈ s.job_queue, CodesPresent s id)
    (h : do_assign s ts k = some (s1, out)) :
    s1.jobs = s.jobs ∧ s1.orig_set = s.orig_set ∧ s1.instruction_set = s.instruction_set ∧
      s1.counter = s.counter := by
  let sa : State := { s with cpu_queue := purge ts s.cpu_queue }
  obtain ⟨s2, h2, hv, _, _, _, _, _, hk, _, _⟩ :=
    assign_loop_spec ts (num_processed s ts k) sa (num_processed_le s ts k)
  obtain ⟨hm1, hm2⟩ := assign_loop_maps ts _ sa s2 _ hcodes h2
  have hloop : assign_loop ts (num_processed s ts k) { s with cpu_queue := purge ts s.cpu_queue } =
      some (s2, (pop_list sa.jobs (num_processed s ts k) sa.job_queue).map (record_of sa)) := h2
  simp only [do_assign] at h
  rw [hloop] at h
  simp only at h
  cases hlast : s2.job_queue_history.getLast? with
  | none => rw [hlast] at h; cases h
  | some last =>
    rw [hlast] at h
    simp only at h
    by_cases hgap : usub64 ts last.1 ≥ TIME_INTERVAL
    · rw [if_pos hgap] at h
      simp only [Option.some.injEq, Prod.mk.injEq] at h
      rw [← h.1]
      exact ⟨hv.1, hm1, hm2, hk⟩
    · rw [if_neg hgap] at h
      simp only [Option.some.injEq, Prod.mk.injEq] at h
      rw [← h.1]
      exact ⟨hv.1, hm1, hm2, hk⟩

theorem validId_mono (s s1 : State) (h : s.jobs.length ≤ s1.jobs.length) (id : Nat)
    (hid : ValidId s id) : ValidId s1 id :=
  ⟨hid.1, Nat.lt_of_lt_of_le hid.2 h⟩

/-- One command carries well-formedness, as long as the job store stays below
`2^64` entries (so that the id counter has not wrapped around). -/
theorem wf_step (s : State) (c : Command) (s1 : State) (o : List Record)
    (hwf : WellFormed s) (hstep : step s c = some (s1, o)) (hsize : s1.jobs.length < U64) :
    WellFormed s1 := by
  obtain ⟨hcnt, hpos, hq, hsnap, hlog, hcodes, hok1, hok2⟩ := hwf
  cases c with
  | job t p og i imp d =>
    simp only [step, Option.some.injEq, Prod.mk.injEq] at hstep
    obtain ⟨hs1, _⟩ := hstep
    obtain ⟨⟨j, hj, hjo, hji⟩, hos, his, _, _⟩ := do_job_intern s t p og i imp d
    obtain ⟨_, hl, hqq, hc⟩ := do_job_effect s t p og i imp d
    obtain ⟨_, _, hh⟩ := do_job_frame s t p og i imp d
    obtain ⟨io1, io2, io3⟩ := intern_step s.orig_set og s.orig_counter hok1
    obtain ⟨ii1, ii2, ii3⟩ := intern_step s.instruction_set i s.inst_counter hok2
    rw [hs1] at hj hos his hl hqq hc hh
    have hlen : s1.jobs.length = s.jobs.length + 1 := by
      rw [hj, List.length_append, List.length_singleton]
    have hmono : ∀ id, ValidId s id → ValidId s1 id :=
      validId_mono s s1 (by omega)
    have hnew : ValidId s1 s.counter := by
      simp only [ValidId]
      omega
    have hc1 : s1.counter = s1.jobs.length := by
      rw [hc, hlen, hcnt]
      simp only [uadd64]
      exact Nat.mod_eq_of_lt (by omega)
    refine ⟨hc1, by omega, ?_, ?_, ?_, ?_, ?_, ?_⟩
    · intro id hid
      rw [hqq] at hid
      rcases List.mem_append.1 hid with h1 | h1
      · exact hmono id (hq id h1)
      · rw [List.mem_singleton.1 h1]
        exact hnew
    · intro snap hs id hid
      rw [hh] at hs
      exact hmono id (hsnap snap hs id hid)
    · intro e he hjob
      rw [hl] at he
      rcases List.mem_append.1 he with h1 | h1
      · exact hmono _ (hlog e h1 hjob)
      · rw [List.mem_singleton.1 h1]
        exact hnew
    · intro id hid
      simp only [CodesPresent]
      rw [hos, his, hj]
      by_cases hlt : id < s.jobs.length
      · rw [List.getD_append _ _ _ _ hlt]
        obtain ⟨h1, h2⟩ := hcodes id ⟨hid.1, hlt⟩
        exact ⟨io3 _ h1, ii3 _ h2⟩
      · have hge : s.jobs.length ≤ id := by omega
        have hidx : id - s.jobs.length = 0 := by
          have := hid.2
          omega
        rw [List.getD_append_right _ _ _ _ hge, hidx]
        simp only [List.getD_cons_zero]
        rw [hjo, hji]
        exact ⟨io2, ii2⟩
    · rw [hos]; exact io1
    · rw [his]; exact ii1
  | assign ts k =>
    have hstep1 : do_assign s ts k = some (s1, o) := hstep
    obtain ⟨hj, hos, his, hc⟩ :=
      do_assign_maps s ts k s1 o (fun id hid => hcodes id (hq id hid)) hstep1
    obtain ⟨_, _, hqq, _, _, hcase⟩ := do_assign_effect s ts k s1 o hstep1
    have hval : ∀ id, ValidId s id → ValidId s1 id := by
      intro id hid
      simp only [ValidId, hj]
      exact hid
    have hq1 : ∀ id ∈ s1.job_queue, ValidId s1 id := by
      intro id hid
      rw [hqq] at hid
      exact hval id (hq id (pop_rest_subset _ _ _ id hid))
    refine ⟨by rw [hc, hj]; exact hcnt, by rw [hj]; exact hpos, hq1, ?_, ?_, ?_,
      by rw [hos]; exact hok1, by rw [his]; exact hok2⟩
    · intro snap hs id hid
      rcases hcase with ⟨h1, _⟩ | ⟨h1, _⟩
      · rw [h1] at hs
        rcases List.mem_append.1 hs with h2 | h2
        · exact hval id (hsnap snap h2 id hid)
        · rw [List.mem_singleton.1 h2] at hid
          exact hq1 id hid
      · rw [h1] at hs
        exact hval id (hsnap snap hs id hid)
    · intro e he hjob
      rcases hcase with ⟨_, h1⟩ | ⟨_, h1⟩
      · rw [h1] at he
        exact hval _ (hlog e he hjob)
      · rw [h1] at he
        rcases List.mem_append.1 he with h2 | h2
        · exact hval _ (hlog e h2 hjob)
        · rw [List.mem_singleton.1 h2] at hjob
          simp [ASSIGN_ID, JOB_ID] at hjob
    · intro id hid
      have hid0 : ValidId s id := by
        simp only [ValidId, hj] at hid
        exact hid
      simp only [CodesPresent, hj, hos, his]
      exact hcodes id hid0
  | query ts a =>
    have := do_query_unchanged s ts a s1 o ⟨hcnt, hpos, hq, hsnap, hlog, hcodes, hok1, hok2⟩ hstep
    rw [this]
    exact ⟨hcnt, hpos, hq, hsnap, hlog, hcodes, hok1, hok2⟩

/-- Every reachable state whose job store is below `2^64` entries is
well-formed. -/
theorem wf_of_reachable (n : Nat) (s : State) (hs : Reachable n s) :
    s.jobs.length < U64 → WellFormed s := by
  induction hs with
  | start _ => intro _; exact wf_init n
  | next _ hstep ih =>
    intro hsize
    exact wf_step _ _ _ _ (ih (Nat.lt_of_le_of_lt (step_jobs_le _ _ _ _ hstep) hsize)) hstep hsize

/-! ## Read-only queries and queue membership -/

/-- C18 — Query is read-only.  In every state the program can reach (job
store below `2^64` entries), a query that returns leaves the whole state as
it was: the job store, both interners, the live waiting queue, the CPU queue,
the log and the snapshot vector are the same after the query as before. -/
theorem query_read_only (n : Nat) (s : State) (hs : Reachable n s)
    (hsize : s.jobs.length < U64) (T : Nat) (arg : String) (s1 : State) (out : List Record)
    (h : do_query s T arg = some (s1, out)) :
    s1 = s ∧ s1.jobs = s.jobs ∧ s1.orig_set = s.orig_set ∧
      s1.instruction_set = s.instruction_set ∧ s1.job_queue = s.job_queue ∧
      s1.cpu_queue = s.cpu_queue ∧ s1.job_timestamp = s.job_timestamp ∧
      s1.job_queue_history = s.job_queue_history := by
  have heq := do_query_unchanged s T arg s1 out (wf_of_reachable n s hs hsize) h
  rw [heq]
  exact ⟨rfl, rfl, rfl, rfl, rfl, rfl, rfl, rfl⟩

/-- C18, at a concrete input: `query 2 1` after the two jobs arriving at times
1 and 2 prints the `org1` job and returns the state it started from. -/
theorem query_read_only_witness :
    Reachable 2 late_jobs_state ∧ late_jobs_state.jobs.length < U64 ∧
      do_query late_jobs_state 2 "1" =
        some (late_jobs_state, [record_of late_jobs_state 1]) ∧
      (late_jobs_state = late_jobs_state ∧ late_jobs_state.jobs = late_jobs_state.jobs ∧
        late_jobs_state.orig_set = late_jobs_state.orig_set ∧
        late_jobs_state.instruction_set = late_jobs_state.instruction_set ∧
        late_jobs_state.job_queue = late_jobs_state.job_queue ∧
        late_jobs_state.cpu_queue = late_jobs_state.cpu_queue ∧
        late_jobs_state.job_timestamp = late_jobs_state.job_timestamp ∧
        late_jobs_state.job_queue_history = late_jobs_state.job_queue_history) :=
  have hr : Reachable 2 late_jobs_state :=
    @Reachable.next 2 _ _ (Command.job 2 2 "org2" "instrB" 3 10) []
      (@Reachable.next 2 _ _ (Command.job 1 1 "org1" "instrA" 5 10) []
        (Reachable.start (by decide)) rfl) rfl
  ⟨hr, by decide, by decide,
    query_read_only 2 late_jobs_state hr (by decide) 2 "1" late_jobs_state
      [record_of late_jobs_state 1] (by decide)⟩

theorem run_cons_some (s : State) (c : Command) (cs : List Command) (s2 : State)
    (outs : List (List Record)) (h : run s (c :: cs) = some (s2, outs)) :
    ∃ s1 o outs1, step s c = some (s1, o) ∧ run s1 cs = some (s2, outs1) := by
  simp only [run] at h
  cases hc : step s c with
  | none => rw [hc] at h; cases h
  | some r =>
    obtain ⟨s1, o⟩ := r
    rw [hc] at h
    simp only at h
    cases hr : run s1 cs with
    | none => rw [hr] at h; cases h
    | some r2 =>
      obtain ⟨s3, outs1⟩ := r2
      rw [hr] at h
      simp only [Option.some.injEq, Prod.mk.injEq] at h
      exact ⟨s1, o, outs1, rfl, by rw [← h.1]; exact hr⟩

theorem run_jobs_le :
    ∀ (cmds : List Command) (s s1 : State) (outs : List (List Record)),
      run s cmds = some (s1, outs) → s.jobs.length ≤ s1.jobs.length := by
  intro cmds
  induction cmds with
  | nil =>
    intro s s1 outs h
    simp only [run, Option.some.injEq, Prod.mk.injEq] at h
    rw [h.1]
  | cons c cs ih =>
    intro s s1 outs h
    obtain ⟨s2, o, outs1, hstep, hrun⟩ := run_cons_some s c cs s1 outs h
    exact le_trans (step_jobs_le s c s2 o hstep) (ih s2 s1 outs1 hrun)

/-- The membership invariant along a run started in any well-formed state:
the ids popped so far together with the queued ids are the ids `1 .. N` of the
submitted jobs. -/
theorem membership_run :
    ∀ (cmds : List Command) (s0 : State) (P0 : List Nat) (s : State)
      (outs : List (List Record)),
      WellFormed s0 → (P0 ++ s0.job_queue).Perm (List.range' 1 (s0.jobs.length - 1)) →
      run s0 cmds = some (s, outs) → s.jobs.length < U64 →
      (P0 ++ popped_ids s0 cmds ++ s.job_queue).Perm (List.range' 1 (s.jobs.length - 1)) ∧
        s.jobs.length = s0.jobs.length + (cmds.filter Command.is_job).length := by
  intro cmds
  induction cmds with
  | nil =>
    intro s0 P0 s outs _ hperm hrun _
    simp only [run, Option.some.injEq, Prod.mk.injEq] at hrun
    rw [← hrun.1]
    simp only [popped_ids, List.append_nil, List.filter_nil, List.length_nil, Nat.add_zero]
    exact ⟨hperm, trivial⟩
  | cons c cs ih =>
    intro s0 P0 s outs hwf hperm hrun hsize
    obtain ⟨s1, o, outs1, hstep, hrun1⟩ := run_cons_some s0 c cs s outs hrun
    have hle := run_jobs_le cs s1 s outs1 hrun1
    have hwf1 : WellFormed s1 := wf_step s0 c s1 o hwf hstep (by omega)
    have hpop : popped_ids s0 (c :: cs) = popped_by s0 c ++ popped_ids s1 cs := by
      simp only [popped_ids, hstep]
    have hkey : (P0 ++ popped_by s0 c ++ s1.job_queue).Perm (List.range' 1 (s1.jobs.length - 1)) ∧
        s1.jobs.length = s0.jobs.length + (if c.is_job = true then 1 else 0) := by
      have hcnt := hwf.1
      have hpos := hwf.2.1
      cases c with
      | job t p og i imp d =>
        simp only [step, Option.some.injEq, Prod.mk.injEq] at hstep
        obtain ⟨⟨j, hj, _⟩, _, hq, _⟩ := do_job_effect s0 t p og i imp d
        rw [hstep.1] at hj hq
        have hlen : s1.jobs.length = s0.jobs.length + 1 := by
          rw [hj, List.length_append, List.length_singleton]
        refine ⟨?_, by simp only [Command.is_job, if_true]; exact hlen⟩
        have hr : List.range' 1 (s1.jobs.length - 1) =
            List.range' 1 (s0.jobs.length - 1) ++ [s0.counter] := by
          have h1 : s1.jobs.length - 1 = (s0.jobs.length - 1) + 1 := by omega
          rw [h1, List.range'_concat, hcnt]
          congr 2
          omega
        rw [hr, hq]
        simp only [popped_by, List.append_nil]
        rw [← List.append_assoc]
        exact hperm.append_right _
      | assign ts k =>
        have hstep1 : do_assign s0 ts k = some (s1, o) := hstep
        obtain ⟨_, hv, hq, _⟩ := do_assign_effect s0 ts k s1 o hstep1
        refine ⟨?_, by simp only [Command.is_job, Bool.false_eq_true, if_false, Nat.add_zero,
          hv.1]⟩
        rw [hv.1, hq]
        simp only [popped_by, assigned_ids, List.append_assoc]
        exact ((pop_list_perm s0.jobs _ _).append_left P0).trans hperm
      | query ts a =>
        have := do_query_unchanged s0 ts a s1 o hwf hstep
        rw [this]
        simp only [popped_by, List.append_nil, Command.is_job, Bool.false_eq_true, if_false,
          Nat.add_zero]
        exact ⟨hperm, trivial⟩
    obtain ⟨h1, h2⟩ := ih s1 (P0 ++ popped_by s0 c) s outs1 hwf1 hkey.1 hrun1 hsize
    refine ⟨?_, ?_⟩
    · rw [hpop, ← List.append_assoc]
      exact h1
    · rw [h2, hkey.2, List.filter_cons]
      by_cases hj : c.is_job = true
      · simp only [hj, if_true, List.length_cons]
        omega
      · simp only [hj, if_false, Bool.false_eq_true]
        omega

/-- C13 — Waiting-queue membership invariant.  After any sequence of `job`,
`assign` and `query` commands (fewer than `2^64` jobs), the ids popped by the
`assign` commands so far together with the ids in the waiting queue are
exactly the ids `1 .. N` of the `N` jobs submitted; so the waiting queue
holds exactly the submitted ids that no `assign` has popped, each once, and
no id is popped (and so no job is printed) by two `assign` commands or twice
by one. -/
theorem waiting_queue_membership (n : Nat) (cmds : List Command) (s : State)
    (outs : List (List Record)) (hrun : run (init n) cmds = some (s, outs))
    (hsize : s.jobs.length < U64) :
    (popped_ids (init n) cmds ++ s.job_queue).Perm
        (List.range' 1 (cmds.filter Command.is_job).length) ∧
      s.job_queue.Nodup ∧ (popped_ids (init n) cmds).Nodup ∧
      (∀ id ∈ s.job_queue, id ∉ popped_ids (init n) cmds) ∧
      (∀ id, id ∈ s.job_queue ↔
        (1 ≤ id ∧ id ≤ (cmds.filter Command.is_job).length ∧
          id ∉ popped_ids (init n) cmds)) := by
  obtain ⟨hperm, hlen⟩ := membership_run cmds (init n) [] s outs (wf_init n)
    (by simp [init]) hrun hsize
  have hN : s.jobs.length - 1 = (cmds.filter Command.is_job).length := by
    rw [hlen]
    simp [init]
  rw [hN, List.nil_append] at hperm
  have hnd : (popped_ids (init n) cmds ++ s.job_queue).Nodup :=
    hperm.symm.nodup (List.nodup_range' 1 _)
  obtain ⟨hnd1, hnd2, hdisj⟩ := List.nodup_append.1 hnd
  refine ⟨hperm, hnd2, hnd1, fun id hid hp => hdisj hp hid, ?_⟩
  intro id
  constructor
  · intro hid
    have hmem : id ∈ List.range' 1 (cmds.filter Command.is_job).length :=
      hperm.subset (List.mem_append_right _ hid)
    rw [List.mem_range'_1] at hmem
    exact ⟨hmem.1, by omega, fun hp => hdisj hp hid⟩
  · rintro ⟨h1, h2, h3⟩
    have hmem : id ∈ List.range' 1 (cmds.filter Command.is_job).length := by
      rw [List.mem_range'_1]
      omega
    rcases List.mem_append.1 (hperm.symm.subset hmem) with h | h
    · exact absurd h h3
    · exact h

/-- C13, at a concrete input: the documented scenario
`job 0 ..; job 1 ..; assign 2 5`, after which both jobs have been popped. -/
theorem waiting_queue_membership_witness :
    run (init 2) scenario_commands = some (scenario_final_state, [[], [], scenario_records]) ∧
      scenario_final_state.jobs.length < U64 ∧
      ((popped_ids (init 2) scenario_commands ++ scenario_final_state.job_queue).Perm
          (List.range' 1 (scenario_commands.filter Command.is_job).length) ∧
        scenario_final_state.job_queue.Nodup ∧
        (popped_ids (init 2) scenario_commands).Nodup ∧
        (∀ id ∈ scenario_final_state.job_queue, id ∉ popped_ids (init 2) scenario_commands) ∧
        (∀ id, id ∈ scenario_final_state.job_queue ↔
          (1 ≤ id ∧ id ≤ (scenario_commands.filter Command.is_job).length ∧
            id ∉ popped_ids (init 2) scenario_commands))) :=
  ⟨by decide, by decide,
    waiting_queue_membership 2 scenario_commands scenario_final_state
      [[], [], scenario_records] (by decide) (by decide)⟩

/-! ## Interning along a run of `job` commands -/

theorem first_seen_snoc (l : List String) (x : String) :
    first_seen (l ++ [x]) =
      if x ∈ first_seen l then first_seen l else first_seen l ++ [x] := by
  simp only [first_seen, List.foldl_append, List.foldl_cons, List.foldl_nil]

theorem mem_first_seen : ∀ (l : List String) (x : String), x ∈ first_seen l ↔ x ∈ l := by
  intro l
  induction l using List.reverseRecOn with
  | nil => intro x; simp [first_seen]
  | append_singleton l y ih =>
    intro x
    rw [first_seen_snoc]
    by_cases hy : y ∈ first_seen l
    · rw [if_pos hy, List.mem_append, List.mem_singleton, ih]
      constructor
      · intro h; exact Or.inl h
      · rintro (h | h)
        · exact h
        · rw [h]; exact (ih y).1 hy
    · rw [if_neg hy, List.mem_append, List.mem_append, List.mem_singleton, ih]

theorem interner_of_snoc (l : List String) (x : String) :
    interner_of (l ++ [x]) =
      { map_f := (interner_of l).map_f ++ [(x, (l.length : Int))]
        map_b := (interner_of l).map_b ++ [((l.length : Int), x)] } := by
  simp only [interner_of, List.enum_append, List.enumFrom_singleton, List.map_append,
    List.map_cons, List.map_nil]

theorem interner_find_f (x : String) :
    ∀ l : List String, assocFind x (interner_of l).map_f =
      if x ∈ l then some ((l.indexOf x : Nat) : Int) else none := by
  intro l
  induction l using List.reverseRecOn with
  | nil => simp [interner_of, assocFind]
  | append_singleton l y ih =>
    rw [interner_of_snoc]
    simp only [assocFind_append, ih]
    by_cases hx : x ∈ l
    · simp only [hx, if_true, List.mem_append, true_or, List.indexOf_append_of_mem hx]
    · simp only [hx, if_false, List.mem_append, false_or, List.mem_singleton,
        List.indexOf_append_of_not_mem hx]
      by_cases hxy : y = x
      · subst hxy
        simp [assocFind]
      · have : ¬ x = y := fun h => hxy h.symm
        simp [assocFind, hxy, this]

theorem interner_find_b (c : Int) :
    ∀ (l : List String) (v : String), assocFind c (interner_of l).map_b = some v →
      c < (l.length : Int) := by
  intro l
  induction l using List.reverseRecOn with
  | nil => intro v h; simp [interner_of, assocFind] at h
  | append_singleton l y ih =>
    intro v h
    rw [interner_of_snoc] at h
    simp only [assocFind_append] at h
    rw [List.length_append, List.length_singleton]
    cases hf : assocFind c (interner_of l).map_b with
    | some w =>
      have := ih w hf
      omega
    | none =>
      rw [hf] at h
      simp only [assocFind] at h
      by_cases hc : (l.length : Int) = c
      · omega
      · simp [hc] at h

theorem assocSet_of_none {κ ν : Type} [DecidableEq κ] (k : κ) (v : ν) :
    ∀ m : List (κ × ν), assocFind k m = none → assocSet k v m = m ++ [(k, v)] := by
  intro m
  induction m with
  | nil => intro _; rfl
  | cons p rest ih =>
    obtain ⟨k1, v1⟩ := p
    intro h
    by_cases hk : k1 = k
    · simp [assocFind, hk] at h
    · simp only [assocFind, hk, if_false] at h
      simp only [assocSet, hk, if_false, List.cons_append, ih h]

/-- One interning step on the interner of the strings seen so far: the
interner becomes that of the extended list, the code handed out is the
first-seen code of the string, the counter stays the number of distinct
strings, and earlier strings keep their codes. -/
theorem intern_code_step (strs : List String) (x : String) :
    (if (interner_of (first_seen strs)).existsF x = true then
        ((interner_of (first_seen strs)).indexF x).2
      else (interner_of (first_seen strs)).add x ((first_seen strs).length : Int)) =
        interner_of (first_seen (strs ++ [x])) ∧
      (if (interner_of (first_seen strs)).existsF x = true then
        ((interner_of (first_seen strs)).indexF x).1
      else ((first_seen strs).length : Int)) = first_seen_code (strs ++ [x]) x ∧
      (if (interner_of (first_seen strs)).existsF x = true then ((first_seen strs).length : Int)
      else ((first_seen strs).length : Int) + 1) = ((first_seen (strs ++ [x])).length : Int) ∧
      ∀ y ∈ strs, first_seen_code (strs ++ [x]) y = first_seen_code strs y := by
  have hfind := interner_find_f x (first_seen strs)
  by_cases hx : x ∈ first_seen strs
  · rw [if_pos hx] at hfind
    have hex : (interner_of (first_seen strs)).existsF x = true := by
      simp only [bimap.existsF, hfind]
      rfl
    simp only [hex, if_true, first_seen_code, first_seen_snoc, if_pos hx,
      indexF_of_find _ x _ hfind]
    exact ⟨trivial, trivial, trivial, fun _ _ => trivial⟩
  · rw [if_neg hx] at hfind
    have hex : ¬ (interner_of (first_seen strs)).existsF x = true := by
      simp only [bimap.existsF, hfind]
      simp
    have hexf : (interner_of (first_seen strs)).existsF x = false := by simpa using hex
    have hb : assocFind ((first_seen strs).length : Int) (interner_of (first_seen strs)).map_b =
        none := by
      cases hf : assocFind ((first_seen strs).length : Int) (interner_of (first_seen strs)).map_b with
      | none => rfl
      | some v =>
        have := interner_find_b _ _ v hf
        omega
    have hbf : (interner_of (first_seen strs)).existsB ((first_seen strs).length : Int) = false := by
      simp only [bimap.existsB, hb]
      rfl
    have hadd : (interner_of (first_seen strs)).add x ((first_seen strs).length : Int) =
        interner_of (first_seen strs ++ [x]) := by
      simp only [bimap.add, hexf, hbf, Bool.not_false, Bool.and_self, if_true,
        assocSet_of_none _ _ _ hfind, assocSet_of_none _ _ _ hb, interner_of_snoc]
    simp only [hexf, Bool.false_eq_true, if_false, first_seen_code, first_seen_snoc, if_neg hx, hadd]
    refine ⟨trivial, ?_, ?_, ?_⟩
    · rw [List.indexOf_append_of_not_mem hx]
      simp
    · rw [List.length_append, List.length_singleton]
      simp
    · intro y hy
      have hmem : y ∈ first_seen strs := (mem_first_seen strs y).2 hy
      rw [List.indexOf_append_of_mem hmem]

theorem internRun_init (n : Nat) : InternRun [] (init n) :=
  ⟨[], rfl, rfl, rfl, rfl, rfl, rfl, rfl⟩

theorem internRun_step (cmds : List Command) (s : State) (t p : Nat) (o i : String)
    (imp : Int) (d : Nat) (h : InternRun cmds s) :
    InternRun (cmds ++ [Command.job t p o i imp d]) (do_job s t p o i imp d) := by
  obtain ⟨rest, hj, hco, hci, hos, hoc, his, hic⟩ := h
  obtain ⟨⟨j, hjj, hjo, hji⟩, hos1, his1, hoc1, hic1⟩ := do_job_intern s t p o i imp d
  rw [hos, hoc] at hjo hos1 hoc1
  rw [his, hic] at hji his1 hic1
  obtain ⟨a1, a2, a3, a4⟩ := intern_code_step (cmds.map Command.orig) o
  obtain ⟨b1, b2, b3, b4⟩ := intern_code_step (cmds.map Command.instruction) i
  have hmo : (cmds ++ [Command.job t p o i imp d]).map Command.orig =
      cmds.map Command.orig ++ [o] := by
    simp only [List.map_append, List.map_cons, List.map_nil, Command.orig]
  have hmi : (cmds ++ [Command.job t p o i imp d]).map Command.instruction =
      cmds.map Command.instruction ++ [i] := by
    simp only [List.map_append, List.map_cons, List.map_nil, Command.instruction]
  refine ⟨rest ++ [j], by rw [hjj, hj]; rfl, ?_, ?_, ?_, ?_, ?_, ?_⟩
  · rw [hmo, List.map_append, List.map_append, hco, List.map_cons, List.map_nil,
      List.map_cons, List.map_nil, hjo, a2]
    congr 1
    exact List.map_congr_left (fun y hy => (a4 y hy).symm)
  · rw [hmi, List.map_append, List.map_append, hci, List.map_cons, List.map_nil,
      List.map_cons, List.map_nil, hji, b2]
    congr 1
    exact List.map_congr_left (fun y hy => (b4 y hy).symm)
  · rw [hmo, hos1, a1]
  · rw [hmo, hoc1, a3]
  · rw [hmi, his1, b1]
  · rw [hmi, hic1, b3]

theorem internRun_of_run (n : Nat) :
    ∀ cmds s outs, run (init n) cmds = some (s, outs) → JobsOnly cmds → InternRun cmds s := by
  refine run_invariant (fun cmds s => JobsOnly cmds → InternRun cmds s) (init n)
    (fun _ => internRun_init n) ?_
  intro cmds s c s1 out _ ih o hstep hjobs
  have h1 : JobsOnly cmds := fun d hd => hjobs d (List.mem_append_left _ hd)
  have hc := hjobs c (List.mem_append_right _ (List.mem_singleton.2 rfl))
  cases c with
  | job t p og i imp d =>
    simp only [step, Option.some.injEq, Prod.mk.injEq] at hstep
    rw [← hstep.1]
    exact internRun_step cmds s t p og i imp d (ih h1)
  | assign ts k => simp [Command.is_job] at hc
  | query ts a => simp [Command.is_job] at hc

/-- Reading the code of the `i`-th job off the interning invariant. -/
theorem internRun_code (cmds : List Command) (s : State) (h : InternRun cmds s)
    (i : Nat) (c : Command) (hc : cmds[i]? = some c) :
    (s.jobs.getD (i + 1) default).orig = first_seen_code (cmds.map Command.orig) c.orig ∧
      (s.jobs.getD (i + 1) default).instructions =
        first_seen_code (cmds.map Command.instruction) c.instruction := by
  obtain ⟨rest, hj, hco, hci, _⟩ := h
  have hlen : rest.length = cmds.length := by
    have := congrArg List.length hco
    simpa using this
  have hi : i < cmds.length := (List.getElem?_eq_some.1 hc).1
  have hir : i < rest.length := by omega
  have hget : s.jobs.getD (i + 1) default = rest[i] := by
    rw [hj, List.getD_cons_succ, List.getD_eq_getElem _ _ hir]
  have h1 : (rest.map job.orig)[i]? = some rest[i].orig := by
    rw [List.getElem?_map, List.getElem?_eq_getElem hir]
    rfl
  have h2 : (rest.map job.instructions)[i]? = some rest[i].instructions := by
    rw [List.getElem?_map, List.getElem?_eq_getElem hir]
    rfl
  rw [hco, List.getElem?_map, List.getElem?_map, hc] at h1
  rw [hci, List.getElem?_map, List.getElem?_map, hc] at h2
  simp only [Option.map_some', Option.some.injEq] at h1 h2
  rw [hget]
  exact ⟨h1.symm, h2.symm⟩

/-- First-seen codes tell the strings of a list apart. -/
theorem first_seen_code_inj (l : List String) (x y : String) (hx : x ∈ l) (hy : y ∈ l) :
    first_seen_code l x = first_seen_code l y ↔ x = y := by
  simp only [first_seen_code]
  constructor
  · intro h
    have h1 : (first_seen l).indexOf x = (first_seen l).indexOf y := by exact_mod_cast h
    exact (List.indexOf_inj ((mem_first_seen l x).2 hx) ((mem_first_seen l y).2 hy)).1 h1
  · intro h
    rw [h]

/-- C12 — Interning idempotence and injectivity.  For every sequence of `job`
commands the run returns and stores one job per command; each job's origin
code is the position of its origin string among the distinct origin strings
in first-seen order (so a string seen before gets its existing code and a new
string gets the next unused code `0, 1, 2, ...`), likewise for instruction
codes; hence two jobs have the same origin code iff their origin strings are
equal, and the same instruction code iff their instruction strings are
equal. -/
theorem interning_codes (n : Nat) (cmds : List Command) (hjobs : JobsOnly cmds) :
    ∃ s outs, run (init n) cmds = some (s, outs) ∧ s.jobs.length = cmds.length + 1 ∧
      (∀ i c, cmds[i]? = some c →
        (s.jobs.getD (i + 1) default).orig =
            (((first_seen (cmds.map Command.orig)).indexOf c.orig : Nat) : Int) ∧
          (s.jobs.getD (i + 1) default).instructions =
            (((first_seen (cmds.map Command.instruction)).indexOf c.instruction : Nat) : Int)) ∧
      (∀ i j ci cj, cmds[i]? = some ci → cmds[j]? = some cj →
        ((s.jobs.getD (i + 1) default).orig = (s.jobs.getD (j + 1) default).orig ↔
            ci.orig = cj.orig) ∧
          ((s.jobs.getD (i + 1) default).instructions =
              (s.jobs.getD (j + 1) default).instructions ↔
            ci.instruction = cj.instruction)) := by
  have hupd : UpdatesOnly cmds := by
    intro c hc
    have := hjobs c hc
    cases c <;> simp_all [Command.is_job, Command.is_update]
  obtain ⟨s, outs, hrun⟩ := run_updates_returns cmds (init n) hupd (by simp [init])
  have hinv := internRun_of_run n cmds s outs hrun hjobs
  refine ⟨s, outs, hrun, ?_, ?_, ?_⟩
  · obtain ⟨rest, hj, hco, _⟩ := hinv
    have := congrArg List.length hco
    rw [hj]
    simp only [List.length_map] at this
    simp only [List.length_cons, this]
  · intro i c hc
    exact internRun_code cmds s hinv i c hc
  · intro i j ci cj hi hj
    obtain ⟨a1, a2⟩ := internRun_code cmds s hinv i ci hi
    obtain ⟨b1, b2⟩ := internRun_code cmds s hinv j cj hj
    rw [a1, a2, b1, b2]
    have hci : ci ∈ cmds := List.getElem?_mem hi
    have hcj : cj ∈ cmds := List.getElem?_mem hj
    exact ⟨first_seen_code_inj _ _ _ (List.mem_map_of_mem _ hci) (List.mem_map_of_mem _ hcj),
      first_seen_code_inj _ _ _ (List.mem_map_of_mem _ hci) (List.mem_map_of_mem _ hcj)⟩

/-- C12, at a concrete input: three `job` commands with origins `a, b, a` and
instructions `x, x, y`. -/
theorem interning_codes_witness :
    JobsOnly repeated_strings_commands ∧
      ∃ s outs, run (init 2) repeated_strings_commands = some (s, outs) ∧
        s.jobs.length = repeated_strings_commands.length + 1 ∧
        (∀ i c, repeated_strings_commands[i]? = some c →
          (s.jobs.getD (i + 1) default).orig =
              (((first_seen (repeated_strings_commands.map Command.orig)).indexOf c.orig : Nat) :
                Int) ∧
            (s.jobs.getD (i + 1) default).instructions =
              (((first_seen (repeated_strings_commands.map Command.instruction)).indexOf
                c.instruction : Nat) : Int)) ∧
        (∀ i j ci cj, repeated_strings_commands[i]? = some ci →
          repeated_strings_commands[j]? = some cj →
          ((s.jobs.getD (i + 1) default).orig = (s.jobs.getD (j + 1) default).orig ↔
              ci.orig = cj.orig) ∧
            ((s.jobs.getD (i + 1) default).instructions =
                (s.jobs.getD (j + 1) default).instructions ↔
              ci.instruction = cj.instruction)) :=
  ⟨by decide, interning_codes 2 repeated_strings_commands (by decide)⟩

/-! ## Reconstruction under strictly increasing timestamps -/

theorem reconstruct_eq_from (s : State) (T : Nat) :
    reconstruct s T = reconstruct_from s.jobs s.job_timestamp s.job_queue_history T := rfl

theorem pq_top_congr {α : Type} (lt lt1 : α → α → Bool) :
    ∀ q : List α, (∀ a ∈ q, ∀ b ∈ q, lt a b = lt1 a b) → pq_top lt q = pq_top lt1 q := by
  intro q
  induction q with
  | nil => intro _; rfl
  | cons x xs ih =>
    intro h
    have hxs : pq_top lt xs = pq_top lt1 xs :=
      ih (fun a ha b hb => h a (List.mem_cons_of_mem _ ha) b (List.mem_cons_of_mem _ hb))
    simp only [pq_top, ← hxs]
    cases htop : pq_top lt xs with
    | none => rfl
    | some y =>
      have hy : y ∈ xs := pq_top_mem lt xs y htop
      simp only [h x (List.mem_cons_self _ _) y (List.mem_cons_of_mem _ hy)]

/-- Appending jobs to the store does not change how stored jobs compare. -/
theorem job_comparator_append (jobs ext : List job) (a b : Nat) (ha : a < jobs.length)
    (hb : b < jobs.length) :
    job_comparator (jobs ++ ext) a b = job_comparator jobs a b := by
  simp only [job_comparator, List.getD_append _ _ _ _ ha, List.getD_append _ _ _ _ hb]

theorem job_top_append (jobs ext : List job) (q : List Nat) (hq : ∀ id ∈ q, id < jobs.length) :
    pq_top (job_comparator (jobs ++ ext)) q = pq_top (job_comparator jobs) q :=
  pq_top_congr _ _ q (fun a ha b hb => job_comparator_append jobs ext a b (hq a ha) (hq b hb))

theorem pop_n_append (jobs ext : List job) :
    ∀ (n : Nat) (q : List Nat), (∀ id ∈ q, id < jobs.length) →
      pop_n (jobs ++ ext) n q = pop_n jobs n q := by
  intro n
  induction n with
  | zero => intro q _; rfl
  | succ n ih =>
    intro q hq
    simp only [pop_n, pq_pop, job_top_append jobs ext q hq]
    cases htop : pq_top (job_comparator jobs) q with
    | none => rfl
    | some t =>
      simp only
      exact ih _ (fun id hid => hq id (List.mem_of_mem_erase hid))

/-- Replaying with a longer job store gives the same result, when every id
involved is an index of the shorter store. -/
theorem replay_loop_append_jobs (jobs ext : List job) (T : Nat) :
    ∀ (l : List (Nat × (Nat × Nat))) (result : List Nat),
      (∀ id ∈ result, id < jobs.length) →
      (∀ e ∈ l, e.2.2 = JOB_ID → e.2.1 < jobs.length) →
      replay_loop (jobs ++ ext) T l result = replay_loop jobs T l result := by
  intro l
  induction l with
  | nil => intro result _ _; rfl
  | cons e rest ih =>
    intro result hres hl
    have hrest : ∀ e1 ∈ rest, e1.2.2 = JOB_ID → e1.2.1 < jobs.length :=
      fun e1 he1 => hl e1 (List.mem_cons_of_mem _ he1)
    simp only [replay_loop]
    by_cases hle : e.1 ≤ T
    · rw [if_pos hle, if_pos hle]
      by_cases hjob : e.2.2 = JOB_ID
      · rw [if_pos hjob, if_pos hjob]
        apply ih _ _ hrest
        intro id hid
        rcases List.mem_append.1 hid with h | h
        · exact hres id h
        · rw [List.mem_singleton.1 h]
          exact hl e (List.mem_cons_self _ _) hjob
      · rw [if_neg hjob, if_neg hjob, pop_n_append jobs ext _ _ hres]
        cases hpop : pop_n jobs e.2.1 result with
        | none => rfl
        | some r =>
          simp only
          apply ih _ _ hrest
          obtain ⟨_, hr⟩ := pop_n_some jobs _ _ _ hpop
          intro id hid
          rw [hr] at hid
          exact hres id (pop_rest_subset jobs _ _ id hid)
    · rw [if_neg hle, if_neg hle]

/-- A trailing log entry above the query timestamp is not replayed. -/
theorem replay_loop_snoc_gt (jobs : List job) (T : Nat) (e : Nat × (Nat × Nat)) (he : T < e.1) :
    ∀ (l : List (Nat × (Nat × Nat))) (result : List Nat),
      replay_loop jobs T (l ++ [e]) result = replay_loop jobs T l result := by
  intro l
  induction l with
  | nil =>
    intro result
    simp only [List.nil_append, replay_loop]
    rw [if_neg (by omega)]
  | cons x rest ih =>
    intro result
    simp only [List.cons_append, replay_loop]
    by_cases hle : x.1 ≤ T
    · rw [if_pos hle, if_pos hle]
      by_cases hjob : x.2.2 = JOB_ID
      · rw [if_pos hjob, if_pos hjob]
        exact ih _
      · rw [if_neg hjob, if_neg hjob]
        cases pop_n jobs x.2.1 result with
        | none => rfl
        | some r => exact ih _
    · rw [if_neg hle, if_neg hle]

/-- Replaying a stretch of entries that are all at or below the query
timestamp, then the rest. -/
theorem replay_loop_append (jobs : List job) (T : Nat) (l2 : List (Nat × (Nat × Nat))) :
    ∀ (l : List (Nat × (Nat × Nat))) (result : List Nat), (∀ e ∈ l, e.1 ≤ T) →
      replay_loop jobs T (l ++ l2) result =
        match replay_loop jobs T l result with
        | none => none
        | some r => replay_loop jobs T l2 r := by
  intro l
  induction l with
  | nil => intro result _; rfl
  | cons x rest ih =>
    intro result hall
    have hx : x.1 ≤ T := hall x (List.mem_cons_self _ _)
    have hrest : ∀ e ∈ rest, e.1 ≤ T := fun e he => hall e (List.mem_cons_of_mem _ he)
    simp only [List.cons_append, replay_loop]
    rw [if_pos hx, if_pos hx]
    by_cases hjob : x.2.2 = JOB_ID
    · rw [if_pos hjob, if_pos hjob]
      exact ih _ hrest
    · rw [if_neg hjob, if_neg hjob]
      cases pop_n jobs x.2.1 result with
      | none => rfl
      | some r => exact ih _ hrest

/-- When every entry is at or below both timestamps, the replay does not
depend on which of the two bounds it uses. -/
theorem replay_loop_bound (jobs : List job) (T1 T2 : Nat) :
    ∀ (l : List (Nat × (Nat × Nat))) (result : List Nat), (∀ e ∈ l, e.1 ≤ T1) →
      (∀ e ∈ l, e.1 ≤ T2) → replay_loop jobs T1 l result = replay_loop jobs T2 l result := by
  intro l
  induction l with
  | nil => intro result _ _; rfl
  | cons x rest ih =>
    intro result h1 h2
    have hx1 : x.1 ≤ T1 := h1 x (List.mem_cons_self _ _)
    have hx2 : x.1 ≤ T2 := h2 x (List.mem_cons_self _ _)
    have hr1 : ∀ e ∈ rest, e.1 ≤ T1 := fun e he => h1 e (List.mem_cons_of_mem _ he)
    have hr2 : ∀ e ∈ rest, e.1 ≤ T2 := fun e he => h2 e (List.mem_cons_of_mem _ he)
    simp only [replay_loop]
    rw [if_pos hx1, if_pos hx2]
    by_cases hjob : x.2.2 = JOB_ID
    · rw [if_pos hjob, if_pos hjob]
      exact ih _ hr1 hr2
    · rw [if_neg hjob, if_neg hjob]
      cases pop_n jobs x.2.1 result with
      | none => rfl
      | some r => exact ih _ hr1 hr2

theorem getElem?_zero_snoc {α : Type} (v : List α) (e : α) (hne : v ≠ []) :
    (v ++ [e])[0]? = v[0]? := by
  cases v with
  | nil => exact absurd rfl hne
  | cons x xs => simp only [List.cons_append, List.getElem?_cons_zero]

/-- Appending an entry above `ts` does not change what `binary_search` finds
for `ts`. -/
theorem binary_search_snoc_gt {β : Type} (v : List (Nat × β)) (e : Nat × β) (ts : Nat)
    (hne : v ≠ []) (hp : (v ++ [e]).Pairwise (fun a b => a.1 ≤ b.1))
    (hfirst : ∀ a, v[0]? = some a → a.1 ≤ ts) (he : ts < e.1) :
    binary_search (v ++ [e]) ts = binary_search v ts := by
  have hpv : v.Pairwise (fun a b => a.1 ≤ b.1) := (List.pairwise_append.1 hp).1
  obtain ⟨r, hr, hr1, hr2, hr3⟩ := binary_search_spec v ts hne (monoTs_of_pairwise v hpv) hfirst
  rw [hr]
  apply binary_search_eq (v ++ [e]) ts r (monoTs_of_pairwise _ hp)
  · intro a ha
    rw [getElem?_zero_snoc v e hne] at ha
    exact hfirst a ha
  · refine ⟨by rw [List.length_append]; omega, ?_, ?_⟩
    · intro a ha
      rw [List.getElem?_append_left hr1] at ha
      exact hr2 a ha
    · intro j a ha hats
      by_cases hj : j < v.length
      · rw [List.getElem?_append_left hj] at ha
        exact hr3 j a ha hats
      · rw [List.getElem?_append_right (by omega)] at ha
        have hmem : a ∈ [e] := List.getElem?_mem ha
        rw [List.mem_singleton.1 hmem] at hats
        omega

/-- When every timestamp is at most `ts`, `binary_search` returns the last
index. -/
theorem binary_search_last {β : Type} (v : List (Nat × β)) (ts : Nat) (hne : v ≠ [])
    (hp : v.Pairwise (fun a b => a.1 ≤ b.1)) (hall : ∀ a ∈ v, a.1 ≤ ts) :
    binary_search v ts = some (v.length - 1) := by
  have hpos : 0 < v.length := List.length_pos.2 hne
  apply binary_search_eq v ts _ (monoTs_of_pairwise v hp)
  · intro a ha
    exact hall a (List.getElem?_mem ha)
  · refine ⟨by omega, fun a ha => hall a (List.getElem?_mem ha), ?_⟩
    intro j a ha _
    have := (List.getElem?_eq_some.1 ha).1
    omega

/-- Appending a log entry above the query timestamp does not change the
reconstruction. -/
theorem reconstruct_log_snoc_gt (jobs : List job) (log : List (Nat × (Nat × Nat)))
    (history : List (Nat × List Nat)) (e : Nat × (Nat × Nat)) (T : Nat)
    (hlne : log ≠ []) (hl0 : ∀ a, log[0]? = some a → a.1 = 0)
    (hlp : (log ++ [e]).Pairwise (fun a b => a.1 ≤ b.1))
    (hhne : history ≠ []) (hh0 : ∀ a, history[0]? = some a → a.1 = 0)
    (hhp : history.Pairwise (fun a b => a.1 ≤ b.1)) (he : T < e.1) :
    reconstruct_from jobs (log ++ [e]) history T = reconstruct_from jobs log history T := by
  obtain ⟨i, hi, hi1, hi2, _⟩ := binary_search_spec history T hhne
    (monoTs_of_pairwise _ hhp) (fun a ha => by rw [hh0 a ha]; exact Nat.zero_le _)
  have hget : history[i]? = some history[i] := List.getElem?_eq_getElem hi1
  have hsnap : history[i].1 ≤ T := hi2 _ hget
  have hb : binary_search (log ++ [e]) history[i].1 = binary_search log history[i].1 :=
    binary_search_snoc_gt log e _ hlne hlp
      (fun a ha => by rw [hl0 a ha]; exact Nat.zero_le _) (by omega)
  obtain ⟨k, hk, hk1, _⟩ := binary_search_spec log history[i].1 hlne
    (monoTs_of_pairwise _ (List.pairwise_append.1 hlp).1)
    (fun a ha => by rw [hl0 a ha]; exact Nat.zero_le _)
  simp only [reconstruct_from, hi, hget, hb, hk]
  rw [List.drop_append_of_le_length (by omega)]
  exact replay_loop_snoc_gt jobs T e he _ _

/-- Appending a snapshot above the query timestamp does not change the
reconstruction. -/
theorem reconstruct_history_snoc_gt (jobs : List job) (log : List (Nat × (Nat × Nat)))
    (history : List (Nat × List Nat)) (h : Nat × List Nat) (T : Nat)
    (hhne : history ≠ []) (hh0 : ∀ a, history[0]? = some a → a.1 = 0)
    (hhp : (history ++ [h]).Pairwise (fun a b => a.1 ≤ b.1)) (hgt : T < h.1) :
    reconstruct_from jobs log (history ++ [h]) T = reconstruct_from jobs log history T := by
  have hb : binary_search (history ++ [h]) T = binary_search history T :=
    binary_search_snoc_gt history h T hhne hhp
      (fun a ha => by rw [hh0 a ha]; exact Nat.zero_le _) hgt
  obtain ⟨i, hi, hi1, _⟩ := binary_search_spec history T hhne
    (monoTs_of_pairwise _ (List.pairwise_append.1 hhp).1)
    (fun a ha => by rw [hh0 a ha]; exact Nat.zero_le _)
  simp only [reconstruct_from, hb, hi, List.getElem?_append_left hi1]

/-- Appending jobs to the store does not change the reconstruction, when the
ids in the snapshots and the log are indices of the shorter store. -/
theorem reconstruct_jobs_append (jobs ext : List job) (log : List (Nat × (Nat × Nat)))
    (history : List (Nat × List Nat)) (T : Nat)
    (hsnap : ∀ snap ∈ history, ∀ id ∈ snap.2, id < jobs.length)
    (hlog : ∀ e ∈ log, e.2.2 = JOB_ID → e.2.1 < jobs.length) :
    reconstruct_from (jobs ++ ext) log history T = reconstruct_from jobs log history T := by
  simp only [reconstruct_from]
  cases binary_search history T with
  | none => rfl
  | some i =>
    simp only
    cases hget : history[i]? with
    | none => rfl
    | some snap =>
      simp only
      cases binary_search log snap.1 with
      | none => rfl
      | some k =>
        simp only
        exact replay_loop_append_jobs jobs ext T _ _ (hsnap snap (List.getElem?_mem hget))
          (fun e he => hlog e (List.mem_of_mem_drop he))

/-- When nothing in the log or the snapshot vector is above either of two
query timestamps, both give the same reconstruction. -/
theorem reconstruct_bound (jobs : List job) (log : List (Nat × (Nat × Nat)))
    (history : List (Nat × List Nat)) (T1 T2 : Nat)
    (hhne : history ≠ []) (hhp : history.Pairwise (fun a b => a.1 ≤ b.1))
    (hh1 : ∀ a ∈ history, a.1 ≤ T1) (hh2 : ∀ a ∈ history, a.1 ≤ T2)
    (hl1 : ∀ e ∈ log, e.1 ≤ T1) (hl2 : ∀ e ∈ log, e.1 ≤ T2) :
    reconstruct_from jobs log history T1 = reconstruct_from jobs log history T2 := by
  simp only [reconstruct_from, binary_search_last history T1 hhne hhp hh1,
    binary_search_last history T2 hhne hhp hh2]
  cases history[history.length - 1]? with
  | none => rfl
  | some snap =>
    simp only
    cases binary_search log snap.1 with
    | none => rfl
    | some k =>
      simp only
      exact replay_loop_bound jobs T1 T2 _ _ (fun e he => hl1 e (List.mem_of_mem_drop he))
        (fun e he => hl2 e (List.mem_of_mem_drop he))

/-- Appending a log entry at or below the query timestamp, above every
snapshot: the reconstruction replays it last. -/
theorem reconstruct_log_snoc_le (jobs : List job) (log : List (Nat × (Nat × Nat)))
    (history : List (Nat × List Nat)) (e : Nat × (Nat × Nat)) (T : Nat)
    (hlne : log ≠ []) (hl0 : ∀ a, log[0]? = some a → a.1 = 0)
    (hlp : (log ++ [e]).Pairwise (fun a b => a.1 ≤ b.1))
    (hhne : history ≠ []) (hh0 : ∀ a, history[0]? = some a → a.1 = 0)
    (hhp : history.Pairwise (fun a b => a.1 ≤ b.1))
    (hhe : ∀ a ∈ history, a.1 < e.1) (hlT : ∀ a ∈ log, a.1 ≤ T) :
    reconstruct_from jobs (log ++ [e]) history T =
      match reconstruct_from jobs log history T with
      | none => none
      | some r => replay_loop jobs T [e] r := by
  obtain ⟨i, hi, hi1, _⟩ := binary_search_spec history T hhne
    (monoTs_of_pairwise _ hhp) (fun a ha => by rw [hh0 a ha]; exact Nat.zero_le _)
  have hget : history[i]? = some history[i] := List.getElem?_eq_getElem hi1
  have hsnap : history[i].1 < e.1 := hhe _ (List.getElem?_mem hget)
  have hb : binary_search (log ++ [e]) history[i].1 = binary_search log history[i].1 :=
    binary_search_snoc_gt log e _ hlne hlp
      (fun a ha => by rw [hl0 a ha]; exact Nat.zero_le _) hsnap
  obtain ⟨k, hk, hk1, _⟩ := binary_search_spec log history[i].1 hlne
    (monoTs_of_pairwise _ (List.pairwise_append.1 hlp).1)
    (fun a ha => by rw [hl0 a ha]; exact Nat.zero_le _)
  simp only [reconstruct_from, hi, hget, hb, hk]
  rw [List.drop_append_of_le_length (by omega)]
  exact replay_loop_append jobs T [e] _ _ (fun a ha => hlT a (List.mem_of_mem_drop ha))

/-- Appending a snapshot at or below the query timestamp, above every log
entry: the reconstruction is that snapshot. -/
theorem reconstruct_history_snoc_le (jobs : List job) (log : List (Nat × (Nat × Nat)))
    (history : List (Nat × List Nat)) (h : Nat × List Nat) (T : Nat)
    (hlne : log ≠ []) (hlp : log.Pairwise (fun a b => a.1 ≤ b.1))
    (hhp : (history ++ [h]).Pairwise (fun a b => a.1 ≤ b.1))
    (hhT : ∀ a ∈ history, a.1 ≤ T) (hT : h.1 ≤ T) (hlh : ∀ a ∈ log, a.1 ≤ h.1) :
    reconstruct_from jobs log (history ++ [h]) T = some h.2 := by
  have hall : ∀ a ∈ history ++ [h], a.1 ≤ T := by
    intro a ha
    rcases List.mem_append.1 ha with h1 | h1
    · exact hhT a h1
    · rw [List.mem_singleton.1 h1]; exact hT
  have hb1 : binary_search (history ++ [h]) T = some history.length := by
    rw [binary_search_last _ T (by simp) hhp hall, List.length_append, List.length_singleton]
    rfl
  have hget : (history ++ [h])[history.length]? = some h := by
    rw [List.getElem?_append_right (Nat.le_refl _)]
    simp
  have hpos : 0 < log.length := List.length_pos.2 hlne
  have hb2 : binary_search log h.1 = some (log.length - 1) :=
    binary_search_last log h.1 hlne hlp hlh
  have hdrop : log.drop (log.length - 1 + 1) = [] := by
    apply List.drop_eq_nil_of_le
    omega
  simp only [reconstruct_from, hb1, hget, hb2, hdrop, replay_loop]

theorem do_assign_counter (s : State) (ts k : Nat) (s1 : State) (out : List Record)
    (h : do_assign s ts k = some (s1, out)) : s1.counter = s.counter := by
  let sa : State := { s with cpu_queue := purge ts s.cpu_queue }
  obtain ⟨s2, h2, _, _, _, _, _, _, hk, _, _⟩ :=
    assign_loop_spec ts (num_processed s ts k) sa (num_processed_le s ts k)
  have hloop : assign_loop ts (num_processed s ts k) { s with cpu_queue := purge ts s.cpu_queue } =
      some (s2, (pop_list sa.jobs (num_processed s ts k) sa.job_queue).map (record_of sa)) := h2
  simp only [do_assign] at h
  rw [hloop] at h
  simp only at h
  cases hlast : s2.job_queue_history.getLast? with
  | none => rw [hlast] at h; cases h
  | some last =>
    rw [hlast] at h
    simp only at h
    by_cases hgap : usub64 ts last.1 ≥ TIME_INTERVAL
    · rw [if_pos hgap] at h
      simp only [Option.some.injEq, Prod.mk.injEq] at h
      rw [← h.1]
      exact hk
    · rw [if_neg hgap] at h
      simp only [Option.some.injEq, Prod.mk.injEq] at h
      rw [← h.1]
      exact hk

theorem idsBelow_init (n : Nat) : IdsBelow (init n) := by
  refine ⟨by simp [init], ?_, ?_, ?_⟩
  · intro id hid; simp [init] at hid
  · intro snap hsnap id hid
    simp only [init, List.mem_singleton] at hsnap
    rw [hsnap] at hid
    simp at hid
  · intro e he hjob
    simp only [init, List.mem_singleton] at he
    rw [he] at hjob
    simp [JOB_ID] at hjob

theorem idsBelow_step (s : State) (c : Command) (s1 : State) (o : List Record)
    (hinv : IdsBelow s) (hc : c.is_update = true) (hstep : step s c = some (s1, o)) :
    IdsBelow s1 := by
  obtain ⟨hcnt, hq, hsnap, hlog⟩ := hinv
  cases c with
  | job t p og i imp d =>
    simp only [step, Option.some.injEq, Prod.mk.injEq] at hstep
    obtain ⟨⟨j, hj, _⟩, hl, hqq, hcn⟩ := do_job_effect s t p og i imp d
    obtain ⟨_, _, hh⟩ := do_job_frame s t p og i imp d
    rw [hstep.1] at hj hl hqq hcn hh
    have hlen : s1.jobs.length = s.jobs.length + 1 := by
      rw [hj, List.length_append, List.length_singleton]
    refine ⟨?_, ?_, ?_, ?_⟩
    · rw [hcn, hlen]
      simp only [uadd64]
      exact le_trans (Nat.mod_le _ _) (by omega)
    · intro id hid
      rw [hqq] at hid
      rcases List.mem_append.1 hid with h | h
      · have := hq id h; omega
      · rw [List.mem_singleton.1 h]; omega
    · intro snap hs id hid
      rw [hh] at hs
      have := hsnap snap hs id hid
      omega
    · intro e he hjob
      rw [hl] at he
      rcases List.mem_append.1 he with h | h
      · have := hlog e h hjob; omega
      · rw [List.mem_singleton.1 h]
        show s.counter < s1.jobs.length
        omega
  | assign ts k =>
    have hstep1 : do_assign s ts k = some (s1, o) := hstep
    obtain ⟨_, hv, hqq, _, _, hcase⟩ := do_assign_effect s ts k s1 o hstep1
    have hcn := do_assign_counter s ts k s1 o hstep1
    have hq1 : ∀ id ∈ s1.job_queue, id < s1.jobs.length := by
      intro id hid
      rw [hqq] at hid
      rw [hv.1]
      exact hq id (pop_rest_subset _ _ _ id hid)
    refine ⟨by rw [hcn, hv.1]; exact hcnt, hq1, ?_, ?_⟩
    · intro snap hs id hid
      rcases hcase with ⟨h1, _⟩ | ⟨h1, _⟩
      · rw [h1] at hs
        rcases List.mem_append.1 hs with h2 | h2
        · rw [hv.1]; exact hsnap snap h2 id hid
        · rw [List.mem_singleton.1 h2] at hid
          exact hq1 id hid
      · rw [h1] at hs
        rw [hv.1]; exact hsnap snap hs id hid
    · intro e he hjob
      rcases hcase with ⟨_, h1⟩ | ⟨_, h1⟩
      · rw [h1] at he
        rw [hv.1]; exact hlog e he hjob
      · rw [h1] at he
        rcases List.mem_append.1 he with h2 | h2
        · rw [hv.1]; exact hlog e h2 hjob
        · rw [List.mem_singleton.1 h2] at hjob
          simp [ASSIGN_ID, JOB_ID] at hjob
  | query ts a => simp [Command.is_update] at hc

theorem idsBelow_of_run (n : Nat) :
    ∀ cmds s outs, run (init n) cmds = some (s, outs) → UpdatesOnly cmds → IdsBelow s := by
  refine run_invariant (fun cmds s => UpdatesOnly cmds → IdsBelow s) (init n)
    (fun _ => idsBelow_init n) ?_
  intro cmds s c s1 out _ ih o hstep hupd
  obtain ⟨hu1, hu2⟩ := updatesOnly_append hupd
  exact idsBelow_step s c s1 o (ih hu1) (hu2 c (List.mem_singleton.2 rfl)) hstep

/-- The reference queue at a time not before any command is the live queue
at the end of the run. -/
theorem reference_all (n : Nat) (cmds : List Command) (s : State) (outs : List (List Record))
    (T : Nat) (hrun : run (init n) cmds = some (s, outs)) (hall : ∀ d ∈ cmds, d.ts ≤ T) :
    reference_queue n cmds T = some s.job_queue := by
  have hf : cmds.filter (fun c => decide (c.ts ≤ T)) = cmds := by
    rw [List.filter_eq_self]
    intro a ha
    simpa using hall a ha
  simp only [reference_queue, hf, hrun, Option.map_some']

/-- The reference queue at a time before the last command ignores that
command. -/
theorem reference_snoc_lt (n : Nat) (cmds : List Command) (c : Command) (T : Nat)
    (hlt : T < c.ts) : reference_queue n (cmds ++ [c]) T = reference_queue n cmds T := by
  have hf : (cmds ++ [c]).filter (fun c => decide (c.ts ≤ T)) =
      cmds.filter (fun c => decide (c.ts ≤ T)) := by
    rw [List.filter_append]
    have : [c].filter (fun c => decide (c.ts ≤ T)) = [] := by
      simp only [List.filter_cons, List.filter_nil]
      rw [if_neg]
      simp only [decide_eq_true_eq]
      omega
    rw [this, List.append_nil]
  simp only [reference_queue, hf]

/-- One more command with a timestamp above all earlier ones (and above 0)
keeps the reconstruction equal to the reference queue at every time. -/
theorem reconstruct_step (n : Nat) (cmds : List Command) (s : State) (c : Command)
    (s1 : State) (o : List Record) (outs : List (List Record))
    (hrun : run (init n) cmds = some (s, outs)) (hstep : step s c = some (s1, o))
    (hupd : UpdatesOnly (cmds ++ [c])) (hstrict : StrictlyIncreasing (cmds ++ [c]))
    (ih : ∀ T, reconstruct s T = reference_queue n cmds T) :
    ∀ T, reconstruct s1 T = reference_queue n (cmds ++ [c]) T := by
  obtain ⟨hu1, hu2⟩ := updatesOnly_append hupd
  have hcu : c.is_update = true := hu2 c (List.mem_singleton.2 rfl)
  obtain ⟨hsp, hs1⟩ := hstrict
  simp only [List.map_append, List.map_cons, List.map_nil] at hsp
  obtain ⟨hp1, _, hp3⟩ := List.pairwise_append.1 hsp
  have hlt : ∀ d ∈ cmds, d.ts < c.ts :=
    fun d hd => hp3 d.ts (List.mem_map_of_mem _ hd) c.ts (List.mem_singleton.2 rfl)
  have hpos : 1 ≤ c.ts := hs1 c (List.mem_append_right _ (List.mem_singleton.2 rfl))
  have hnd : NonDecreasing cmds := hp1.imp (fun h => Nat.le_of_lt h)
  obtain ⟨hlogp, hhist50, ⟨lrest, hl0, hlrest⟩, ⟨hrest, hh0, hhrest⟩⟩ :=
    timeInv_of_run n cmds s outs hrun hu1 hnd
  obtain ⟨_, hq, hsnap, hlogids⟩ := idsBelow_of_run n cmds s outs hrun hu1
  have hlogt : ∀ e ∈ s.job_timestamp, e.1 < c.ts := by
    intro e he
    rw [hl0] at he
    rcases List.mem_cons.1 he with rfl | he1
    · exact hpos
    · obtain ⟨d, hd, hdt⟩ := hlrest e he1
      rw [← hdt]
      exact hlt d hd
  have hhistt : ∀ h ∈ s.job_queue_history, h.1 < c.ts := by
    intro h hh
    rw [hh0] at hh
    rcases List.mem_cons.1 hh with rfl | hh1
    · exact hpos
    · obtain ⟨k, hk⟩ := hhrest h hh1
      exact hlt _ hk
  have hhistp : s.job_queue_history.Pairwise (fun a b => a.1 ≤ b.1) :=
    hhist50.imp (fun h => le_trans (Nat.le_add_right _ _) h)
  have hlne : s.job_timestamp ≠ [] := by rw [hl0]; simp
  have hhne : s.job_queue_history ≠ [] := by rw [hh0]; simp
  have hl00 : ∀ a, s.job_timestamp[0]? = some a → a.1 = 0 := by
    intro a ha
    rw [hl0, List.getElem?_cons_zero] at ha
    simp only [Option.some.injEq] at ha
    rw [← ha]
  have hh00 : ∀ a, s.job_queue_history[0]? = some a → a.1 = 0 := by
    intro a ha
    rw [hh0, List.getElem?_cons_zero] at ha
    simp only [Option.some.injEq] at ha
    rw [← ha]
  have hlogsnoc : ∀ x : Nat × Nat,
      (s.job_timestamp ++ [(c.ts, x)]).Pairwise (fun a b => a.1 ≤ b.1) := by
    intro x
    refine List.pairwise_append.2 ⟨hlogp, List.pairwise_singleton _ _, ?_⟩
    intro a ha b hb
    rw [List.mem_singleton.1 hb]
    exact Nat.le_of_lt (hlogt a ha)
  have hhistsnoc : ∀ Q : List Nat,
      (s.job_queue_history ++ [(c.ts, Q)]).Pairwise (fun a b => a.1 ≤ b.1) := by
    intro Q
    refine List.pairwise_append.2 ⟨hhistp, List.pairwise_singleton _ _, ?_⟩
    intro a ha b hb
    rw [List.mem_singleton.1 hb]
    exact Nat.le_of_lt (hhistt a ha)
  have hrun1 : run (init n) (cmds ++ [c]) = some (s1, outs ++ [o]) := by
    rw [run_snoc, hrun]
    simp only [hstep]
  have hprev : reconstruct_from s.jobs s.job_timestamp s.job_queue_history (c.ts - 1) =
      some s.job_queue := by
    rw [← reconstruct_eq_from, ih]
    apply reference_all n cmds s outs _ hrun
    intro d hd
    have := hlt d hd
    omega
  generalize ht0 : c.ts = t0 at hlt hpos hlogt hhistt hlogsnoc hhistsnoc hprev
  intro T
  by_cases hT : T < t0
  · rw [reference_snoc_lt n cmds c T (by rw [ht0]; exact hT), ← ih T]
    cases c with
    | job t p og i imp d =>
      have ht : t = t0 := ht0
      subst ht
      simp only [step, Option.some.injEq, Prod.mk.injEq] at hstep
      obtain ⟨⟨j, hj, _⟩, hl, _, _⟩ := do_job_effect s t p og i imp d
      obtain ⟨_, _, hh⟩ := do_job_frame s t p og i imp d
      rw [hstep.1] at hj hl hh
      rw [reconstruct_eq_from, hj, hl, hh,
        reconstruct_log_snoc_gt _ _ _ _ T hlne hl00 (hlogsnoc _) hhne hh00 hhistp hT,
        reconstruct_jobs_append _ _ _ _ T hsnap hlogids]
      rfl
    | assign ts k =>
      have ht : ts = t0 := ht0
      subst ht
      have hstep1 : do_assign s ts k = some (s1, o) := hstep
      obtain ⟨_, hv, _⟩ := do_assign_effect s ts k s1 o hstep1
      obtain ⟨last, hlast⟩ : ∃ last, s.job_queue_history.getLast? = some last := by
        cases hgl : s.job_queue_history.getLast? with
        | none => exact absurd (List.getLast?_eq_none_iff.1 hgl) hhne
        | some x => exact ⟨x, rfl⟩
      rcases do_assign_gate s ts k s1 o last hstep1 hlast with ⟨_, hh1, hl1⟩ | ⟨_, hh1, hl1⟩
      · rw [reconstruct_eq_from, hv.1, hl1, hh1,
          reconstruct_history_snoc_gt _ _ _ _ T hhne hh00 (hhistsnoc _) hT]
        rfl
      · rw [reconstruct_eq_from, hv.1, hl1, hh1,
          reconstruct_log_snoc_gt _ _ _ _ T hlne hl00 (hlogsnoc _) hhne hh00 hhistp hT]
        rfl
    | query ts a => simp [Command.is_update] at hcu
  · have hge : t0 ≤ T := by omega
    have hallT : ∀ d ∈ cmds ++ [c], d.ts ≤ T := by
      intro d hd
      rcases List.mem_append.1 hd with h | h
      · have := hlt d h; omega
      · rw [List.mem_singleton.1 h, ht0]; exact hge
    rw [reference_all n (cmds ++ [c]) s1 _ T hrun1 hallT]
    have hlT : ∀ a ∈ s.job_timestamp, a.1 ≤ T := fun a ha => by
      have := hlogt a ha; omega
    have hhT : ∀ a ∈ s.job_queue_history, a.1 ≤ T := fun a ha => by
      have := hhistt a ha; omega
    have hlP : ∀ a ∈ s.job_timestamp, a.1 ≤ t0 - 1 := fun a ha => by
      have := hlogt a ha; omega
    have hhP : ∀ a ∈ s.job_queue_history, a.1 ≤ t0 - 1 := fun a ha => by
      have := hhistt a ha; omega
    have hbound : reconstruct_from s.jobs s.job_timestamp s.job_queue_history T =
        some s.job_queue := by
      rw [reconstruct_bound _ _ _ T (t0 - 1) hhne hhistp hhT hhP hlT hlP]
      exact hprev
    cases c with
    | job t p og i imp d =>
      have ht : t = t0 := ht0
      subst ht
      simp only [step, Option.some.injEq, Prod.mk.injEq] at hstep
      obtain ⟨⟨j, hj, _⟩, hl, hqq, _⟩ := do_job_effect s t p og i imp d
      obtain ⟨_, _, hh⟩ := do_job_frame s t p og i imp d
      rw [hstep.1] at hj hl hh hqq
      have hge1 : t ≤ T := hge
      rw [reconstruct_eq_from, hj, hl, hh,
        reconstruct_log_snoc_le _ _ _ _ T hlne hl00 (hlogsnoc _) hhne hh00 hhistp hhistt hlT,
        reconstruct_jobs_append _ _ _ _ T hsnap hlogids, hbound, hqq]
      simp only [replay_loop, if_pos hge1, if_true, pq_push]
    | assign ts k =>
      have ht : ts = t0 := ht0
      subst ht
      have hstep1 : do_assign s ts k = some (s1, o) := hstep
      obtain ⟨_, hv, hqq, _⟩ := do_assign_effect s ts k s1 o hstep1
      obtain ⟨last, hlast⟩ : ∃ last, s.job_queue_history.getLast? = some last := by
        cases hgl : s.job_queue_history.getLast? with
        | none => exact absurd (List.getLast?_eq_none_iff.1 hgl) hhne
        | some x => exact ⟨x, rfl⟩
      have hge1 : ts ≤ T := hge
      rcases do_assign_gate s ts k s1 o last hstep1 hlast with ⟨_, hh1, hl1⟩ | ⟨_, hh1, hl1⟩
      · rw [reconstruct_eq_from, hv.1, hl1, hh1,
          reconstruct_history_snoc_le _ _ _ _ T hlne hlogp (hhistsnoc _) hhT hge1
            (fun a ha => Nat.le_of_lt (hlogt a ha))]
      · rw [reconstruct_eq_from, hv.1, hl1, hh1,
          reconstruct_log_snoc_le _ _ _ _ T hlne hl00 (hlogsnoc _) hhne hh00 hhistp hhistt hlT,
          hbound, hqq]
        have hne : ¬ ASSIGN_ID = JOB_ID := by decide
        simp only [replay_loop, if_pos hge1, if_neg hne,
          pop_n_eq s.jobs _ _ (num_processed_le s ts k)]
    | query ts a => simp [Command.is_update] at hcu

/-- After a run of `job` / `assign` commands with strictly increasing
timestamps, all at least 1, the reconstruction equals the reference queue at
every time. -/
theorem reconstruct_of_run (n : Nat) :
    ∀ cmds s outs, run (init n) cmds = some (s, outs) →
      UpdatesOnly cmds → StrictlyIncreasing cmds →
      ∀ T, reconstruct s T = reference_queue n cmds T := by
  intro cmds
  induction cmds using List.reverseRecOn with
  | nil =>
    intro s outs h _ _ T
    simp only [run, Option.some.injEq, Prod.mk.injEq] at h
    rw [← h.1]
    have hb1 : binary_search (init n).job_queue_history T = some 0 := by
      apply binary_search_eq _ _ _ (monoTs_of_pairwise _ (by simp [init]))
      · intro a ha
        simp only [init, List.getElem?_cons_zero, Option.some.injEq] at ha
        rw [← ha]; exact Nat.zero_le _
      · exact isRightmostLe_zero _ _ _ (Nat.zero_le _) (fun e he => by simp at he)
    have hb2 : binary_search (init n).job_timestamp 0 = some 0 := by
      show binary_search ([(0, (0, 1))] : List (Nat × (Nat × Nat))) 0 = some 0
      decide
    have hget : (init n).job_queue_history[0]? = some (0, []) := rfl
    simp only [reconstruct, hb1, hget, hb2, reference_queue, List.filter_nil, run,
      Option.map_some']
    rfl
  | append_singleton l c ih =>
    intro s outs h hupd hstrict
    rw [run_snoc] at h
    cases hl : run (init n) l with
    | none => rw [hl] at h; cases h
    | some r =>
      obtain ⟨s0, outs0⟩ := r
      rw [hl] at h
      simp only at h
      cases hc : step s0 c with
      | none => rw [hc] at h; cases h
      | some r2 =>
        obtain ⟨s2, o⟩ := r2
        rw [hc] at h
        simp only [Option.some.injEq, Prod.mk.injEq] at h
        rw [← h.1]
        have hu1 : UpdatesOnly l := (updatesOnly_append hupd).1
        have hs1 : StrictlyIncreasing l := by
          obtain ⟨hsp, hs2⟩ := hstrict
          simp only [List.map_append] at hsp
          exact ⟨(List.pairwise_append.1 hsp).1, fun d hd => hs2 d (List.mem_append_left _ hd)⟩
        exact reconstruct_step n l s0 c s2 o outs0 hl hc hupd hstrict (ih s0 outs0 hl hu1 hs1)
/-- C20 — Reconstruction under distinct timestamps.  For every sequence of
`job` / `assign` commands whose timestamps are strictly increasing and all at
least 1, and for every query timestamp `T`: the run returns, and the
reconstruction returns a queue `q`, its two binary searches succeeding and
its replay never popping from an empty queue (such a pop makes the model
return `none`).  That `q` is the reference queue at `T`, the live waiting
queue after the commands with timestamp at most `T`: for every split of the
sequence into the commands at or before `T` and those after, `q` is the live
queue after running the first part; it is empty if no command has timestamp
at most `T`. -/
theorem reconstruction_distinct_timestamps (n : Nat) (cmds : List Command)
    (hupd : UpdatesOnly cmds) (hstrict : StrictlyIncreasing cmds) (T : Nat) :
    ∃ s outs q, run (init n) cmds = some (s, outs) ∧ reconstruct s T = some q ∧
      (∃ i snap k, binary_search s.job_queue_history T = some i ∧
        s.job_queue_history[i]? = some snap ∧
        binary_search s.job_timestamp snap.1 = some k ∧
        replay_loop s.jobs T (s.job_timestamp.drop (k + 1)) snap.2 = some q) ∧
      reference_queue n cmds T = some q ∧
      (∀ pre post sp outsp, cmds = pre ++ post → (∀ c ∈ pre, c.ts ≤ T) →
        (∀ c ∈ post, T < c.ts) → run (init n) pre = some (sp, outsp) → q = sp.job_queue) ∧
      ((∀ c ∈ cmds, T < c.ts) → q = []) := by
  obtain ⟨s, outs, hrun⟩ := run_updates_returns cmds (init n) hupd (by simp [init])
  have hrec := reconstruct_of_run n cmds s outs hrun hupd hstrict T
  have hfupd : UpdatesOnly (cmds.filter (fun c => decide (c.ts ≤ T))) :=
    fun c hc => hupd c (List.mem_of_mem_filter hc)
  obtain ⟨sf, outsf, hrunf⟩ := run_updates_returns _ (init n) hfupd (by simp [init])
  have href : reference_queue n cmds T = some sf.job_queue := by
    simp only [reference_queue, hrunf, Option.map_some']
  have hsplit : ∀ pre post sp outsp, cmds = pre ++ post → (∀ c ∈ pre, c.ts ≤ T) →
      (∀ c ∈ post, T < c.ts) → run (init n) pre = some (sp, outsp) →
      sf.job_queue = sp.job_queue := by
    intro pre post sp outsp hcmds hpre hpost hrunp
    have hf : cmds.filter (fun c => decide (c.ts ≤ T)) = pre := by
      rw [hcmds, List.filter_append]
      have h1 : pre.filter (fun c => decide (c.ts ≤ T)) = pre := by
        rw [List.filter_eq_self]
        intro a ha
        simpa using hpre a ha
      have h2 : post.filter (fun c => decide (c.ts ≤ T)) = [] := by
        rw [List.filter_eq_nil_iff]
        intro a ha
        have := hpost a ha
        simp only [decide_eq_true_eq]
        omega
      rw [h1, h2, List.append_nil]
    rw [hf, hrunp] at hrunf
    simp only [Option.some.injEq, Prod.mk.injEq] at hrunf
    rw [hrunf.1]
  rw [href] at hrec
  refine ⟨s, outs, sf.job_queue, hrun, hrec, ?_, href, hsplit, ?_⟩
  · simp only [reconstruct] at hrec
    cases hb1 : binary_search s.job_queue_history T with
    | none => rw [hb1] at hrec; cases hrec
    | some i =>
      rw [hb1] at hrec
      simp only at hrec
      cases hget : s.job_queue_history[i]? with
      | none => rw [hget] at hrec; cases hrec
      | some snap =>
        rw [hget] at hrec
        simp only at hrec
        cases hb2 : binary_search s.job_timestamp snap.1 with
        | none => rw [hb2] at hrec; cases hrec
        | some k =>
          rw [hb2] at hrec
          exact ⟨i, snap, k, rfl, hget, hb2, hrec⟩
  · intro hnone
    exact hsplit [] cmds (init n) [] rfl (fun c hc => by simp at hc) hnone rfl

/-- C20, at a concrete input: five commands at times 10, 60, 61, 70, 80 (a
snapshot is taken at 60), queried at `T = 70`. -/
theorem reconstruction_distinct_timestamps_witness :
    UpdatesOnly distinct_ts_commands ∧ StrictlyIncreasing distinct_ts_commands ∧
      ∃ s outs q, run (init 2) distinct_ts_commands = some (s, outs) ∧
        reconstruct s 70 = some q ∧
        (∃ i snap k, binary_search s.job_queue_history 70 = some i ∧
          s.job_queue_history[i]? = some snap ∧
          binary_search s.job_timestamp snap.1 = some k ∧
          replay_loop s.jobs 70 (s.job_timestamp.drop (k + 1)) snap.2 = some q) ∧
        reference_queue 2 distinct_ts_commands 70 = some q ∧
        (∀ pre post sp outsp, distinct_ts_commands = pre ++ post → (∀ c ∈ pre, c.ts ≤ 70) →
          (∀ c ∈ post, 70 < c.ts) → run (init 2) pre = some (sp, outsp) →
          q = sp.job_queue) ∧
        ((∀ c ∈ distinct_ts_commands, 70 < c.ts) → q = []) :=
  ⟨by decide, by decide,
    reconstruction_distinct_timestamps 2 distinct_ts_commands (by decide) (by decide) 70⟩

/-! ## Top-k arguments above `INT_MAX` -/

/-- C9 — Top-k query, at the input `cpus 2; job 1 1 org1 instrA 5 10;
job 2 2 org2 instrB 3 10; query 2 2147483648`.  The argument is a string of
digits and the reconstruction for time 2 holds jobs 1 and 2, so
`min (k, size) = 2` records are due; but `k = std::stoi (orig)` reads an
`int`, the conversion fails above `2147483647`, and the query stops without
a result and prints no record.  With the argument `2147483647` the same
query prints both jobs. -/
theorem topk_query_aborts_above_int_max :
    isnum "2147483648" = true ∧ stoi "2147483648" = none ∧
      stoi "2147483647" = some 2147483647 ∧
      reconstruct late_jobs_state 2 = some [1, 2] ∧
      min 2147483648 ([1, 2] : List Nat).length = 2 ∧
      do_query late_jobs_state 2 "2147483648" = none ∧
      run (init 2) [Command.job 1 1 "org1" "instrA" 5 10, Command.job 2 2 "org2" "instrB" 3 10,
        Command.query 2 "2147483648"] = none ∧
      run (init 2) [Command.job 1 1 "org1" "instrA" 5 10, Command.job 2 2 "org2" "instrB" 3 10,
        Command.query 2 "2147483647"] =
        some (late_jobs_state,
          [[], [], [record_of late_jobs_state 1, record_of late_jobs_state 2]]) := by
  decide

end JobScheduler
